import Mathlib

/-!
# Vaccine manager

A shallow embedding of `project.c` / `aux.c` / `project.h` and the properties
proved about it.

Conventions of the embedding.

* A C string is the list of its bytes (as naturals) before the terminating NUL.
* C `int` values are integers; the one place where wrap-around of an `int`
  operation is observable (`ord_date`) reduces the result modulo 2^32.
* A command is taken after `sscanf` has split the input line into its fields.
* `sys->batches` is split into the `num_batch` stored records (`Sys.batches`,
  a list) and the remaining slots of the array (`Sys.spare`, indexed by the
  absolute slot number).  `sys->inocula` is the list of its `num_inocula`
  stored records.
* The element counts handed to `malloc`/`realloc` are kept in the two fields
  `batch_slots` and `inocula_slots`; array writes themselves are not limited by
  them, so that bounds can be stated as properties of a state.
* `strdup`/`realloc` are assumed to succeed (`check_allocation` never exits).
* The `idiom` argument only selects which of two texts is printed for an
  error kind; outputs are recorded by kind.
-/

namespace VaccineManager

/-! ## Limits (`project.h`) -/

def MAXBATCH : Int := 1000
def MAXBATCHNAME : Nat := 20
def MAXVACCNAME : Nat := 50

/-! ## Strings -/

/-- A C string: its bytes before the terminating NUL. -/
abbrev CStr := List Nat

/-- The libc `strcmp`.  C fixes only the sign of the result (bytes compared as
unsigned char); the embedding returns -1, 0 or 1. -/
def strcmp : CStr → CStr → Int
  | [], [] => 0
  | [], _ :: _ => -1
  | _ :: _, [] => 1
  | a :: as, b :: bs => if a = b then strcmp as bs else if a < b then -1 else 1

/-- The libc `tolower` in the C locale. -/
def tolower (c : Nat) : Nat := if 65 ≤ c ∧ c ≤ 90 then c + 32 else c

/-- The libc `strcasecmp`: `strcmp` after mapping both strings through `tolower`. -/
def strcasecmp (a b : CStr) : Int := strcmp (a.map tolower) (b.map tolower)

/-- The libc `strlen`. -/
def strlen (a : CStr) : Nat := a.length

/-! ## Data model (`project.h`) -/

/-- The struct `Date`. -/
structure Date where
  day : Int
  month : Int
  year : Int
deriving DecidableEq

/-- The struct `Batch`.  A name pointer that is NULL or stale (spare slots only)
is shown as the empty string; such a pointer is never dereferenced. -/
structure Batch where
  vacc_name : CStr
  batch_name : CStr
  exp_date : Date
  doses : Int
  num_app : Int
deriving DecidableEq

/-- The struct `Inocula`. -/
structure Inocula where
  user_name : CStr
  vacc_name : CStr
  batch_name : CStr
  ap_date : Date
deriving DecidableEq

/-- The struct `Sys`.  `batches` holds `sys->batches[0 .. num_batch-1]`,
`spare i` is `sys->batches[i]` for `i ≥ num_batch`, `inocula` holds
`sys->inocula[0 .. num_inocula-1]`.  `batch_slots` and `inocula_slots` record
the element count of the last `malloc`/`realloc` of each array. -/
structure Sys where
  mem_capacity : Int
  batches : List Batch
  spare : Nat → Batch
  today : Date
  inocula : List Inocula
  batch_slots : Int
  inocula_slots : Int

/-- The field `num_batch`. -/
def Sys.num_batch (sys : Sys) : Int := sys.batches.length

/-- The field `num_inocula`. -/
def Sys.num_inocula (sys : Sys) : Int := sys.inocula.length

/-- The error texts of `project.h`, by kind. -/
inductive Err
  | E2MANYVACC | EDUPBATCH | EINVBATCH | EINVNAME | EINVDATE | EINVQUANT
  | ENOSVACC | ENOSTOCK | EALRVACC | ENOSBATCH | ENOSUSER
deriving DecidableEq

/-- One printed line. -/
inductive Out
  /-- The call `puts(msg)`. -/
  | err (e : Err)
  /-- The call `printf("%s: %s\n", name, msg)`. -/
  | name_err (name : CStr) (e : Err)
  /-- The call `printf("%s\n", name)`. -/
  | name (name : CStr)
  /-- The call `printf("%d\n", n)`. -/
  | num (n : Int)
  /-- The call `printf("%02d-%02d-%02d\n", day, month, year)`. -/
  | date (d : Date)
  /-- The output of `print_batch_info`. -/
  | batch_info (b : Batch)
  /-- The output of `print_inocula_info`. -/
  | inocula_info (i : Inocula)
deriving DecidableEq

/-! ## Validations (`aux.c`) -/

/-- The function `validate_dup_batch_name`: the loop over the first `num` batches. -/
def validate_dup_batch_name : List Batch → CStr → Int
  | [], _ => 0
  | b :: rest, batch_name =>
    if strcmp b.batch_name batch_name = 0 then 1
    else validate_dup_batch_name rest batch_name

/-- The function `validate_batch_name_max`. -/
def validate_batch_name_max (batch_name : CStr) : Int :=
  if strlen batch_name > MAXBATCHNAME then 1 else 0

/-- The function `validate_batch_name_caract`: '0' = 48, '9' = 57, 'A' = 65, 'F' = 70. -/
def validate_batch_name_caract : CStr → Int
  | [] => 0
  | c :: rest =>
    if ¬ ((c ≥ 48 ∧ c ≤ 57) ∨ (c ≥ 65 ∧ c ≤ 70)) then 1
    else validate_batch_name_caract rest

/-- The character loop of `validate_vacc_name`: ' ' = 32, '\n' = 10, '\t' = 9. -/
def validate_vacc_name_chars : CStr → Int
  | [] => 0
  | c :: rest =>
    if c = 32 ∨ c = 10 ∨ c = 9 then 1 else validate_vacc_name_chars rest

/-- The function `validate_vacc_name`. -/
def validate_vacc_name (vacc_name : CStr) : Int :=
  if validate_vacc_name_chars vacc_name = 1 then 1
  else if strlen vacc_name > MAXVACCNAME then 1
  else 0

/-- The function `validate_doses`. -/
def validate_doses (doses : Int) : Int := if doses < 1 then 1 else 0

/-- The local table `days_in_month` of `validate_date`. -/
def days_in_month : List Int := [0, 31, 28, 31, 30, 31, 30, 31, 31, 30, 31, 30, 31]

/-- The body of `validate_date`: the returned value together with the list of
indices at which `days_in_month` is read.  The `||` chain of the second test
is evaluated left to right and stops at the first true operand. -/
def validate_date_reads (date : Date) (sys : Sys) : Int × List Int :=
  let current_date := sys.today
  if date.year < current_date.year ∨
     (date.year = current_date.year ∧ date.month < current_date.month) ∨
     (date.year = current_date.year ∧ date.month = current_date.month ∧
      date.day < current_date.day) then (1, [])
  else if date.month < 1 then (1, [])
  else if date.month > 12 then (1, [])
  else if date.day < 1 then (1, [])
  else if date.day > days_in_month.getD date.month.toNat 0 then (1, [date.month])
  else (0, [date.month])

/-- The function `validate_date`. -/
def validate_date (date : Date) (sys : Sys) : Int := (validate_date_reads date sys).1

/-- The function `validate_batch_inputs`: `some e` when it prints the text of
kind `e` and returns 1, `none` when it returns 0. -/
def validate_batch_inputs (sys : Sys) (batch_name vacc_name : CStr) (exp_date : Date)
    (doses : Int) : Option Err :=
  if sys.num_batch ≥ MAXBATCH then some Err.E2MANYVACC
  else if validate_date exp_date sys ≠ 0 then some Err.EINVDATE
  else if validate_dup_batch_name sys.batches batch_name ≠ 0 then some Err.EDUPBATCH
  else if validate_vacc_name vacc_name ≠ 0 then some Err.EINVNAME
  else if validate_batch_name_max batch_name ≠ 0 ∨ validate_batch_name_caract batch_name ≠ 0 then
    some Err.EINVBATCH
  else if validate_doses doses ≠ 0 then some Err.EINVQUANT
  else none

/-! ## Ordering and sorting (`aux.c`) -/

/-- The value of a C `int` expression whose mathematical result is `x`:
reduced modulo 2^32 into [-2^31, 2^31). -/
def wrap32 (x : Int) : Int := (x + 2147483648) % 4294967296 - 2147483648

/-- The function `ord_date`. -/
def ord_date (date1 date2 : Date) : Int :=
  if date1.year ≠ date2.year then wrap32 (date1.year - date2.year)
  else if date1.month ≠ date2.month then wrap32 (date1.month - date2.month)
  else wrap32 (date1.day - date2.day)

/-- The function `ord_batches`. -/
def ord_batches (a b : Batch) : Int :=
  let cmp := ord_date a.exp_date b.exp_date
  if cmp ≠ 0 then cmp else strcmp a.batch_name b.batch_name

/-- The function `ord_inoculas`. -/
def ord_inoculas (a b : Inocula) : Int := ord_date a.ap_date b.ap_date

/-- The inner loop of `sort_batches` and of `sort_inoculas`, seen from slot `j`
of the array with `k` iterations left: each iteration compares the slots `j`
and `j + 1`, swaps them when `gt` holds, and moves on to `j + 1`. -/
def bubble_inner {α : Type} (gt : α → α → Bool) : Nat → List α → List α
  | k + 1, a :: b :: t =>
    if gt a b then b :: bubble_inner gt k (a :: t) else a :: bubble_inner gt k (b :: t)
  | _, l => l

/-- The outer loop of `sort_batches` and of `sort_inoculas` with `r` passes
left: pass `i` runs the inner loop for `j < num - i - 1`, that is `r = num - 1 - i`
iterations from slot 0; the passes are `i = 0, ..., num - 2`. -/
def bubble_outer {α : Type} (gt : α → α → Bool) : Nat → List α → List α
  | 0, l => l
  | r + 1, l => bubble_outer gt r (bubble_inner gt (r + 1) l)

/-- The function `sort_batches`. -/
def sort_batches (batches : List Batch) (num_batches : Nat) : List Batch :=
  bubble_outer (fun a b => decide (ord_batches a b > 0)) (num_batches - 1) batches

/-- The function `sort_inoculas`. -/
def sort_inoculas (inocula : List Inocula) (num_inocula : Nat) : List Inocula :=
  bubble_outer (fun a b => decide (ord_inoculas a b > 0)) (num_inocula - 1) inocula

/-! ## Slots of the batch array -/

/-- The slot `sys->batches[i]`. -/
def Sys.slot (sys : Sys) (i : Nat) : Batch := sys.batches.getD i (sys.spare i)

/-- The assignment `sys->batches[i] = b`. -/
def Sys.set_slot (sys : Sys) (i : Nat) (b : Batch) : Sys :=
  if i < sys.batches.length then { sys with batches := sys.batches.set i b }
  else { sys with spare := Function.update sys.spare i b }

/-- The function `set_batch_slots`, on the array as a map from slot number to
slot.  Its callers pass `start = num_batch`, so only spare slots are written. -/
def set_batch_slots (batches : Nat → Batch) (start end_ : Int) : Nat → Batch :=
  fun i =>
    if start ≤ (i : Int) ∧ (i : Int) < end_ then
      { batches i with batch_name := [], vacc_name := [], num_app := 0, doses := 0 }
    else batches i

/-! ## Commands (`project.c`) -/

/-- The first statements of `add_batch`, up to the call of `sscanf`: the spare
slots are reset and, when the array is full, `mem_capacity` is doubled (10 when
it is 0), the array is reallocated and the spare slots are reset again. -/
def add_batch_slots (sys : Sys) : Sys :=
  let sys1 := { sys with spare := set_batch_slots sys.spare sys.num_batch sys.mem_capacity }
  if sys1.num_batch ≥ sys1.mem_capacity then
    let cap := if sys1.mem_capacity ≠ 0 then sys1.mem_capacity * 2 else 10
    { sys1 with
      mem_capacity := cap
      batch_slots := cap
      spare := set_batch_slots sys1.spare sys1.num_batch cap }
  else sys1

/-- The function `add_batch` (command `c`).  The new record is written into
slot `num_batch`: the two names, the date and the doses are assigned, the
field `num_app` keeps the value the slot had. -/
def add_batch (sys : Sys) (batch_name : CStr) (exp_date : Date) (doses : Int)
    (vacc_name : CStr) : Sys × List Out :=
  let sys2 := add_batch_slots sys
  match validate_batch_inputs sys2 batch_name vacc_name exp_date doses with
  | some e => (sys2, [Out.err e])
  | none =>
    let slot := sys2.spare sys2.batches.length
    ({ sys2 with
       batches := sys2.batches ++
         [{ slot with
            batch_name := batch_name, vacc_name := vacc_name
            exp_date := exp_date, doses := doses }] },
     [Out.name batch_name])

/-- The lines printed for one name of the filtered listing of `list_batches`. -/
def list_batches_name (batches : List Batch) (vacc_name : CStr) : List Out :=
  let hits := batches.filter (fun b => decide (strcmp b.vacc_name vacc_name = 0))
  if hits = [] then [Out.name_err vacc_name Err.ENOSVACC] else hits.map Out.batch_info

/-- The function `list_batches` (command `l`); `names` are the vaccine names
that follow the command letter, none for the full listing. -/
def list_batches (sys : Sys) (names : List CStr) : Sys × List Out :=
  let sys1 := { sys with batches := sort_batches sys.batches sys.batches.length }
  match names with
  | [] => (sys1, sys1.batches.map Out.batch_info)
  | _ => (sys1, (names.map (list_batches_name sys1.batches)).flatten)

/-- The function `update_date` (command `t`); `arg` is the date read by
`sscanf`, none when the line has no argument. -/
def update_date (sys : Sys) (arg : Option Date) : Sys × List Out :=
  match arg with
  | none => (sys, [Out.date sys.today])
  | some new_date =>
    if validate_date new_date sys ≠ 0 then (sys, [Out.err Err.EINVDATE])
    else ({ sys with today := new_date }, [Out.date new_date])

/-- The function `expand_inocula_memory`. -/
def expand_inocula_memory (sys : Sys) : Sys :=
  if sys.num_inocula ≥ sys.mem_capacity then
    let cap := if sys.mem_capacity > 0 then sys.mem_capacity * 2 else 10
    { sys with mem_capacity := cap, inocula_slots := cap }
  else sys

/-- The loop of `is_already_vaccinated` over the stored records. -/
def is_already_vaccinated_loop (today : Date) : List Inocula → CStr → CStr → Int
  | [], _, _ => 0
  | r :: rest, user_name, vacc_name =>
    if strcmp r.user_name user_name = 0 ∧ strcmp r.vacc_name vacc_name = 0 ∧
       today.year = r.ap_date.year ∧ today.month = r.ap_date.month ∧
       today.day = r.ap_date.day then 1
    else is_already_vaccinated_loop today rest user_name vacc_name

/-- The function `is_already_vaccinated`. -/
def is_already_vaccinated (sys : Sys) (user_name vacc_name : CStr) : Int :=
  is_already_vaccinated_loop sys.today sys.inocula user_name vacc_name

/-- The function `create_inocula`; `i` is the slot the pointer `batch` refers to. -/
def create_inocula (sys : Sys) (i : Nat) (user_name vacc_name : CStr) : Sys × List Out :=
  let batch := sys.slot i
  let record : Inocula :=
    { user_name := user_name, vacc_name := vacc_name
      batch_name := batch.batch_name, ap_date := sys.today }
  let sys1 := { sys with inocula := sys.inocula ++ [record] }
  let sys2 := sys1.set_slot i { batch with num_app := batch.num_app + 1 }
  (sys2, [Out.name batch.batch_name])

/-- The search loop of `vaccinate` from slot `i`: the first slot whose vaccine
name matches without regard to case and whose doses are positive. -/
def vaccinate_scan : List Batch → CStr → Nat → Option Nat
  | [], _, _ => none
  | b :: rest, vacc_name, i =>
    if strcasecmp b.vacc_name vacc_name = 0 ∧ b.doses > 0 then some i
    else vaccinate_scan rest vacc_name (i + 1)

/-- The function `vaccinate` (command `a`). -/
def vaccinate (sys : Sys) (user_name vacc_name : CStr) : Sys × List Out :=
  let sys1 := { sys with batches := sort_batches sys.batches sys.batches.length }
  if is_already_vaccinated sys1 user_name vacc_name ≠ 0 then (sys1, [Out.err Err.EALRVACC])
  else
    let sys2 := expand_inocula_memory sys1
    match vaccinate_scan sys2.batches vacc_name 0 with
    | some i =>
      let b := sys2.slot i
      let sys3 := sys2.set_slot i { b with doses := b.doses - 1 }
      create_inocula sys3 i user_name vacc_name
    | none => (sys2, [Out.err Err.ENOSTOCK])

/-- The search loop of `delete_batch` from slot `i`: the first slot whose batch
name equals `batch_name`. -/
def delete_batch_scan : List Batch → CStr → Nat → Option Nat
  | [], _, _ => none
  | b :: rest, batch_name, i =>
    if strcmp b.batch_name batch_name = 0 then some i
    else delete_batch_scan rest batch_name (i + 1)

/-- The function `delete_batch` (command `r`).  On full removal the slots above
`i` move down by one and the last slot keeps its old content as a spare slot. -/
def delete_batch (sys : Sys) (batch_name : CStr) : Sys × List Out :=
  match delete_batch_scan sys.batches batch_name 0 with
  | some i =>
    let b := sys.slot i
    if b.num_app = 0 then
      let last := sys.batches.length - 1
      ({ sys with
         batches := sys.batches.eraseIdx i
         spare := Function.update sys.spare last (sys.slot last) },
       [Out.num 0])
    else (sys.set_slot i { b with doses := 0 }, [Out.num b.num_app])
  | none => (sys, [Out.name_err batch_name Err.ENOSBATCH])

/-- The function `list_inoculas` (command `u`); `user` is the name that
follows the command letter, none for the full listing. -/
def list_inoculas (sys : Sys) (user : Option CStr) : Sys × List Out :=
  let sys1 := { sys with inocula := sort_inoculas sys.inocula sys.inocula.length }
  match user with
  | none => (sys1, sys1.inocula.map Out.inocula_info)
  | some user_name =>
    let hits := sys1.inocula.filter (fun r => decide (strcmp r.user_name user_name = 0))
    if hits = [] then (sys1, [Out.name_err user_name Err.ENOSUSER])
    else (sys1, hits.map Out.inocula_info)

/-- The function `is_user_found`. -/
def is_user_found : List Inocula → CStr → Int
  | [], _ => 0
  | r :: rest, user_name =>
    if strcmp r.user_name user_name = 0 then 1 else is_user_found rest user_name

/-- The function `is_batch_found`. -/
def is_batch_found : List Batch → CStr → Int
  | [], _ => 0
  | b :: rest, batch_name =>
    if strcmp b.batch_name batch_name = 0 then 1 else is_batch_found rest batch_name

/-- The function `is_future_date`. -/
def is_future_date (date : Date) (sys : Sys) : Int :=
  let current_date := sys.today
  if date.year > current_date.year then 1
  else if date.year = current_date.year ∧ date.month > current_date.month then 1
  else if date.year = current_date.year ∧ date.month = current_date.month ∧
          date.day > current_date.day then 1
  else 0

/-- The function `delete_inocula`. -/
def delete_inocula (inocula : Inocula) (user_name : CStr) (num_param : Int)
    (day month year : Int) (batch_name : CStr) : Int :=
  if strcmp inocula.user_name user_name ≠ 0 then 0
  else
    let matches_date : Bool := decide (num_param < 3) ||
      decide (inocula.ap_date.year = year ∧ inocula.ap_date.month = month ∧
              inocula.ap_date.day = day)
    let matches_batch : Bool := decide (num_param < 5) ||
      decide (strcmp inocula.batch_name batch_name = 0)
    if matches_date && matches_batch then 1 else 0

/-- The compaction loop of `delete_registration`: the records kept, in order,
and the value of `total_deleted`. -/
def delete_registration_loop (user_name : CStr) (num_param : Int) (day month year : Int)
    (batch_name : CStr) : List Inocula → List Inocula × Int
  | [] => ([], 0)
  | r :: rest =>
    let p := delete_registration_loop user_name num_param day month year batch_name rest
    if delete_inocula r user_name num_param day month year batch_name ≠ 0 then (p.1, p.2 + 1)
    else (r :: p.1, p.2)

/-- The function `delete_registration` (command `d`); `num_param` is the value
returned by `sscanf`. -/
def delete_registration (sys : Sys) (user_name : CStr) (num_param : Int)
    (day month year : Int) (batch_name : CStr) : Sys × List Out :=
  if is_user_found sys.inocula user_name = 0 then
    (sys, [Out.name_err user_name Err.ENOSUSER])
  else if num_param ≥ 4 ∧ is_future_date ⟨day, month, year⟩ sys ≠ 0 then
    (sys, [Out.err Err.EINVDATE])
  else if num_param = 5 ∧ is_batch_found sys.batches batch_name = 0 then
    (sys, [Out.name_err batch_name Err.ENOSBATCH])
  else
    let p := delete_registration_loop user_name num_param day month year batch_name sys.inocula
    ({ sys with inocula := p.1 }, [Out.num p.2])

/-- The function `set_system` followed by the two `malloc` calls of `main`;
`garbage` is the uninitialised content of the fresh batch array. -/
def set_system (garbage : Nat → Batch) : Sys :=
  { mem_capacity := 10
    batches := []
    spare := garbage
    today := ⟨1, 1, 2025⟩
    inocula := []
    batch_slots := 10
    inocula_slots := 10 }

/-- One input line after parsing, by the command letter `main` switches on. -/
inductive Cmd
  | add_batch (batch_name : CStr) (day month year : Int) (doses : Int) (vacc_name : CStr)
  | list_batches (names : List CStr)
  | vaccinate (user_name vacc_name : CStr)
  | delete_batch (batch_name : CStr)
  | list_inoculas (user : Option CStr)
  | update_date (arg : Option Date)
  | delete_registration (user_name : CStr) (num_param : Int) (day month year : Int)
      (batch_name : CStr)
  | other

/-- The switch of `main` for one line other than `q`. -/
def step (sys : Sys) : Cmd → Sys × List Out
  | Cmd.add_batch batch_name day month year doses vacc_name =>
    add_batch sys batch_name ⟨day, month, year⟩ doses vacc_name
  | Cmd.list_batches names => list_batches sys names
  | Cmd.vaccinate user_name vacc_name => vaccinate sys user_name vacc_name
  | Cmd.delete_batch batch_name => delete_batch sys batch_name
  | Cmd.list_inoculas user => list_inoculas sys user
  | Cmd.update_date arg => update_date sys arg
  | Cmd.delete_registration user_name num_param day month year batch_name =>
    delete_registration sys user_name num_param day month year batch_name
  | Cmd.other => (sys, [])

/-- The command loop of `main` over the lines read before `q` or end of input:
the final state and all printed lines. -/
def run : Sys → List Cmd → Sys × List Out
  | sys, [] => (sys, [])
  | sys, c :: cs =>
    let r := step sys c
    let r2 := run r.1 cs
    (r2.1, r.2 ++ r2.2)

/-- The range of a C `int`. -/
def int32 (x : Int) : Prop := -2147483648 ≤ x ∧ x < 2147483648

instance (x : Int) : Decidable (int32 x) := by unfold int32; infer_instance

/-- The integer fields of a parsed line are C `int` values. -/
def Cmd.wf : Cmd → Prop
  | Cmd.add_batch _ day month year doses _ => int32 day ∧ int32 month ∧ int32 year ∧ int32 doses
  | Cmd.update_date (some d) => int32 d.day ∧ int32 d.month ∧ int32 d.year
  | Cmd.delete_registration _ num_param day month year _ =>
    int32 num_param ∧ int32 day ∧ int32 month ∧ int32 year
  | _ => True

/-- The states the program can be in after reading any number of lines. -/
inductive Reachable : Sys → Prop
  | init (garbage : Nat → Batch) : Reachable (set_system garbage)
  | step (sys : Sys) (c : Cmd) : Reachable sys → c.wf → Reachable (step sys c).1

/-! ## Notions used to state the properties -/

/-- Strictly earlier in the lexicographic order on (year, month, day). -/
def Date.before (a b : Date) : Prop :=
  a.year < b.year ∨ (a.year = b.year ∧ (a.month < b.month ∨ (a.month = b.month ∧ a.day < b.day)))

instance (a b : Date) : Decidable (a.before b) := by unfold Date.before; infer_instance

/-- A date of the calendar with the fixed month lengths 31, 28, 31, 30, 31, 30, 31, 31, 30,
31, 30, 31 for the months 1 to 12. -/
def Date.calendar_valid (d : Date) : Prop :=
  1 ≤ d.month ∧ d.month ≤ 12 ∧ 1 ≤ d.day ∧
    d.day ≤ [31, 28, 31, 30, 31, 30, 31, 31, 30, 31, 30, 31].getD (d.month - 1).toNat 0

instance (d : Date) : Decidable d.calendar_valid := by unfold Date.calendar_valid; infer_instance

/-- An initial content of the batch array. -/
def ex_garbage : Nat → Batch := fun _ => ⟨[], [], ⟨0, 0, 0⟩, 0, 0⟩

/-- The lines `c A 01-01-2026 5 V`. -/
def ex_cmds_one : List Cmd := [Cmd.add_batch [65] 1 1 2026 5 [86]]

/-- The lines `c 0 01-01-2026 1 V`, ..., `c 9 01-01-2026 1 V`. -/
def ex_cmds_ten : List Cmd :=
  (List.range 10).map (fun i => Cmd.add_batch [48 + i] 1 1 2026 1 [86])

/-- The lines `c A 01-01-2026 5 V`, `c B 01-01-2026 5 W`, `a Ana W`, `r A`. -/
def ex_cmds_stale : List Cmd :=
  [Cmd.add_batch [65] 1 1 2026 5 [86], Cmd.add_batch [66] 1 1 2026 5 [87],
   Cmd.vaccinate [65, 110, 97] [87], Cmd.delete_batch [65]]

/-- The state after the lines `ex_cmds_one`. -/
def ex_state_one : Sys := (run (set_system ex_garbage) ex_cmds_one).1

/-- The state after the lines `ex_cmds_ten`. -/
def ex_state_ten : Sys := (run (set_system ex_garbage) ex_cmds_ten).1

/-- The state after the lines `ex_cmds_stale`. -/
def ex_state_stale : Sys := (run (set_system ex_garbage) ex_cmds_stale).1

instance (c : Cmd) : Decidable c.wf := by
  cases c with
  | update_date arg => cases arg <;> unfold Cmd.wf <;> infer_instance
  | _ => unfold Cmd.wf; infer_instance

/-- The three fields lie in [0, 2^31). -/
def Date.in_range (d : Date) : Prop :=
  (0 ≤ d.day ∧ d.day < 2147483648) ∧ (0 ≤ d.month ∧ d.month < 2147483648) ∧
    (0 ≤ d.year ∧ d.year < 2147483648)

instance (d : Date) : Decidable d.in_range := by unfold Date.in_range; infer_instance

/-- The order of `sort_batches` in the words of the specification: `a` is
listed no later than `b` when it expires earlier, or on the same date with a
batch id that is equal or lexicographically smaller (bytes compared as numbers). -/
def Batch.no_later (a b : Batch) : Prop :=
  a.exp_date.before b.exp_date ∨
    (a.exp_date = b.exp_date ∧
      (a.batch_name = b.batch_name ∨ List.Lex (· < ·) a.batch_name b.batch_name))

/-- A batch that can serve a request for `vacc_name`: its vaccine name equals
the requested one up to the case of the letters A-Z, and it has doses left. -/
def Batch.dispensable (b : Batch) (vacc_name : CStr) : Prop :=
  b.vacc_name.map tolower = vacc_name.map tolower ∧ b.doses > 0

instance (b : Batch) (v : CStr) : Decidable (b.dispensable v) := by
  unfold Batch.dispensable; infer_instance

/-- The fields of a batch record that no command changes once it is stored. -/
def Batch.ident (b : Batch) : CStr × CStr × Date := (b.batch_name, b.vacc_name, b.exp_date)

/-- The lines `c A 01-01-2026 5 V`, `c B 01-06-2025 5 V`, `t 01-07-2025`. -/
def ex_cmds_expired : List Cmd :=
  [Cmd.add_batch [65] 1 1 2026 5 [86], Cmd.add_batch [66] 1 6 2025 5 [86],
   Cmd.update_date (some ⟨1, 7, 2025⟩)]

/-- The state after the lines `ex_cmds_expired`. -/
def ex_state_expired : Sys := (run (set_system ex_garbage) ex_cmds_expired).1

/-- The lines `c A 01-01-2026 10 V`, `a 0 V`, ..., `a 9 V`. -/
def ex_cmds_full : List Cmd :=
  Cmd.add_batch [65] 1 1 2026 10 [86] ::
    (List.range 10).map (fun i => Cmd.vaccinate [48 + i] [86])

/-- The state after the lines `ex_cmds_full`. -/
def ex_state_full : Sys := (run (set_system ex_garbage) ex_cmds_full).1

/-- One line counts when it is a vaccination answered with the batch id `x`. -/
def drawn_one (x : CStr) (sys : Sys) : Cmd → Nat
  | Cmd.vaccinate u v => if (vaccinate sys u v).2 = [Out.name x] then 1 else 0
  | _ => 0

/-- The number of lines of `cs`, run from `sys`, that are vaccinations answered
with the batch id `x`. -/
def drawn (x : CStr) : Sys → List Cmd → Nat
  | _, [] => 0
  | sys, c :: cs => drawn_one x sys c + drawn x (step sys c).1 cs

/-- The store holds no two batches of the same id, and the batch `x` is stored
with `n - k` doses and application count `k`, where `k ≤ n`. -/
def Tracks (x : CStr) (n : Int) (sys : Sys) (k : Nat) : Prop :=
  (sys.batches.map Batch.batch_name).Nodup ∧
    ∃ b ∈ sys.batches, b.batch_name = x ∧ b.doses = n - k ∧ b.num_app = k ∧ (k : Int) ≤ n

/-- The lines `a 0 V`, `a 1 V`, `a 2 V`, `l`. -/
def ex_cmds_draw : List Cmd :=
  [Cmd.vaccinate [48] [86], Cmd.vaccinate [49] [86], Cmd.vaccinate [50] [86],
   Cmd.list_batches []]

/-- Two batches with distinct ids whose years differ by more than 2^31. -/
def ex_batches_wrap : List Batch :=
  [⟨[86], [65], ⟨1, 1, 2000000000⟩, 1, 0⟩, ⟨[86], [66], ⟨1, 1, -2000000000⟩, 1, 0⟩]

/-- Two ledger entries whose years differ by more than 2^31. -/
def ex_inocula_wrap : List Inocula :=
  [⟨[65], [86], [65], ⟨1, 1, 2000000000⟩⟩, ⟨[66], [86], [65], ⟨1, 1, -2000000000⟩⟩]

/-- The lines `c B 01-01-2027 5 V`, `c A 01-01-2026 5 V`, `c C 01-01-2026 5 V`,
`a Ana V`, `t 01-02-2025`, `a Rui V`, `a Ana V`. -/
def ex_cmds_mixed : List Cmd :=
  [Cmd.add_batch [66] 1 1 2027 5 [86], Cmd.add_batch [65] 1 1 2026 5 [86],
   Cmd.add_batch [67] 1 1 2026 5 [86], Cmd.vaccinate [65, 110, 97] [86],
   Cmd.update_date (some ⟨1, 2, 2025⟩), Cmd.vaccinate [82, 117, 105] [86],
   Cmd.vaccinate [65, 110, 97] [86]]

/-- The state after the lines `ex_cmds_mixed`. -/
def ex_state_mixed : Sys := (run (set_system ex_garbage) ex_cmds_mixed).1

/-- The ledger entries a delete request selects: the user name is `u`; when
`sscanf` has read a date (`num_param` at least 3, which includes every line
with a full date) the application date is that date; when it has read a batch
id (`num_param` at least 5) the batch id is that id. -/
def Inocula.selected (r : Inocula) (u : CStr) (num_param : Int) (date : Date)
    (bn : CStr) : Prop :=
  r.user_name = u ∧ (3 ≤ num_param → r.ap_date = date) ∧ (5 ≤ num_param → r.batch_name = bn)

instance (r : Inocula) (u : CStr) (np : Int) (date : Date) (bn : CStr) :
    Decidable (r.selected u np date bn) := by
  unfold Inocula.selected; infer_instance

/-- An initial content of the batch array with no zero field. -/
def ex_junk : Nat → Batch := fun _ => ⟨[9], [9], ⟨7, 7, 7⟩, 7, 7⟩

/-- The lines `c A 01-01-2026 11 V`, `a 0 V`, ..., `a 9 V`, `a : V` (eleven users). -/
def ex_cmds_grow_ledger : List Cmd :=
  Cmd.add_batch [65] 1 1 2026 11 [86] ::
    (List.range 11).map (fun i => Cmd.vaccinate [48 + i] [86])

/-- The state after the lines `ex_cmds_grow_ledger`. -/
def ex_state_grow_ledger : Sys := (run (set_system ex_junk) ex_cmds_grow_ledger).1

/-- The lines `c 0 01-01-2026 1 V`, ..., `c 9 01-01-2026 1 V`. -/
def ex_cmds_ten_more : List Cmd :=
  (List.range 10).map (fun i => Cmd.add_batch [48 + i] 1 1 2026 1 [86])

/-- The lines `c 0 01-01-2026 1 V`, ..., `c 9 01-01-2026 1 V`, `c A 01-01-2026 1 V`,
followed by `a 0 V`, ..., `a 9 V`, `a : V` (eleven users). -/
def ex_cmds_grow_batches : List Cmd :=
  ex_cmds_ten_more ++ [Cmd.add_batch [65] 1 1 2026 1 [86]] ++
    (List.range 11).map (fun i => Cmd.vaccinate [48 + i] [86])

/-- The user name, vaccine name and application date of a ledger entry. -/
def Inocula.key (r : Inocula) : CStr × CStr × Date := (r.user_name, r.vacc_name, r.ap_date)

/-- The three fields are C `int` values. -/
def Date.is_int32 (d : Date) : Prop :=
  VaccineManager.int32 d.day ∧ VaccineManager.int32 d.month ∧ VaccineManager.int32 d.year

instance (d : Date) : Decidable d.is_int32 := by unfold Date.is_int32; infer_instance

/-- The bytes of a text of ASCII characters. -/
def bytes (s : String) : CStr := s.toList.map Char.toNat

/-- The conversion `%d` of `printf`. -/
def fmt_d (n : Int) : CStr :=
  if n < 0 then 45 :: (Nat.toDigits 10 n.natAbs).map Char.toNat
  else (Nat.toDigits 10 n.toNat).map Char.toNat

/-- The conversion `%02d` of `printf`: at least two characters, padded with zeros. -/
def fmt_02d (n : Int) : CStr :=
  if 0 ≤ n ∧ n < 10 then 48 :: fmt_d n else fmt_d n

/-- The error texts of `project.h` for the default idiom (0). -/
def Err.text : Err → CStr
  | Err.E2MANYVACC => bytes "too many vaccines"
  | Err.EDUPBATCH => bytes "duplicate batch number"
  | Err.EINVBATCH => bytes "invalid batch"
  | Err.EINVNAME => bytes "invalid name"
  | Err.EINVDATE => bytes "invalid date"
  | Err.EINVQUANT => bytes "invalid quantity"
  | Err.ENOSVACC => bytes "no such vaccine"
  | Err.ENOSTOCK => bytes "no stock"
  | Err.EALRVACC => bytes "already vaccinated"
  | Err.ENOSBATCH => bytes "no such batch"
  | Err.ENOSUSER => bytes "no such user"

/-- The line written by `print_batch_info`, without the final newline:
`printf("%s %s %02d-%02d-%02d %d %d\n", ...)`. -/
def print_batch_info (batch : Batch) : CStr :=
  batch.vacc_name ++ [32] ++ batch.batch_name ++ [32] ++
    fmt_02d batch.exp_date.day ++ [45] ++ fmt_02d batch.exp_date.month ++ [45] ++
    fmt_02d batch.exp_date.year ++ [32] ++ fmt_d batch.doses ++ [32] ++ fmt_d batch.num_app

/-- The line written by `print_inocula_info`, without the final newline:
`printf("%s %s %02d-%02d-%02d\n", ...)`. -/
def print_inocula_info (inocula : Inocula) : CStr :=
  inocula.user_name ++ [32] ++ inocula.batch_name ++ [32] ++
    fmt_02d inocula.ap_date.day ++ [45] ++ fmt_02d inocula.ap_date.month ++ [45] ++
    fmt_02d inocula.ap_date.year

/-- The text of a printed line, without the final newline, for the default idiom. -/
def Out.line : Out → CStr
  | Out.err e => e.text
  | Out.name_err s e => s ++ [58, 32] ++ e.text
  | Out.name s => s
  | Out.num n => fmt_d n
  | Out.date d => fmt_02d d.day ++ [45] ++ fmt_02d d.month ++ [45] ++ fmt_02d d.year
  | Out.batch_info b => print_batch_info b
  | Out.inocula_info i => print_inocula_info i

/-- The part of the state that the commands read: `mem_capacity`, the stored
batches, the current date and the ledger. -/
def Sys.view (sys : Sys) : Int × List Batch × Date × List Inocula :=
  (sys.mem_capacity, sys.batches, sys.today, sys.inocula)

/-- The lines `c 1A2B 31-12-2025 5 VacX`, `a Ana VacX`, `a Ana VacX`, `l`, `r 1A2B`. -/
def ex_cmds_scenario : List Cmd :=
  [Cmd.add_batch (bytes "1A2B") 31 12 2025 5 (bytes "VacX"),
   Cmd.vaccinate (bytes "Ana") (bytes "VacX"),
   Cmd.vaccinate (bytes "Ana") (bytes "VacX"),
   Cmd.list_batches [],
   Cmd.delete_batch (bytes "1A2B")]

/-- The lines `c 1A2B 31-12-2025 5 VacX`, `a Ana VacX`, `a Ana vacx`: the same
vaccine is requested twice on the same day, typed in two letter cases. -/
def ex_cmds_case : List Cmd :=
  [Cmd.add_batch (bytes "1A2B") 31 12 2025 5 (bytes "VacX"),
   Cmd.vaccinate (bytes "Ana") (bytes "VacX"),
   Cmd.vaccinate (bytes "Ana") (bytes "vacx")]

/-- The number of ledger entries that carry the batch id `x`. -/
def refs (x : CStr) (l : List Inocula) : Nat := l.countP (fun r => decide (r.batch_name = x))

/-- The states reached from an initial state by commands none of which removes
a ledger entry with batch id `x`: a command appends one entry to the ledger or
leaves a part of it, so it removes no entry with id `x` exactly when the number
of these entries does not go down. -/
inductive ReachableKeeping (x : CStr) : Sys → Prop
  | init (garbage : Nat → Batch) : ReachableKeeping x (set_system garbage)
  | step (sys : Sys) (c : Cmd) : ReachableKeeping x sys → c.wf →
      refs x sys.inocula ≤ refs x (step sys c).1.inocula → ReachableKeeping x (step sys c).1

/-- No command of `cs`, run from `sys`, removes a ledger entry with batch id `x`. -/
def keeps (x : CStr) : Sys → List Cmd → Bool
  | _, [] => true
  | sys, c :: cs =>
    decide (refs x sys.inocula ≤ refs x (step sys c).1.inocula) && keeps x (step sys c).1 cs

/-- The lines `c B 01-01-2027 5 V`, `c A 01-01-2026 5 V`, `c C 01-01-2026 5 V`:
the three batches are stored in the order of the lines, which is not the order
of `sort_batches`. -/
def ex_cmds_unsorted : List Cmd :=
  [Cmd.add_batch [66] 1 1 2027 5 [86], Cmd.add_batch [65] 1 1 2026 5 [86],
   Cmd.add_batch [67] 1 1 2026 5 [86]]

/-- The state after the lines `ex_cmds_unsorted`. -/
def ex_state_unsorted : Sys := (run (set_system ex_garbage) ex_cmds_unsorted).1

/-- Four ledger entries, not in the order of their dates: `Ana` on 01-02-2025
from batch `A`, `Rui` on 01-01-2025, `Ana` on 01-01-2025, `Ana` on 01-02-2025
from batch `B`. -/
def ex_ledger_unsorted : List Inocula :=
  [⟨[65, 110, 97], [86], [65], ⟨1, 2, 2025⟩⟩, ⟨[82, 117, 105], [86], [65], ⟨1, 1, 2025⟩⟩,
   ⟨[65, 110, 97], [86], [67], ⟨1, 1, 2025⟩⟩, ⟨[65, 110, 97], [87], [66], ⟨1, 2, 2025⟩⟩]

/-- A state whose ledger is `ex_ledger_unsorted`. -/
def ex_state_ledger : Sys :=
  { set_system ex_garbage with inocula := ex_ledger_unsorted, today := ⟨1, 2, 2025⟩ }

theorem strcmp_eq_zero_iff (a b : CStr) : strcmp a b = 0 ↔ a = b := by
  induction a generalizing b with
  | nil => cases b <;> simp [strcmp]
  | cons x xs ih =>
    cases b with
    | nil => simp [strcmp]
    | cons y ys =>
      simp only [strcmp]
      by_cases hxy : x = y
      · simp [hxy, ih]
      · by_cases hlt : x < y <;> simp [hxy, hlt]

theorem validate_date_reads_fst (d : Date) (sys : Sys) :
    (validate_date_reads d sys).1 = if d.calendar_valid ∧ ¬ d.before sys.today then 0 else 1 := by
  obtain ⟨dd, m, y⟩ := d
  unfold validate_date_reads Date.calendar_valid Date.before
  simp only []
  by_cases h1 : 1 ≤ m
  · by_cases h2 : m ≤ 12
    · interval_cases m <;> simp [days_in_month] <;> split_ifs <;> first | rfl | omega
    · conv_rhs => rw [if_neg (by omega)]
      split_ifs <;> first | rfl | omega
  · conv_rhs => rw [if_neg (by omega)]
    split_ifs <;> first | rfl | omega

theorem validate_date_eq (d : Date) (sys : Sys) :
    validate_date d sys = if d.calendar_valid ∧ ¬ d.before sys.today then 0 else 1 :=
  validate_date_reads_fst d sys

theorem validate_date_reads_snd (d : Date) (sys : Sys) :
    ∀ m ∈ (validate_date_reads d sys).2, 1 ≤ m ∧ m ≤ 12 := by
  intro m hm
  unfold validate_date_reads at hm
  simp only [] at hm
  split_ifs at hm <;> simp at hm <;> omega

/-- C6: `validate_date` accepts a date exactly when its month is in [1,12], its
day is in [1, length of the month] for the fixed table 31, 28, 31, 30, 31, 30,
31, 31, 30, 31, 30, 31, and it is not strictly before the current date on
(year, month, day); it returns 0 or 1; 29 February is rejected for every year;
the current date itself is accepted when it is a calendar date; and the table
`days_in_month` is only ever read at an index in [1,12]. -/
theorem validate_date_accepts_iff (d : Date) (sys : Sys) :
    (validate_date d sys = 0 ↔
      (1 ≤ d.month ∧ d.month ≤ 12 ∧ 1 ≤ d.day ∧
        d.day ≤ [31, 28, 31, 30, 31, 30, 31, 31, 30, 31, 30, 31].getD (d.month - 1).toNat 0) ∧
      ¬ (d.year < sys.today.year ∨ (d.year = sys.today.year ∧
          (d.month < sys.today.month ∨ (d.month = sys.today.month ∧ d.day < sys.today.day))))) ∧
    (validate_date d sys = 0 ∨ validate_date d sys = 1) ∧
    (d.month = 2 ∧ d.day = 29 → validate_date d sys = 1) ∧
    (d = sys.today ∧ d.calendar_valid → validate_date d sys = 0) ∧
    (∀ m ∈ (validate_date_reads d sys).2, 1 ≤ m ∧ m ≤ 12) := by
  have h := validate_date_eq d sys
  refine ⟨?_, ?_, ?_, ?_, validate_date_reads_snd d sys⟩
  · rw [h]
    unfold Date.calendar_valid Date.before
    split_ifs with hc
    · simp only [true_iff]; exact hc
    · simp only [one_ne_zero, false_iff]; exact hc
  · rw [h]; split_ifs <;> simp
  · rintro ⟨hm, hd⟩
    rw [h, if_neg]
    rintro ⟨hc, -⟩
    unfold Date.calendar_valid at hc
    rw [hm, hd] at hc
    simp at hc
  · rintro ⟨he, hc⟩
    rw [h, if_pos]
    refine ⟨hc, ?_⟩
    rw [he]
    unfold Date.before
    omega

theorem validate_dup_batch_name_eq (l : List Batch) (n : CStr) :
    validate_dup_batch_name l n = if ∃ b ∈ l, b.batch_name = n then 1 else 0 := by
  induction l with
  | nil => simp [validate_dup_batch_name]
  | cons b rest ih =>
    simp only [validate_dup_batch_name, strcmp_eq_zero_iff, ih, List.exists_mem_cons_iff]
    by_cases hb : b.batch_name = n
    · simp [hb]
    · simp [hb]

theorem validate_batch_name_caract_eq (n : CStr) :
    validate_batch_name_caract n =
      if ∃ c ∈ n, ¬ ((48 ≤ c ∧ c ≤ 57) ∨ (65 ≤ c ∧ c ≤ 70)) then 1 else 0 := by
  induction n with
  | nil => simp [validate_batch_name_caract]
  | cons c rest ih =>
    simp only [validate_batch_name_caract, ih, List.exists_mem_cons_iff]
    by_cases hc : (48 ≤ c ∧ c ≤ 57) ∨ (65 ≤ c ∧ c ≤ 70)
    · simp [hc]
    · simp [hc]

theorem validate_vacc_name_chars_eq (n : CStr) :
    validate_vacc_name_chars n = if ∃ c ∈ n, c = 32 ∨ c = 10 ∨ c = 9 then 1 else 0 := by
  induction n with
  | nil => simp [validate_vacc_name_chars]
  | cons c rest ih =>
    simp only [validate_vacc_name_chars, ih, List.exists_mem_cons_iff]
    by_cases hc : c = 32 ∨ c = 10 ∨ c = 9
    · simp [hc]
    · simp [hc]

/-- The tests of `validate_batch_inputs` as one chain over the conditions they decide. -/
theorem validate_batch_inputs_chain (sys : Sys) (batch_name vacc_name : CStr)
    (exp_date : Date) (doses : Int) :
    validate_batch_inputs sys batch_name vacc_name exp_date doses =
      if sys.num_batch ≥ 1000 then some Err.E2MANYVACC
      else if ¬ (exp_date.calendar_valid ∧ ¬ exp_date.before sys.today) then some Err.EINVDATE
      else if ∃ b ∈ sys.batches, b.batch_name = batch_name then some Err.EDUPBATCH
      else if (∃ c ∈ vacc_name, c = 32 ∨ c = 10 ∨ c = 9) ∨ vacc_name.length > 50 then
        some Err.EINVNAME
      else if batch_name.length > 20 ∨
          (∃ c ∈ batch_name, ¬ ((48 ≤ c ∧ c ≤ 57) ∨ (65 ≤ c ∧ c ≤ 70))) then
        some Err.EINVBATCH
      else if doses < 1 then some Err.EINVQUANT
      else none := by
  unfold validate_batch_inputs
  rw [validate_date_eq, validate_dup_batch_name_eq, validate_batch_name_caract_eq]
  unfold validate_vacc_name validate_batch_name_max validate_doses
  rw [validate_vacc_name_chars_eq]
  simp only [MAXBATCH, MAXBATCHNAME, MAXVACCNAME, strlen]
  by_cases h1 : sys.num_batch ≥ 1000
  · simp [h1]
  by_cases h2 : exp_date.calendar_valid ∧ ¬ exp_date.before sys.today
  swap
  · simp [h1, h2]
  by_cases h3 : ∃ b ∈ sys.batches, b.batch_name = batch_name
  · simp [h1, h2, h3]
  by_cases h4 : ∃ c ∈ vacc_name, c = 32 ∨ c = 10 ∨ c = 9
  · simp [h1, h2, h3, h4]
  by_cases h4b : vacc_name.length > 50
  · simp [h1, h2, h3, h4, h4b]
  by_cases h5 : batch_name.length > 20
  · simp [h1, h2, h3, h4, h4b, h5]
  by_cases h5b : ∃ c ∈ batch_name, ¬ ((48 ≤ c ∧ c ≤ 57) ∨ (65 ≤ c ∧ c ≤ 70))
  · simp [h1, h2, h3, h4, h4b, h5, h5b]
  by_cases h6 : doses < 1
  · simp [h1, h2, h3, h4, h4b, h5, h5b, h6]
  · simp [h1, h2, h3, h4, h4b, h5, h5b, h6]

/-- C2: `validate_batch_inputs` reports the first violated rule in the order
too-many-batches (count at least 1000), invalid-date (not a calendar date or
before the current date), duplicate-batch-id (id already stored),
invalid-vaccine-name (a space, newline or tab in the name, or more than 50
bytes), invalid-batch-id (more than 20 bytes or a byte outside 0-9A-F),
invalid-dose-quantity (doses below 1); it accepts exactly when no rule is
violated. -/
theorem validate_batch_inputs_first_violation (sys : Sys) (batch_name vacc_name : CStr)
    (exp_date : Date) (doses : Int) :
    (validate_batch_inputs sys batch_name vacc_name exp_date doses =
      if sys.num_batch ≥ 1000 then some Err.E2MANYVACC
      else if ¬ (exp_date.calendar_valid ∧ ¬ exp_date.before sys.today) then some Err.EINVDATE
      else if ∃ b ∈ sys.batches, b.batch_name = batch_name then some Err.EDUPBATCH
      else if (∃ c ∈ vacc_name, c = 32 ∨ c = 10 ∨ c = 9) ∨ vacc_name.length > 50 then
        some Err.EINVNAME
      else if batch_name.length > 20 ∨
          (∃ c ∈ batch_name, ¬ ((48 ≤ c ∧ c ≤ 57) ∨ (65 ≤ c ∧ c ≤ 70))) then
        some Err.EINVBATCH
      else if doses < 1 then some Err.EINVQUANT
      else none) ∧
    (validate_batch_inputs sys batch_name vacc_name exp_date doses = none ↔
      sys.num_batch < 1000 ∧
      (exp_date.calendar_valid ∧ ¬ exp_date.before sys.today) ∧
      (∀ b ∈ sys.batches, b.batch_name ≠ batch_name) ∧
      ((∀ c ∈ vacc_name, c ≠ 32 ∧ c ≠ 10 ∧ c ≠ 9) ∧ vacc_name.length ≤ 50) ∧
      (batch_name.length ≤ 20 ∧
        ∀ c ∈ batch_name, (48 ≤ c ∧ c ≤ 57) ∨ (65 ≤ c ∧ c ≤ 70)) ∧
      1 ≤ doses) := by
  have hchain := validate_batch_inputs_chain sys batch_name vacc_name exp_date doses
  refine ⟨hchain, ?_⟩
  rw [hchain]
  constructor
  · intro h
    split_ifs at h with h1 h2 h3 h4 h5 h6
    push_neg at h2 h3 h4 h5
    refine ⟨by omega, h2, h3, ⟨?_, by omega⟩, ⟨by omega, h5.2⟩, by omega⟩
    intro c hc
    have := h4.1 c hc
    omega
  · rintro ⟨h1, h2, h3, ⟨h4, h4b⟩, ⟨h5, h5b⟩, h6⟩
    rw [if_neg (by omega), if_neg (by simpa using h2), if_neg, if_neg, if_neg, if_neg (by omega)]
    · rintro (h | ⟨c, hc, hbad⟩)
      · omega
      · exact hbad (h5b c hc)
    · rintro (⟨c, hc, hbad⟩ | h)
      · have := h4 c hc; omega
      · omega
    · rintro ⟨b, hb, hbn⟩
      exact h3 b hb hbn

theorem reachable_run (sys : Sys) (cs : List Cmd) (h : Reachable sys) (hwf : ∀ c ∈ cs, c.wf) :
    Reachable (run sys cs).1 := by
  induction cs generalizing sys with
  | nil => exact h
  | cons c cs ih =>
    simp only [run]
    exact ih _ (Reachable.step sys c h (hwf c (List.mem_cons_self _ _)))
      (fun c' hc' => hwf c' (List.mem_cons_of_mem _ hc'))

/-! ### Adding a batch -/

theorem validate_batch_inputs_congr (s1 s2 : Sys) (hb : s1.batches = s2.batches)
    (ht : s1.today = s2.today) (bn vn : CStr) (d : Date) (doses : Int) :
    validate_batch_inputs s1 bn vn d doses = validate_batch_inputs s2 bn vn d doses := by
  simp only [validate_batch_inputs, validate_date, validate_date_reads, Sys.num_batch, hb, ht]

theorem add_batch_slots_batches (sys : Sys) : (add_batch_slots sys).batches = sys.batches := by
  unfold add_batch_slots; simp only []; split_ifs <;> rfl

theorem add_batch_slots_today (sys : Sys) : (add_batch_slots sys).today = sys.today := by
  unfold add_batch_slots; simp only []; split_ifs <;> rfl

theorem add_batch_slots_inocula (sys : Sys) : (add_batch_slots sys).inocula = sys.inocula := by
  unfold add_batch_slots; simp only []; split_ifs <;> rfl

theorem add_batch_slots_inocula_slots (sys : Sys) :
    (add_batch_slots sys).inocula_slots = sys.inocula_slots := by
  unfold add_batch_slots; simp only []; split_ifs <;> rfl

theorem add_batch_slots_mem_capacity (sys : Sys) :
    (add_batch_slots sys).mem_capacity =
      if sys.num_batch < sys.mem_capacity then sys.mem_capacity
      else if sys.mem_capacity ≠ 0 then sys.mem_capacity * 2 else 10 := by
  unfold add_batch_slots; simp only [Sys.num_batch]
  by_cases h : (sys.batches.length : Int) < sys.mem_capacity
  · rw [if_neg (by omega), if_pos h]
  · rw [if_pos (by omega), if_neg h]

theorem add_batch_slots_batch_slots (sys : Sys) :
    (add_batch_slots sys).batch_slots =
      if sys.num_batch < sys.mem_capacity then sys.batch_slots
      else (add_batch_slots sys).mem_capacity := by
  unfold add_batch_slots; simp only [Sys.num_batch]
  by_cases h : (sys.batches.length : Int) < sys.mem_capacity
  · have h2 : ¬ ((sys.batches.length : Int) ≥ sys.mem_capacity) := by omega
    simp only [h, h2, if_true, if_false]
  · have h2 : (sys.batches.length : Int) ≥ sys.mem_capacity := by omega
    simp only [h, h2, if_true, if_false]

theorem add_batch_slots_spare (sys : Sys) :
    (add_batch_slots sys).spare =
      set_batch_slots sys.spare sys.num_batch (add_batch_slots sys).mem_capacity := by
  unfold add_batch_slots; simp only [Sys.num_batch]
  by_cases h : (sys.batches.length : Int) < sys.mem_capacity
  · rw [if_neg (by omega)]
  · rw [if_pos (by omega)]
    funext i
    simp only [set_batch_slots]
    have : ¬ ((sys.batches.length : Int) ≤ i ∧ (i : Int) < sys.mem_capacity) := by omega
    rw [if_neg this]

theorem add_batch_validate (sys : Sys) (bn vn : CStr) (d : Date) (doses : Int) :
    validate_batch_inputs (add_batch_slots sys) bn vn d doses =
      validate_batch_inputs sys bn vn d doses :=
  validate_batch_inputs_congr _ _ (add_batch_slots_batches sys) (add_batch_slots_today sys) _ _ _ _

theorem add_batch_of_rejected (sys : Sys) (bn vn : CStr) (d : Date) (doses : Int) (e : Err)
    (h : validate_batch_inputs sys bn vn d doses = some e) :
    add_batch sys bn d doses vn = (add_batch_slots sys, [Out.err e]) := by
  unfold add_batch
  simp only [add_batch_validate, h]

theorem add_batch_of_accepted (sys : Sys) (bn vn : CStr) (d : Date) (doses : Int)
    (h : validate_batch_inputs sys bn vn d doses = none) :
    add_batch sys bn d doses vn =
      ({ add_batch_slots sys with
         batches := sys.batches ++
           [{ (add_batch_slots sys).spare sys.batches.length with
              batch_name := bn, vacc_name := vn, exp_date := d, doses := doses }] },
       [Out.name bn]) := by
  unfold add_batch
  simp only [add_batch_validate, h, add_batch_slots_batches]

/-- C3, as stated, fails: after `c A 01-01-2026 5 V` the id `A` is stored, and
`c A 01-01-2020 5 V` (a date before the current date 01-01-2025) is answered
with invalid-date, not with duplicate-batch-id. -/
theorem add_batch_duplicate_reports_invalid_date :
    Reachable ex_state_one ∧
    (∃ b ∈ ex_state_one.batches, b.batch_name = [65]) ∧
    (add_batch ex_state_one [65] ⟨1, 1, 2020⟩ 5 [86]).2 = [Out.err Err.EINVDATE] ∧
    (add_batch ex_state_one [65] ⟨1, 1, 2020⟩ 5 [86]).2 ≠ [Out.err Err.EDUPBATCH] := by
  refine ⟨reachable_run _ _ (Reachable.init _) (by decide), by decide, by decide, by decide⟩

/-- C3 (amended): when the batch id is already stored, `add_batch` stores
nothing and prints one error: too-many-batches when 1000 or more batches are
stored, otherwise invalid-date when the expiration date is not a calendar date
or is before the current date, otherwise duplicate-batch-id, whatever the
vaccine name and the dose count. -/
theorem add_batch_duplicate_id (sys : Sys) (batch_name vacc_name : CStr) (exp_date : Date)
    (doses : Int) (hdup : ∃ b ∈ sys.batches, b.batch_name = batch_name) :
    (add_batch sys batch_name exp_date doses vacc_name).2 =
      [Out.err (if sys.num_batch ≥ 1000 then Err.E2MANYVACC
        else if ¬ (exp_date.calendar_valid ∧ ¬ exp_date.before sys.today) then Err.EINVDATE
        else Err.EDUPBATCH)] ∧
    (add_batch sys batch_name exp_date doses vacc_name).1.batches = sys.batches := by
  have hv := validate_batch_inputs_chain sys batch_name vacc_name exp_date doses
  rw [if_pos hdup] at hv
  have hv2 : validate_batch_inputs sys batch_name vacc_name exp_date doses =
      some (if sys.num_batch ≥ 1000 then Err.E2MANYVACC
        else if ¬ (exp_date.calendar_valid ∧ ¬ exp_date.before sys.today) then Err.EINVDATE
        else Err.EDUPBATCH) := by
    rw [hv]; split_ifs <;> rfl
  rw [add_batch_of_rejected sys batch_name vacc_name exp_date doses _ hv2]
  exact ⟨rfl, add_batch_slots_batches sys⟩

/-- C3 (amended), at `c A 01-01-2026 5 V` after the same line: the answer is
duplicate-batch-id. -/
theorem add_batch_duplicate_id_witness :
    (∃ b ∈ ex_state_one.batches, b.batch_name = [65]) ∧
    (add_batch ex_state_one [65] ⟨1, 1, 2026⟩ 5 [86]).2 = [Out.err Err.EDUPBATCH] ∧
    (add_batch ex_state_one [65] ⟨1, 1, 2026⟩ 5 [86]).1.batches = ex_state_one.batches :=
  ⟨by decide, by
    have h := (add_batch_duplicate_id ex_state_one [65] [86] ⟨1, 1, 2026⟩ 5 (by decide)).1
    rw [h]; decide,
   (add_batch_duplicate_id ex_state_one [65] [86] ⟨1, 1, 2026⟩ 5 (by decide)).2⟩

/-- C4, as stated, fails: after ten accepted `c` lines the array is full
(`num_batch = mem_capacity = 10`), and the rejected line `c A 01-01-2020 5 V`
leaves `mem_capacity` at 20. -/
theorem add_batch_rejected_changes_capacity :
    Reachable ex_state_ten ∧
    validate_batch_inputs ex_state_ten [65] [86] ⟨1, 1, 2020⟩ 5 = some Err.EINVDATE ∧
    (add_batch ex_state_ten [65] ⟨1, 1, 2020⟩ 5 [86]).2 = [Out.err Err.EINVDATE] ∧
    ex_state_ten.mem_capacity = 10 ∧
    (add_batch ex_state_ten [65] ⟨1, 1, 2020⟩ 5 [86]).1.mem_capacity = 20 := by
  refine ⟨reachable_run _ _ (Reachable.init _) (by decide), ?_, ?_, ?_, ?_⟩ <;>
    (set_option maxRecDepth 20000 in decide)

/-- C4 (amended): when validation rejects the input, `add_batch` prints the
error and leaves the stored batches (order and fields), the ledger and the
current date as they were; `mem_capacity` is unchanged when the batch count is
below it and is otherwise doubled (set to 10 when it was 0), the batch array
then being reallocated to that size; the spare slots of the batch array from
the batch count up to the resulting `mem_capacity` are reset. -/
theorem add_batch_rejected (sys : Sys) (batch_name vacc_name : CStr) (exp_date : Date)
    (doses : Int) (e : Err)
    (hrej : validate_batch_inputs sys batch_name vacc_name exp_date doses = some e) :
    (add_batch sys batch_name exp_date doses vacc_name).2 = [Out.err e] ∧
    (add_batch sys batch_name exp_date doses vacc_name).1.batches = sys.batches ∧
    (add_batch sys batch_name exp_date doses vacc_name).1.inocula = sys.inocula ∧
    (add_batch sys batch_name exp_date doses vacc_name).1.today = sys.today ∧
    (add_batch sys batch_name exp_date doses vacc_name).1.inocula_slots = sys.inocula_slots ∧
    (add_batch sys batch_name exp_date doses vacc_name).1.mem_capacity =
      (if sys.num_batch < sys.mem_capacity then sys.mem_capacity
       else if sys.mem_capacity ≠ 0 then sys.mem_capacity * 2 else 10) ∧
    (add_batch sys batch_name exp_date doses vacc_name).1.batch_slots =
      (if sys.num_batch < sys.mem_capacity then sys.batch_slots
       else (add_batch sys batch_name exp_date doses vacc_name).1.mem_capacity) ∧
    (add_batch sys batch_name exp_date doses vacc_name).1.spare =
      set_batch_slots sys.spare sys.num_batch
        (add_batch sys batch_name exp_date doses vacc_name).1.mem_capacity := by
  rw [add_batch_of_rejected sys batch_name vacc_name exp_date doses e hrej]
  exact ⟨rfl, add_batch_slots_batches sys, add_batch_slots_inocula sys, add_batch_slots_today sys,
    add_batch_slots_inocula_slots sys, add_batch_slots_mem_capacity sys,
    add_batch_slots_batch_slots sys, add_batch_slots_spare sys⟩

/-- C4 (amended), at the rejected line `c A 01-01-2020 5 V` after one accepted line. -/
theorem add_batch_rejected_witness :
    validate_batch_inputs ex_state_one [65] [86] ⟨1, 1, 2020⟩ 5 = some Err.EINVDATE ∧
    (add_batch ex_state_one [65] ⟨1, 1, 2020⟩ 5 [86]).2 = [Out.err Err.EINVDATE] ∧
    (add_batch ex_state_one [65] ⟨1, 1, 2020⟩ 5 [86]).1.batches = ex_state_one.batches :=
  ⟨by decide,
   (add_batch_rejected ex_state_one [65] [86] ⟨1, 1, 2020⟩ 5 Err.EINVDATE (by decide)).1,
   (add_batch_rejected ex_state_one [65] [86] ⟨1, 1, 2020⟩ 5 Err.EINVDATE (by decide)).2.1⟩

/-- In a state whose batch count does not exceed `mem_capacity`, the slot that
`add_batch` fills has been reset by `set_batch_slots`. -/
theorem add_batch_slot_num_app (sys : Sys) (hcap : sys.num_batch ≤ sys.mem_capacity) :
    ((add_batch_slots sys).spare sys.batches.length).num_app = 0 := by
  simp only [add_batch_slots_spare, set_batch_slots, add_batch_slots_mem_capacity]
  have hlt : sys.num_batch ≤ (sys.batches.length : Int) ∧ (sys.batches.length : Int) <
      (if sys.num_batch < sys.mem_capacity then sys.mem_capacity
       else if sys.mem_capacity ≠ 0 then sys.mem_capacity * 2 else 10) := by
    unfold Sys.num_batch at hcap ⊢
    split_ifs <;> omega
  rw [if_pos hlt]

theorem add_batch_accepted_batches (sys : Sys) (bn vn : CStr) (d : Date) (doses : Int)
    (hcap : sys.num_batch ≤ sys.mem_capacity)
    (hacc : validate_batch_inputs sys bn vn d doses = none) :
    (add_batch sys bn d doses vn).1.batches =
      sys.batches ++ [{ vacc_name := vn, batch_name := bn, exp_date := d,
                        doses := doses, num_app := 0 }] := by
  have hnum := add_batch_slot_num_app sys hcap
  rw [add_batch_of_accepted sys bn vn d doses hacc]
  simp only [hnum]

/-- C5: in a state whose batch count does not exceed `mem_capacity`, when
validation accepts the input, `add_batch` prints the new batch id and appends
exactly one record at the end of the stored batches, with the given id, vaccine
name, expiration date and doses and with application count 0, whatever the
slot held before; the batches stored before, the ledger and the current date
are unchanged. -/
theorem add_batch_appends (sys : Sys) (batch_name vacc_name : CStr) (exp_date : Date)
    (doses : Int) (hcap : sys.num_batch ≤ sys.mem_capacity)
    (hacc : validate_batch_inputs sys batch_name vacc_name exp_date doses = none) :
    (add_batch sys batch_name exp_date doses vacc_name).2 = [Out.name batch_name] ∧
    (add_batch sys batch_name exp_date doses vacc_name).1.batches =
      sys.batches ++ [{ vacc_name := vacc_name, batch_name := batch_name,
                        exp_date := exp_date, doses := doses, num_app := 0 }] ∧
    (add_batch sys batch_name exp_date doses vacc_name).1.inocula = sys.inocula ∧
    (add_batch sys batch_name exp_date doses vacc_name).1.today = sys.today := by
  have hnum := add_batch_slot_num_app sys hcap
  rw [add_batch_of_accepted sys batch_name vacc_name exp_date doses hacc]
  refine ⟨rfl, ?_, add_batch_slots_inocula sys, add_batch_slots_today sys⟩
  simp only [hnum]

/-- C5, at the line `c C 01-01-2026 3 V` in the state left by `c A ..`, `c B ..`,
`a Ana W`, `r A`, where the slot to be filled holds the copy of batch `B` left by
the removal, with application count 1. -/
theorem add_batch_appends_witness :
    (ex_state_stale.spare 1).num_app = 1 ∧
    ex_state_stale.num_batch ≤ ex_state_stale.mem_capacity ∧
    validate_batch_inputs ex_state_stale [67] [86] ⟨1, 1, 2026⟩ 3 = none ∧
    (add_batch ex_state_stale [67] ⟨1, 1, 2026⟩ 3 [86]).1.batches =
      ex_state_stale.batches ++ [{ vacc_name := [86], batch_name := [67],
                                   exp_date := ⟨1, 1, 2026⟩, doses := 3, num_app := 0 }] :=
  ⟨by decide, by decide, by decide,
   (add_batch_appends ex_state_stale [67] [86] ⟨1, 1, 2026⟩ 3 (by decide) (by decide)).2.1⟩

/-! ### The sorting loops -/

theorem bubble_inner_perm {α : Type} (gt : α → α → Bool) (k : Nat) (l : List α) :
    (bubble_inner gt k l).Perm l := by
  induction k generalizing l with
  | zero => simp [bubble_inner]
  | succ k ih =>
    match l with
    | [] => simp [bubble_inner]
    | [a] => simp [bubble_inner]
    | a :: b :: t =>
      simp only [bubble_inner]
      split_ifs
      · exact ((ih (a :: t)).cons b).trans (List.Perm.swap a b t)
      · exact (ih (b :: t)).cons a

theorem bubble_outer_perm {α : Type} (gt : α → α → Bool) (r : Nat) (l : List α) :
    (bubble_outer gt r l).Perm l := by
  induction r generalizing l with
  | zero => simp [bubble_outer]
  | succ r ih =>
    simp only [bubble_outer]
    exact (ih _).trans (bubble_inner_perm gt (r + 1) l)

/-- One run of the inner loop over the first `k + 1` slots moves a greatest
element of these slots to slot `k` and leaves the later slots alone. -/
theorem bubble_inner_max {α : Type} (gt : α → α → Bool) (P : α → Prop)
    (hasym : ∀ a b, P a → P b → gt a b = true → gt b a = false)
    (hrefl : ∀ a, P a → gt a a = false)
    (htrans : ∀ a b c, P a → P b → P c → gt a b = false → gt b c = false → gt a c = false)
    (p : List α) (a : α) (rest : List α) (hP : ∀ x ∈ a :: p, P x) :
    ∃ q m, bubble_inner gt p.length (a :: p ++ rest) = q ++ m :: rest ∧
      (q ++ [m]).Perm (a :: p) ∧ ∀ x ∈ q, gt x m = false := by
  induction p generalizing a with
  | nil => exact ⟨[], a, by simp [bubble_inner], by simp, by simp⟩
  | cons b t ih =>
    have hPa : P a := hP a (by simp)
    have hPb : P b := hP b (by simp)
    have hPt : ∀ x ∈ t, P x := fun x hx => hP x (by simp [hx])
    simp only [List.length_cons, List.cons_append, bubble_inner]
    by_cases hgt : gt a b = true
    · obtain ⟨q, m, he, hp, hm⟩ := ih a (by
        intro x hx
        rcases List.mem_cons.1 hx with h | h
        · exact h ▸ hPa
        · exact hPt x h)
      have hPm : P m := by
        have : m ∈ a :: t := hp.subset (by simp)
        rcases List.mem_cons.1 this with h | h
        · exact h ▸ hPa
        · exact hPt m h
      have ham : gt a m = false := by
        have : a ∈ q ++ [m] := hp.symm.subset (by simp)
        rcases List.mem_append.1 this with h | h
        · exact hm a h
        · have : a = m := by simpa using h
          exact this ▸ hrefl a hPa
      refine ⟨b :: q, m, ?_, ?_, ?_⟩
      · rw [if_pos hgt]
        exact congrArg (List.cons b) he
      · simp only [List.cons_append]
        exact (hp.cons b).trans (List.Perm.swap a b t)
      · intro x hx
        rcases List.mem_cons.1 hx with h | h
        · rw [h]
          exact htrans b a m hPb hPa hPm (hasym a b hPa hPb hgt) ham
        · exact hm x h
    · have hle : gt a b = false := by simpa using hgt
      obtain ⟨q, m, he, hp, hm⟩ := ih b (by
        intro x hx
        rcases List.mem_cons.1 hx with h | h
        · exact h ▸ hPb
        · exact hPt x h)
      have hPm : P m := by
        have : m ∈ b :: t := hp.subset (by simp)
        rcases List.mem_cons.1 this with h | h
        · exact h ▸ hPb
        · exact hPt m h
      have hbm : gt b m = false := by
        have : b ∈ q ++ [m] := hp.symm.subset (by simp)
        rcases List.mem_append.1 this with h | h
        · exact hm b h
        · have : b = m := by simpa using h
          exact this ▸ hrefl b hPb
      refine ⟨a :: q, m, ?_, ?_, ?_⟩
      · rw [if_neg hgt]
        exact congrArg (List.cons a) he
      · simp only [List.cons_append]
        exact hp.cons a
      · intro x hx
        rcases List.mem_cons.1 hx with h | h
        · rw [h]
          exact htrans a b m hPa hPb hPm hle hbm
        · exact hm x h

/-- The passes of the outer loop over the first `r + 1` slots leave them in
ascending order and leave the later slots alone. -/
theorem bubble_outer_sorted {α : Type} (gt : α → α → Bool) (P : α → Prop)
    (hasym : ∀ a b, P a → P b → gt a b = true → gt b a = false)
    (hrefl : ∀ a, P a → gt a a = false)
    (htrans : ∀ a b c, P a → P b → P c → gt a b = false → gt b c = false → gt a c = false)
    (r : Nat) (p rest : List α) (hlen : p.length = r + 1) (hP : ∀ x ∈ p, P x) :
    ∃ q, bubble_outer gt r (p ++ rest) = q ++ rest ∧ q.Perm p ∧
      q.Pairwise (fun x y => gt x y = false) := by
  induction r generalizing p rest with
  | zero =>
    refine ⟨p, by simp [bubble_outer], List.Perm.refl _, ?_⟩
    match p, hlen with
    | [a], _ => simp
  | succ r ih =>
    match p, hlen with
    | a :: p', hlen =>
      have hl' : p'.length = r + 1 := by simpa using hlen
      obtain ⟨q, m, he, hp, hm⟩ := bubble_inner_max gt P hasym hrefl htrans p' a rest hP
      have hql : q.length = r + 1 := by
        have := hp.length_eq
        simp only [List.length_append, List.length_cons, List.length_nil] at this
        omega
      have hPq : ∀ x ∈ q, P x := fun x hx => hP x (hp.subset (by simp [hx]))
      obtain ⟨q', he', hp', hs'⟩ := ih q (m :: rest) hql hPq
      refine ⟨q' ++ [m], ?_, ?_, ?_⟩
      · simp only [bubble_outer]
        rw [← hl', he, he']
        simp
      · exact (hp'.append_right [m]).trans hp
      · rw [List.pairwise_append]
        refine ⟨hs', by simp, ?_⟩
        intro x hx y hy
        have : y = m := by simpa using hy
        rw [this]
        exact hm x (hp'.subset hx)

/-- The two nested loops return the array segment in ascending order. -/
theorem bubble_sorted {α : Type} (gt : α → α → Bool) (P : α → Prop)
    (hasym : ∀ a b, P a → P b → gt a b = true → gt b a = false)
    (hrefl : ∀ a, P a → gt a a = false)
    (htrans : ∀ a b c, P a → P b → P c → gt a b = false → gt b c = false → gt a c = false)
    (l : List α) (hP : ∀ x ∈ l, P x) :
    (bubble_outer gt (l.length - 1) l).Pairwise (fun x y => gt x y = false) := by
  match l, hP with
  | [], _ => simp [bubble_outer]
  | a :: t, hP =>
    obtain ⟨q, he, _, hs⟩ :=
      bubble_outer_sorted gt P hasym hrefl htrans t.length (a :: t) [] (by simp) hP
    simp only [List.append_nil] at he
    simp only [List.length_cons, Nat.add_sub_cancel]
    rw [he]
    exact hs

/-! ### The comparison functions -/

theorem strcmp_range (a b : CStr) : strcmp a b = -1 ∨ strcmp a b = 0 ∨ strcmp a b = 1 := by
  induction a generalizing b with
  | nil => cases b <;> simp [strcmp]
  | cons x xs ih =>
    cases b with
    | nil => simp [strcmp]
    | cons y ys =>
      simp only [strcmp]
      split_ifs
      · exact ih ys
      · simp
      · simp

theorem strcmp_swap (a b : CStr) : strcmp b a = - strcmp a b := by
  induction a generalizing b with
  | nil => cases b <;> simp [strcmp]
  | cons x xs ih =>
    cases b with
    | nil => simp [strcmp]
    | cons y ys =>
      simp only [strcmp]
      by_cases hxy : x = y
      · rw [if_pos hxy, if_pos hxy.symm]; exact ih ys
      · rw [if_neg hxy, if_neg (fun h => hxy h.symm)]
        by_cases hlt : x < y
        · rw [if_pos hlt, if_neg (by omega)]; rfl
        · rw [if_neg hlt, if_pos (by omega)]

theorem strcmp_neg_iff (a b : CStr) : strcmp a b < 0 ↔ List.Lex (· < ·) a b := by
  induction a generalizing b with
  | nil =>
    cases b with
    | nil => simp [strcmp]
    | cons y ys => simp [strcmp, List.Lex.nil]
  | cons x xs ih =>
    cases b with
    | nil =>
      simp only [strcmp]
      constructor
      · intro h; omega
      · intro h; cases h
    | cons y ys =>
      simp only [strcmp]
      by_cases hxy : x = y
      · subst hxy
        rw [if_pos rfl, ih ys]
        constructor
        · exact fun h => List.Lex.cons h
        · intro h
          cases h with
          | cons h => exact h
          | rel h => exact absurd h (lt_irrefl _)
      · rw [if_neg hxy]
        by_cases hlt : x < y
        · rw [if_pos hlt]
          exact ⟨fun _ => List.Lex.rel hlt, fun _ => by omega⟩
        · rw [if_neg hlt]
          constructor
          · intro h; omega
          · intro h
            cases h with
            | cons h => exact absurd rfl hxy
            | rel h => exact absurd h hlt

theorem strcmp_le_trans (a b c : CStr) (h1 : strcmp a b ≤ 0) (h2 : strcmp b c ≤ 0) :
    strcmp a c ≤ 0 := by
  induction a generalizing b c with
  | nil => cases c <;> simp [strcmp]
  | cons x xs ih =>
    cases b with
    | nil => simp [strcmp] at h1
    | cons y ys =>
      cases c with
      | nil => simp [strcmp] at h2
      | cons z zs =>
        simp only [strcmp] at h1 h2 ⊢
        by_cases hxy : x = y
        · subst hxy
          rw [if_pos rfl] at h1
          by_cases hxz : x = z
          · subst hxz
            rw [if_pos rfl] at h2 ⊢
            exact ih ys zs h1 h2
          · rw [if_neg hxz] at h2 ⊢
            exact h2
        · rw [if_neg hxy] at h1
          have hlt : x < y := by
            by_contra hlt
            rw [if_neg hlt] at h1
            omega
          by_cases hyz : y = z
          · subst hyz
            rw [if_neg hxy, if_pos hlt]; omega
          · rw [if_neg hyz] at h2
            have hlt2 : y < z := by
              by_contra hlt2
              rw [if_neg hlt2] at h2
              omega
            rw [if_neg (by omega), if_pos (by omega)]; omega

theorem wrap32_small (x : Int) (h1 : -2147483648 ≤ x) (h2 : x < 2147483648) : wrap32 x = x := by
  unfold wrap32; omega

theorem date_eq_iff (a b : Date) : a = b ↔ a.year = b.year ∧ a.month = b.month ∧ a.day = b.day := by
  cases a; cases b; simp only [Date.mk.injEq]; tauto

theorem ord_date_of_in_range (a b : Date) (ha : a.in_range) (hb : b.in_range) :
    ord_date a b =
      if a.year ≠ b.year then a.year - b.year
      else if a.month ≠ b.month then a.month - b.month
      else a.day - b.day := by
  unfold Date.in_range at ha hb
  unfold ord_date
  rw [wrap32_small _ (by omega) (by omega), wrap32_small _ (by omega) (by omega),
    wrap32_small _ (by omega) (by omega)]

theorem ord_date_neg_iff (a b : Date) (ha : a.in_range) (hb : b.in_range) :
    ord_date a b < 0 ↔ a.before b := by
  rw [ord_date_of_in_range a b ha hb]; unfold Date.before
  split_ifs <;> omega

theorem ord_date_zero_iff (a b : Date) (ha : a.in_range) (hb : b.in_range) :
    ord_date a b = 0 ↔ a = b := by
  rw [ord_date_of_in_range a b ha hb, date_eq_iff]
  split_ifs <;> omega

theorem ord_date_pos_iff (a b : Date) (ha : a.in_range) (hb : b.in_range) :
    ord_date a b > 0 ↔ b.before a := by
  rw [ord_date_of_in_range a b ha hb]; unfold Date.before
  split_ifs <;> omega

theorem ord_batches_le_iff (a b : Batch) (ha : a.exp_date.in_range) (hb : b.exp_date.in_range) :
    ord_batches a b ≤ 0 ↔
      a.exp_date.before b.exp_date ∨
        (a.exp_date = b.exp_date ∧ strcmp a.batch_name b.batch_name ≤ 0) := by
  unfold ord_batches
  simp only []
  have hn := ord_date_neg_iff _ _ ha hb
  have hz := ord_date_zero_iff _ _ ha hb
  have hp := ord_date_pos_iff _ _ ha hb
  have hirr : ¬ (a.exp_date.before b.exp_date ∧ b.exp_date.before a.exp_date) := by
    unfold Date.before; omega
  by_cases h0 : ord_date a.exp_date b.exp_date = 0
  · rw [if_neg (by simpa using h0)]
    have he := hz.1 h0
    have hnb : ¬ a.exp_date.before b.exp_date := by rw [← hn]; omega
    constructor
    · exact fun h => Or.inr ⟨he, h⟩
    · rintro (h | ⟨-, h⟩)
      · exact absurd h hnb
      · exact h
  · rw [if_pos h0]
    have hne : a.exp_date ≠ b.exp_date := fun h => h0 (hz.2 h)
    constructor
    · intro h
      exact Or.inl (hn.1 (by omega))
    · rintro (h | ⟨h, -⟩)
      · have := hn.2 h; omega
      · exact absurd h hne

theorem ord_batches_le_iff_no_later (a b : Batch) (ha : a.exp_date.in_range)
    (hb : b.exp_date.in_range) : ord_batches a b ≤ 0 ↔ a.no_later b := by
  rw [ord_batches_le_iff a b ha hb]
  unfold Batch.no_later
  have h1 := strcmp_neg_iff a.batch_name b.batch_name
  have h2 := strcmp_eq_zero_iff a.batch_name b.batch_name
  have h3 : strcmp a.batch_name b.batch_name ≤ 0 ↔
      (a.batch_name = b.batch_name ∨ List.Lex (· < ·) a.batch_name b.batch_name) := by
    rw [← h1, ← h2]; omega
  rw [h3]

theorem sort_batches_perm (l : List Batch) (n : Nat) : (sort_batches l n).Perm l :=
  bubble_outer_perm _ _ _

theorem date_before_trichotomy (a b : Date) : a.before b ∨ a = b ∨ b.before a := by
  rw [date_eq_iff]; unfold Date.before; omega

theorem date_before_trans (a b c : Date) (h1 : a.before b) (h2 : b.before c) : a.before c := by
  unfold Date.before at *; omega

theorem date_before_irrefl (a : Date) : ¬ a.before a := by
  unfold Date.before; omega

theorem sort_batches_sorted (l : List Batch) (h : ∀ b ∈ l, b.exp_date.in_range) :
    (sort_batches l l.length).Pairwise (fun a b => ord_batches a b ≤ 0) := by
  have key := bubble_sorted (fun a b => decide (ord_batches a b > 0))
    (fun b : Batch => b.exp_date.in_range) ?_ ?_ ?_ l h
  · unfold sort_batches
    refine key.imp ?_
    intro a b hab
    simpa using hab
  · intro a b ha hb hab
    simp only [gt_iff_lt, decide_eq_true_eq, decide_eq_false_iff_not, not_lt] at hab ⊢
    rw [ord_batches_le_iff b a hb ha]
    have hnot : ¬ ord_batches a b ≤ 0 := by omega
    rw [ord_batches_le_iff a b ha hb] at hnot
    rcases date_before_trichotomy a.exp_date b.exp_date with h1 | h1 | h1
    · exact absurd (Or.inl h1) hnot
    · refine Or.inr ⟨h1.symm, ?_⟩
      have : ¬ strcmp a.batch_name b.batch_name ≤ 0 := fun h2 => hnot (Or.inr ⟨h1, h2⟩)
      rw [strcmp_swap]; omega
    · exact Or.inl h1
  · intro a ha
    simp only [gt_iff_lt, decide_eq_false_iff_not, not_lt]
    rw [ord_batches_le_iff a a ha ha]
    exact Or.inr ⟨rfl, le_of_eq ((strcmp_eq_zero_iff _ _).2 rfl)⟩
  · intro a b c ha hb hc hab hbc
    simp only [gt_iff_lt, decide_eq_false_iff_not, not_lt] at hab hbc ⊢
    rw [ord_batches_le_iff a b ha hb] at hab
    rw [ord_batches_le_iff b c hb hc] at hbc
    rw [ord_batches_le_iff a c ha hc]
    rcases hab with h1 | ⟨h1, h1s⟩
    · rcases hbc with h2 | ⟨h2, -⟩
      · exact Or.inl (date_before_trans _ _ _ h1 h2)
      · exact Or.inl (h2 ▸ h1)
    · rcases hbc with h2 | ⟨h2, h2s⟩
      · exact Or.inl (h1 ▸ h2)
      · exact Or.inr ⟨h1.trans h2, strcmp_le_trans _ _ _ h1s h2s⟩

theorem sort_batches_strict_sorted (l : List Batch)
    (hid : (l.map Batch.batch_name).Nodup) (hrange : ∀ b ∈ l, b.exp_date.in_range) :
    (sort_batches l l.length).Pairwise
      (fun a b => a.exp_date.before b.exp_date ∨
        (a.exp_date = b.exp_date ∧ List.Lex (· < ·) a.batch_name b.batch_name)) := by
  have hperm := sort_batches_perm l l.length
  have hsorted := sort_batches_sorted l hrange
  have hnd : (sort_batches l l.length).Pairwise
      (fun a b => a.batch_name ≠ b.batch_name) := by
    have h1 : ((sort_batches l l.length).map Batch.batch_name).Nodup :=
      ((hperm.map Batch.batch_name).nodup_iff).2 hid
    exact (List.pairwise_map.1 h1)
  refine List.Pairwise.imp_of_mem ?_ (hsorted.and hnd)
  intro a b ha hb hab
  obtain ⟨hle, hne⟩ := hab
  rw [ord_batches_le_iff_no_later a b (hrange a (hperm.subset ha)) (hrange b (hperm.subset hb))]
    at hle
  rcases hle with h | ⟨hd, h | h⟩
  · exact Or.inl h
  · exact absurd h hne
  · exact Or.inr ⟨hd, h⟩

/-! ### Vaccination -/

theorem strcasecmp_eq_zero_iff (a b : CStr) :
    strcasecmp a b = 0 ↔ a.map tolower = b.map tolower := by
  unfold strcasecmp; exact strcmp_eq_zero_iff _ _

theorem vaccinate_scan_cons (b : Batch) (rest : List Batch) (v : CStr) (i : Nat) :
    vaccinate_scan (b :: rest) v i =
      if b.dispensable v then some i else vaccinate_scan rest v (i + 1) := by
  simp only [vaccinate_scan, strcasecmp_eq_zero_iff, Batch.dispensable]

theorem vaccinate_scan_none (l : List Batch) (v : CStr) (i : Nat) :
    vaccinate_scan l v i = none ↔ ∀ b ∈ l, ¬ b.dispensable v := by
  induction l generalizing i with
  | nil => simp [vaccinate_scan]
  | cons b rest ih =>
    simp only [vaccinate_scan_cons, List.forall_mem_cons]
    by_cases hb : b.dispensable v
    · rw [if_pos hb]; simp [hb]
    · rw [if_neg hb, ih]; simp [hb]

theorem vaccinate_scan_some (l : List Batch) (v : CStr) (i j : Nat)
    (h : vaccinate_scan l v i = some j) :
    ∃ l1 b l2, l = l1 ++ b :: l2 ∧ j = i + l1.length ∧ b.dispensable v ∧
      ∀ x ∈ l1, ¬ x.dispensable v := by
  induction l generalizing i with
  | nil => simp [vaccinate_scan] at h
  | cons b rest ih =>
    rw [vaccinate_scan_cons] at h
    by_cases hb : b.dispensable v
    · rw [if_pos hb] at h
      refine ⟨[], b, rest, rfl, ?_, hb, by simp⟩
      simp only [Option.some.injEq] at h
      simp [h]
    · rw [if_neg hb] at h
      obtain ⟨l1, b', l2, he, hj, hq, hl1⟩ := ih (i + 1) h
      refine ⟨b :: l1, b', l2, by rw [he]; rfl, by simp only [List.length_cons]; omega, hq, ?_⟩
      intro x hx
      rcases List.mem_cons.1 hx with hx | hx
      · exact hx ▸ hb
      · exact hl1 x hx

theorem vaccinate_scan_split (l1 l2 : List Batch) (b : Batch) (v : CStr) (i : Nat)
    (hq : b.dispensable v) (hl1 : ∀ x ∈ l1, ¬ x.dispensable v) :
    vaccinate_scan (l1 ++ b :: l2) v i = some (i + l1.length) := by
  induction l1 generalizing i with
  | nil => simp [vaccinate_scan_cons, hq]
  | cons a t ih =>
    have ha : ¬ a.dispensable v := hl1 a (by simp)
    rw [List.cons_append, vaccinate_scan_cons, if_neg ha, ih (i + 1) (fun x hx => hl1 x (by simp [hx]))]
    simp only [List.length_cons, Option.some.injEq]; omega

theorem getD_split {α : Type} (l1 l2 : List α) (b d : α) :
    (l1 ++ b :: l2).getD l1.length d = b := by
  induction l1 with
  | nil => rfl
  | cons a t ih => simpa using ih

theorem set_split {α : Type} (l1 l2 : List α) (b x : α) :
    (l1 ++ b :: l2).set l1.length x = l1 ++ x :: l2 := by
  induction l1 with
  | nil => rfl
  | cons a t ih => simp [ih]

theorem slot_split (sys : Sys) (l1 l2 : List Batch) (b : Batch)
    (h : sys.batches = l1 ++ b :: l2) : sys.slot l1.length = b := by
  unfold Sys.slot; rw [h]; exact getD_split _ _ _ _

theorem set_slot_split (sys : Sys) (l1 l2 : List Batch) (b x : Batch)
    (h : sys.batches = l1 ++ b :: l2) :
    sys.set_slot l1.length x = { sys with batches := l1 ++ x :: l2 } := by
  unfold Sys.set_slot
  rw [if_pos (by rw [h]; simp), h, set_split]

theorem is_already_vaccinated_loop_ne_zero (today : Date) (l : List Inocula) (u v : CStr) :
    is_already_vaccinated_loop today l u v ≠ 0 ↔
      ∃ r ∈ l, r.user_name = u ∧ r.vacc_name = v ∧ r.ap_date = today := by
  induction l with
  | nil => simp [is_already_vaccinated_loop]
  | cons r rest ih =>
    simp only [is_already_vaccinated_loop, strcmp_eq_zero_iff, List.exists_mem_cons_iff]
    have hd : (today.year = r.ap_date.year ∧ today.month = r.ap_date.month ∧
        today.day = r.ap_date.day) ↔ r.ap_date = today := by
      rw [date_eq_iff]; constructor <;> (rintro ⟨h1, h2, h3⟩; exact ⟨h1.symm, h2.symm, h3.symm⟩)
    by_cases hr : r.user_name = u ∧ r.vacc_name = v ∧ r.ap_date = today
    · rw [if_pos ⟨hr.1, hr.2.1, hd.2 hr.2.2⟩]
      simp [hr]
    · rw [if_neg (fun h => hr ⟨h.1, h.2.1, hd.1 h.2.2⟩), ih]
      simp [hr]

theorem is_already_vaccinated_ne_zero (sys : Sys) (u v : CStr) :
    is_already_vaccinated sys u v ≠ 0 ↔
      ∃ r ∈ sys.inocula, r.user_name = u ∧ r.vacc_name = v ∧ r.ap_date = sys.today :=
  is_already_vaccinated_loop_ne_zero _ _ _ _

theorem expand_inocula_memory_batches (sys : Sys) :
    (expand_inocula_memory sys).batches = sys.batches := by
  unfold expand_inocula_memory; split_ifs <;> rfl

theorem expand_inocula_memory_inocula (sys : Sys) :
    (expand_inocula_memory sys).inocula = sys.inocula := by
  unfold expand_inocula_memory; split_ifs <;> rfl

theorem expand_inocula_memory_today (sys : Sys) :
    (expand_inocula_memory sys).today = sys.today := by
  unfold expand_inocula_memory; split_ifs <;> rfl

theorem expand_inocula_memory_spare (sys : Sys) :
    (expand_inocula_memory sys).spare = sys.spare := by
  unfold expand_inocula_memory; split_ifs <;> rfl

theorem expand_inocula_memory_batch_slots (sys : Sys) :
    (expand_inocula_memory sys).batch_slots = sys.batch_slots := by
  unfold expand_inocula_memory; split_ifs <;> rfl

theorem expand_inocula_memory_mem_capacity (sys : Sys) :
    (expand_inocula_memory sys).mem_capacity =
      if sys.num_inocula < sys.mem_capacity then sys.mem_capacity
      else if sys.mem_capacity > 0 then sys.mem_capacity * 2 else 10 := by
  unfold expand_inocula_memory
  by_cases h : sys.num_inocula < sys.mem_capacity
  · rw [if_neg (by omega), if_pos h]
  · rw [if_pos (by omega), if_neg h]

theorem expand_inocula_memory_set_batches (sys : Sys) (l : List Batch) :
    expand_inocula_memory { sys with batches := l } =
      { expand_inocula_memory sys with batches := l } := by
  unfold expand_inocula_memory Sys.num_inocula; simp only []; split_ifs <;> rfl

theorem vaccinate_of_already (sys : Sys) (u v : CStr) (h : is_already_vaccinated sys u v ≠ 0) :
    vaccinate sys u v =
      ({ sys with batches := sort_batches sys.batches sys.batches.length },
       [Out.err Err.EALRVACC]) := by
  unfold vaccinate
  simp only []
  have h' : is_already_vaccinated
      { sys with batches := sort_batches sys.batches sys.batches.length } u v ≠ 0 := h
  rw [if_pos h']

theorem vaccinate_of_no_stock (sys : Sys) (u v : CStr) (h : is_already_vaccinated sys u v = 0)
    (hn : ∀ b ∈ sys.batches, ¬ b.dispensable v) :
    vaccinate sys u v =
      ({ expand_inocula_memory sys with
         batches := sort_batches sys.batches sys.batches.length },
       [Out.err Err.ENOSTOCK]) := by
  unfold vaccinate
  simp only []
  have h' : ¬ is_already_vaccinated
      { sys with batches := sort_batches sys.batches sys.batches.length } u v ≠ 0 :=
    fun hc => hc h
  rw [if_neg h', expand_inocula_memory_set_batches]
  have hs : vaccinate_scan (sort_batches sys.batches sys.batches.length) v 0 = none := by
    rw [vaccinate_scan_none]
    exact fun b hb => hn b ((sort_batches_perm _ _).subset hb)
  simp only [hs]

theorem vaccinate_of_stock (sys : Sys) (u v : CStr) (h : is_already_vaccinated sys u v = 0)
    (l1 l2 : List Batch) (b : Batch)
    (hs : sort_batches sys.batches sys.batches.length = l1 ++ b :: l2)
    (hq : b.dispensable v) (hl1 : ∀ x ∈ l1, ¬ x.dispensable v) :
    vaccinate sys u v =
      ({ expand_inocula_memory sys with
         batches := l1 ++ { b with doses := b.doses - 1, num_app := b.num_app + 1 } :: l2
         inocula := sys.inocula ++
           [{ user_name := u, vacc_name := v, batch_name := b.batch_name, ap_date := sys.today }] },
       [Out.name b.batch_name]) := by
  unfold vaccinate
  simp only []
  have h' : ¬ is_already_vaccinated
      { sys with batches := sort_batches sys.batches sys.batches.length } u v ≠ 0 :=
    fun hc => hc h
  rw [if_neg h', expand_inocula_memory_set_batches, hs]
  have hscan := vaccinate_scan_split l1 l2 b v 0 hq hl1
  simp only [Nat.zero_add] at hscan
  simp only [hscan]
  rw [slot_split _ l1 l2 b rfl, set_slot_split _ l1 l2 b _ rfl]
  unfold create_inocula
  simp only []
  rw [slot_split _ l1 l2 _ rfl, set_slot_split _ l1 l2 _ _ rfl]
  simp only [expand_inocula_memory_inocula, expand_inocula_memory_today]

theorem exists_first_split {α : Type} (p : α → Prop) [DecidablePred p] (l : List α)
    (h : ∃ x ∈ l, p x) : ∃ l1 b l2, l = l1 ++ b :: l2 ∧ p b ∧ ∀ x ∈ l1, ¬ p x := by
  induction l with
  | nil => simp at h
  | cons a t ih =>
    by_cases ha : p a
    · exact ⟨[], a, t, rfl, ha, by simp⟩
    · have ht : ∃ x ∈ t, p x := by
        obtain ⟨x, hx, hpx⟩ := h
        rcases List.mem_cons.1 hx with hx | hx
        · exact absurd (hx ▸ hpx) ha
        · exact ⟨x, hx, hpx⟩
      obtain ⟨l1, b, l2, he, hb, hl1⟩ := ih ht
      refine ⟨a :: l1, b, l2, by rw [he]; rfl, hb, ?_⟩
      intro x hx
      rcases List.mem_cons.1 hx with hx | hx
      · exact hx ▸ ha
      · exact hl1 x hx

theorem eraseIdx_split {α : Type} (l1 l2 : List α) (b : α) :
    (l1 ++ b :: l2).eraseIdx l1.length = l1 ++ l2 := by
  induction l1 with
  | nil => rfl
  | cons a t ih => simp [ih]

/-! ### Removing a batch -/

theorem delete_batch_scan_cons (b : Batch) (rest : List Batch) (n : CStr) (i : Nat) :
    delete_batch_scan (b :: rest) n i =
      if b.batch_name = n then some i else delete_batch_scan rest n (i + 1) := by
  simp only [delete_batch_scan, strcmp_eq_zero_iff]

theorem delete_batch_scan_none (l : List Batch) (n : CStr) (i : Nat) :
    delete_batch_scan l n i = none ↔ ∀ b ∈ l, b.batch_name ≠ n := by
  induction l generalizing i with
  | nil => simp [delete_batch_scan]
  | cons b rest ih =>
    simp only [delete_batch_scan, strcmp_eq_zero_iff, List.forall_mem_cons]
    by_cases hb : b.batch_name = n
    · rw [if_pos hb]; simp [hb]
    · rw [if_neg hb, ih]; simp [hb]

theorem delete_batch_scan_split (l1 l2 : List Batch) (b : Batch) (n : CStr) (i : Nat)
    (hq : b.batch_name = n) (hl1 : ∀ x ∈ l1, x.batch_name ≠ n) :
    delete_batch_scan (l1 ++ b :: l2) n i = some (i + l1.length) := by
  induction l1 generalizing i with
  | nil => simp [delete_batch_scan, strcmp_eq_zero_iff, hq]
  | cons a t ih =>
    have ha : a.batch_name ≠ n := hl1 a (by simp)
    rw [List.cons_append, delete_batch_scan_cons, if_neg ha, ih (i + 1) (fun x hx => hl1 x (by simp [hx]))]
    simp only [List.length_cons, Option.some.injEq]; omega

theorem delete_batch_of_missing (sys : Sys) (n : CStr)
    (h : ∀ b ∈ sys.batches, b.batch_name ≠ n) :
    delete_batch sys n = (sys, [Out.name_err n Err.ENOSBATCH]) := by
  unfold delete_batch
  rw [(delete_batch_scan_none _ _ _).2 h]

theorem delete_batch_of_unused (sys : Sys) (n : CStr) (l1 l2 : List Batch) (b : Batch)
    (hs : sys.batches = l1 ++ b :: l2) (hq : b.batch_name = n)
    (hl1 : ∀ x ∈ l1, x.batch_name ≠ n) (h0 : b.num_app = 0) :
    delete_batch sys n =
      ({ sys with
         batches := l1 ++ l2
         spare := Function.update sys.spare (sys.batches.length - 1)
           (sys.slot (sys.batches.length - 1)) },
       [Out.num 0]) := by
  unfold delete_batch
  have hscan := delete_batch_scan_split l1 l2 b n 0 hq hl1
  simp only [Nat.zero_add] at hscan
  rw [← hs] at hscan
  simp only [hscan]
  rw [slot_split sys l1 l2 b hs, if_pos h0]
  simp only [hs, eraseIdx_split]

theorem delete_batch_of_used (sys : Sys) (n : CStr) (l1 l2 : List Batch) (b : Batch)
    (hs : sys.batches = l1 ++ b :: l2) (hq : b.batch_name = n)
    (hl1 : ∀ x ∈ l1, x.batch_name ≠ n) (h0 : b.num_app ≠ 0) :
    delete_batch sys n =
      ({ sys with batches := l1 ++ { b with doses := 0 } :: l2 }, [Out.num b.num_app]) := by
  unfold delete_batch
  have hscan := delete_batch_scan_split l1 l2 b n 0 hq hl1
  simp only [Nat.zero_add] at hscan
  rw [← hs] at hscan
  simp only [hscan]
  rw [slot_split sys l1 l2 b hs, if_neg h0, set_slot_split sys l1 l2 b _ hs]

/-! ### What each command does to the stored batches -/

theorem map_ident_split (l1 l2 : List Batch) (b b' : Batch) (h : b'.ident = b.ident) :
    (l1 ++ b' :: l2).map Batch.ident = (l1 ++ b :: l2).map Batch.ident := by
  simp [h]

theorem vaccinate_ident (sys : Sys) (u v : CStr) :
    ((vaccinate sys u v).1.batches.map Batch.ident).Perm (sys.batches.map Batch.ident) := by
  by_cases h : is_already_vaccinated sys u v = 0
  · by_cases hn : ∀ b ∈ sys.batches, ¬ b.dispensable v
    · rw [vaccinate_of_no_stock sys u v h hn]
      exact (sort_batches_perm _ _).map _
    · have hex : ∃ x ∈ sort_batches sys.batches sys.batches.length, x.dispensable v := by
        push_neg at hn
        obtain ⟨b, hb, hq⟩ := hn
        exact ⟨b, (sort_batches_perm _ _).symm.subset hb, hq⟩
      obtain ⟨l1, b, l2, hs, hq, hl1⟩ := exists_first_split _ _ hex
      rw [vaccinate_of_stock sys u v h l1 l2 b hs hq hl1]
      simp only []
      rw [map_ident_split l1 l2 b ⟨b.vacc_name, b.batch_name, b.exp_date, b.doses - 1,
        b.num_app + 1⟩ rfl, ← hs]
      exact (sort_batches_perm _ _).map _
  · rw [vaccinate_of_already sys u v h]
    exact (sort_batches_perm _ _).map _

theorem delete_batch_ident (sys : Sys) (n : CStr) :
    ((delete_batch sys n).1.batches.map Batch.ident).Sublist (sys.batches.map Batch.ident) := by
  by_cases h : ∀ b ∈ sys.batches, b.batch_name ≠ n
  · rw [delete_batch_of_missing sys n h]
  · have hex : ∃ x ∈ sys.batches, x.batch_name = n := by
      push_neg at h; exact h
    obtain ⟨l1, b, l2, hs, hq, hl1⟩ := exists_first_split _ _ hex
    by_cases h0 : b.num_app = 0
    · rw [delete_batch_of_unused sys n l1 l2 b hs hq hl1 h0, hs]
      simp only [List.map_append, List.map_cons]
      exact (List.Sublist.refl _).append (List.sublist_cons_self _ _)
    · rw [delete_batch_of_used sys n l1 l2 b hs hq hl1 h0, hs]
      simp only []
      rw [map_ident_split l1 l2 b ⟨b.vacc_name, b.batch_name, b.exp_date, 0, b.num_app⟩ rfl]

theorem list_batches_fst (sys : Sys) (names : List CStr) :
    (list_batches sys names).1 =
      { sys with batches := sort_batches sys.batches sys.batches.length } := by
  unfold list_batches; cases names <;> rfl

theorem list_inoculas_fst (sys : Sys) (user : Option CStr) :
    (list_inoculas sys user).1 =
      { sys with inocula := sort_inoculas sys.inocula sys.inocula.length } := by
  unfold list_inoculas
  cases user with
  | none => rfl
  | some u => simp only []; split_ifs <;> rfl

theorem update_date_batches (sys : Sys) (arg : Option Date) :
    (update_date sys arg).1.batches = sys.batches := by
  unfold update_date
  cases arg with
  | none => rfl
  | some d => simp only []; split_ifs <;> rfl

theorem delete_registration_batches (sys : Sys) (u : CStr) (np d m y : Int) (bn : CStr) :
    (delete_registration sys u np d m y bn).1.batches = sys.batches := by
  unfold delete_registration; split_ifs <;> rfl

theorem add_batch_batches (sys : Sys) (bn vn : CStr) (d : Date) (doses : Int) :
    (add_batch sys bn d doses vn).1.batches = sys.batches ∨
    (validate_batch_inputs sys bn vn d doses = none ∧
      ∃ k : Int, (add_batch sys bn d doses vn).1.batches =
        sys.batches ++ [{ vacc_name := vn, batch_name := bn, exp_date := d,
                          doses := doses, num_app := k }]) := by
  cases hv : validate_batch_inputs sys bn vn d doses with
  | some e =>
    left
    rw [add_batch_of_rejected sys bn vn d doses e hv]
    exact add_batch_slots_batches sys
  | none =>
    right
    refine ⟨rfl, ((add_batch_slots sys).spare sys.batches.length).num_app, ?_⟩
    rw [add_batch_of_accepted sys bn vn d doses hv]

/-! ### The current date -/

theorem step_today (sys : Sys) (c : Cmd) :
    (step sys c).1.today = sys.today ∨
      ∃ d, c = Cmd.update_date (some d) ∧ validate_date d sys = 0 ∧ (step sys c).1.today = d := by
  cases c with
  | add_batch bn d m y doses vn =>
    left
    simp only [step]
    cases hv : validate_batch_inputs sys bn vn ⟨d, m, y⟩ doses with
    | some e => rw [add_batch_of_rejected _ _ _ _ _ e hv]; exact add_batch_slots_today sys
    | none => rw [add_batch_of_accepted _ _ _ _ _ hv]; exact add_batch_slots_today sys
  | list_batches names => left; simp only [step]; rw [list_batches_fst]
  | vaccinate u v =>
    left
    simp only [step]
    by_cases h : is_already_vaccinated sys u v = 0
    · by_cases hn : ∀ b ∈ sys.batches, ¬ b.dispensable v
      · rw [vaccinate_of_no_stock sys u v h hn]; exact expand_inocula_memory_today sys
      · have hex : ∃ x ∈ sort_batches sys.batches sys.batches.length, x.dispensable v := by
          push_neg at hn
          obtain ⟨b, hb, hq⟩ := hn
          exact ⟨b, (sort_batches_perm _ _).symm.subset hb, hq⟩
        obtain ⟨l1, b, l2, hs, hq, hl1⟩ := exists_first_split _ _ hex
        rw [vaccinate_of_stock sys u v h l1 l2 b hs hq hl1]
        exact expand_inocula_memory_today sys
    · rw [vaccinate_of_already sys u v h]
  | delete_batch n =>
    left
    simp only [step]
    by_cases h : ∀ b ∈ sys.batches, b.batch_name ≠ n
    · rw [delete_batch_of_missing sys n h]
    · have hex : ∃ x ∈ sys.batches, x.batch_name = n := by push_neg at h; exact h
      obtain ⟨l1, b, l2, hs, hq, hl1⟩ := exists_first_split _ _ hex
      by_cases h0 : b.num_app = 0
      · rw [delete_batch_of_unused sys n l1 l2 b hs hq hl1 h0]
      · rw [delete_batch_of_used sys n l1 l2 b hs hq hl1 h0]
  | list_inoculas user => left; simp only [step]; rw [list_inoculas_fst]
  | update_date arg =>
    simp only [step]
    cases arg with
    | none => left; rfl
    | some d =>
      unfold update_date
      simp only []
      by_cases hv : validate_date d sys = 0
      · right
        exact ⟨d, rfl, hv, by rw [if_neg (by simpa using hv)]⟩
      · left
        rw [if_pos hv]
  | delete_registration u np d m y bn =>
    left
    simp only [step]
    unfold delete_registration
    split_ifs <;> rfl
  | other => left; rfl

theorem validate_batch_inputs_none (sys : Sys) (bn vn : CStr) (d : Date) (doses : Int)
    (h : validate_batch_inputs sys bn vn d doses = none) :
    sys.num_batch < 1000 ∧ d.calendar_valid ∧ ¬ d.before sys.today ∧
    (∀ b ∈ sys.batches, b.batch_name ≠ bn) ∧ 1 ≤ doses := by
  rw [validate_batch_inputs_chain] at h
  split_ifs at h with h1 h2 h3 h4 h5 h6
  push_neg at h2 h3
  exact ⟨by omega, h2.1, h2.2, h3, by omega⟩

theorem step_batches (sys : Sys) (c : Cmd) :
    (∃ l, l.Perm (sys.batches.map Batch.ident) ∧
      ((step sys c).1.batches.map Batch.ident).Sublist l) ∨
    (∃ bn d m y doses vn k, c = Cmd.add_batch bn d m y doses vn ∧
      validate_batch_inputs sys bn vn ⟨d, m, y⟩ doses = none ∧
      (step sys c).1.batches = sys.batches ++
        [{ vacc_name := vn, batch_name := bn, exp_date := ⟨d, m, y⟩,
           doses := doses, num_app := k }]) := by
  cases c with
  | add_batch bn d m y doses vn =>
    simp only [step]
    rcases add_batch_batches sys bn vn ⟨d, m, y⟩ doses with h | ⟨hv, k, h⟩
    · left; rw [h]; exact ⟨_, List.Perm.refl _, List.Sublist.refl _⟩
    · right; exact ⟨bn, d, m, y, doses, vn, k, rfl, hv, h⟩
  | list_batches names =>
    left; simp only [step]; rw [list_batches_fst]
    exact ⟨_, (sort_batches_perm _ _).map _, List.Sublist.refl _⟩
  | vaccinate u v =>
    left; simp only [step]
    exact ⟨_, vaccinate_ident sys u v, List.Sublist.refl _⟩
  | delete_batch n =>
    left; simp only [step]
    exact ⟨_, List.Perm.refl _, delete_batch_ident sys n⟩
  | list_inoculas user =>
    left; simp only [step]; rw [list_inoculas_fst]
    exact ⟨_, List.Perm.refl _, List.Sublist.refl _⟩
  | update_date arg =>
    left; simp only [step]; rw [update_date_batches]
    exact ⟨_, List.Perm.refl _, List.Sublist.refl _⟩
  | delete_registration u np d m y bn =>
    left; simp only [step]; rw [delete_registration_batches]
    exact ⟨_, List.Perm.refl _, List.Sublist.refl _⟩
  | other => left; exact ⟨_, List.Perm.refl _, List.Sublist.refl _⟩

/-! ### Invariants of the reachable states -/

theorem in_range_of_valid (d today : Date) (ht : today.in_range)
    (hd : int32 d.day ∧ int32 d.month ∧ int32 d.year)
    (hc : d.calendar_valid) (hb : ¬ d.before today) : d.in_range := by
  unfold Date.in_range at *
  unfold Date.calendar_valid at hc
  unfold Date.before at hb
  unfold int32 at hd
  omega

/-- In a reachable state the current date and every expiration date have their
fields in [0, 2^31), so that the subtractions of `ord_date` do not wrap. -/
theorem reachable_dates (sys : Sys) (h : Reachable sys) :
    sys.today.in_range ∧ ∀ b ∈ sys.batches, b.exp_date.in_range := by
  induction h with
  | init g =>
    refine ⟨?_, by simp [set_system]⟩
    show (⟨1, 1, 2025⟩ : Date).in_range
    decide
  | step s c _ hwf ih =>
    obtain ⟨iht, ihb⟩ := ih
    have ht : (step s c).1.today.in_range := by
      rcases step_today s c with h | ⟨d, hc, hv, h⟩
      · rw [h]; exact iht
      · rw [h]
        rw [validate_date_eq] at hv
        split_ifs at hv with hcond
        · rw [hc] at hwf
          exact in_range_of_valid d s.today iht hwf hcond.1 hcond.2
        · exact absurd hv (by decide)
    refine ⟨ht, ?_⟩
    rcases step_batches s c with ⟨l, hp, hsub⟩ | ⟨bn, d, m, y, doses, vn, k, hc, hv, he⟩
    · intro b hb
      have h1 : b.ident ∈ (step s c).1.batches.map Batch.ident := List.mem_map_of_mem _ hb
      have h2 : b.ident ∈ s.batches.map Batch.ident := hp.subset (hsub.subset h1)
      obtain ⟨b0, hb0, he⟩ := List.mem_map.1 h2
      have : b.exp_date = b0.exp_date := by
        have := congrArg (fun p => p.2.2) he
        exact this.symm
      rw [this]; exact ihb b0 hb0
    · intro b hb
      rw [he] at hb
      rcases List.mem_append.1 hb with hb | hb
      · exact ihb b hb
      · have hbe : b = _ := List.mem_singleton.1 hb
        rw [hbe]
        obtain ⟨-, hcv, hnb, -, -⟩ := validate_batch_inputs_none s bn vn ⟨d, m, y⟩ doses hv
        rw [hc] at hwf
        exact in_range_of_valid ⟨d, m, y⟩ s.today iht ⟨hwf.1, hwf.2.1, hwf.2.2.1⟩ hcv hnb

/-- In a reachable state no two stored batches have the same id. -/
theorem reachable_nodup (sys : Sys) (h : Reachable sys) :
    (sys.batches.map Batch.batch_name).Nodup := by
  induction h with
  | init g => simp [set_system]
  | step s c _ _ ih =>
    rcases step_batches s c with ⟨l, hp, hsub⟩ | ⟨bn, d, m, y, doses, vn, k, hc, hv, he⟩
    · have h1 : ((step s c).1.batches.map Batch.batch_name) =
          ((step s c).1.batches.map Batch.ident).map Prod.fst := by
        rw [List.map_map]; rfl
      have h2 : (s.batches.map Batch.batch_name) = (s.batches.map Batch.ident).map Prod.fst := by
        rw [List.map_map]; rfl
      rw [h1]
      have h3 : (l.map Prod.fst).Nodup := by
        rw [(hp.map Prod.fst).nodup_iff, ← h2]; exact ih
      exact h3.sublist (hsub.map Prod.fst)
    · rw [he, List.map_append, List.nodup_append]
      obtain ⟨-, -, -, hnd, -⟩ := validate_batch_inputs_none s bn vn ⟨d, m, y⟩ doses hv
      refine ⟨ih, by simp, ?_⟩
      intro x hx1 hx2
      simp only [List.map_cons, List.map_nil, List.mem_singleton] at hx2
      obtain ⟨b, hb, hbn⟩ := List.mem_map.1 hx1
      exact hnd b hb (hbn.trans hx2)

theorem is_already_vaccinated_eq_zero (sys : Sys) (u v : CStr)
    (hnot : ¬ ∃ r ∈ sys.inocula, r.user_name = u ∧ r.vacc_name = v ∧ r.ap_date = sys.today) :
    is_already_vaccinated sys u v = 0 := by
  by_contra h
  exact hnot ((is_already_vaccinated_ne_zero sys u v).1 h)

/-- C1: in a reachable state, for a request that is not answered with
already-vaccinated, `vaccinate` prints no-stock exactly when no stored batch
matches the vaccine name (up to letter case) with doses left; otherwise it
prints the id of, and takes the dose from, a matching batch with doses left
that is no later than every other such batch: it expires earlier, or on the
same date with a lexicographically smaller (or the same) id.  The current
date plays no part in the choice. -/
theorem vaccinate_picks_earliest (sys : Sys) (u v : CStr) (hr : Reachable sys)
    (hnot : ¬ ∃ r ∈ sys.inocula, r.user_name = u ∧ r.vacc_name = v ∧ r.ap_date = sys.today) :
    ((vaccinate sys u v).2 = [Out.err Err.ENOSTOCK] ↔ ∀ b ∈ sys.batches, ¬ b.dispensable v) ∧
    ((∃ b ∈ sys.batches, b.dispensable v) →
      ∃ b l1 l2, b ∈ sys.batches ∧ b.dispensable v ∧
        (∀ b' ∈ sys.batches, b'.dispensable v → b.no_later b') ∧
        (vaccinate sys u v).2 = [Out.name b.batch_name] ∧
        (l1 ++ b :: l2).Perm sys.batches ∧
        (vaccinate sys u v).1.batches =
          l1 ++ { b with doses := b.doses - 1, num_app := b.num_app + 1 } :: l2) := by
  have h0 := is_already_vaccinated_eq_zero sys u v hnot
  have hrange := (reachable_dates sys hr).2
  have hperm := sort_batches_perm sys.batches sys.batches.length
  have hstock : (∃ b ∈ sys.batches, b.dispensable v) →
      ∃ b l1 l2, b ∈ sys.batches ∧ b.dispensable v ∧
        (∀ b' ∈ sys.batches, b'.dispensable v → b.no_later b') ∧
        (vaccinate sys u v).2 = [Out.name b.batch_name] ∧
        (l1 ++ b :: l2).Perm sys.batches ∧
        (vaccinate sys u v).1.batches =
          l1 ++ { b with doses := b.doses - 1, num_app := b.num_app + 1 } :: l2 := by
    rintro ⟨b0, hb0, hq0⟩
    have hex : ∃ x ∈ sort_batches sys.batches sys.batches.length, x.dispensable v :=
      ⟨b0, hperm.symm.subset hb0, hq0⟩
    obtain ⟨l1, b, l2, hs, hq, hl1⟩ := exists_first_split _ _ hex
    have hbmem : b ∈ sys.batches := hperm.subset (by rw [hs]; simp)
    have hsorted := sort_batches_sorted sys.batches hrange
    rw [hs, List.pairwise_append] at hsorted
    have hafter := (List.pairwise_cons.1 hsorted.2.1).1
    refine ⟨b, l1, l2, hbmem, hq, ?_, ?_, hs ▸ hperm, ?_⟩
    · intro b' hb' hq'
      have hb's : b' ∈ l1 ++ b :: l2 := hs ▸ hperm.symm.subset hb'
      rw [← ord_batches_le_iff_no_later b b' (hrange b hbmem) (hrange b' hb')]
      rcases List.mem_append.1 hb's with h1 | h1
      · exact absurd hq' (hl1 b' h1)
      · rcases List.mem_cons.1 h1 with h2 | h2
        · rw [h2, ord_batches_le_iff_no_later b b (hrange b hbmem) (hrange b hbmem)]
          exact Or.inr ⟨rfl, Or.inl rfl⟩
        · exact hafter b' h2
    · rw [vaccinate_of_stock sys u v h0 l1 l2 b hs hq hl1]
    · rw [vaccinate_of_stock sys u v h0 l1 l2 b hs hq hl1]
  refine ⟨?_, hstock⟩
  constructor
  · intro hout b hb hq
    obtain ⟨b1, -, -, -, -, -, hout1, -, -⟩ := hstock ⟨b, hb, hq⟩
    rw [hout1] at hout
    simp at hout
  · intro hn
    rw [vaccinate_of_no_stock sys u v h0 hn]

/-- C1, at the request `a Ana v` on 01-07-2025 with the batches `A` (expires
01-01-2026) and `B` (expired on 01-06-2025) of vaccine `V`: batch `B` is chosen. -/
theorem vaccinate_picks_earliest_witness :
    Reachable ex_state_expired ∧
    (¬ ∃ r ∈ ex_state_expired.inocula,
      r.user_name = [65, 110, 97] ∧ r.vacc_name = [118] ∧ r.ap_date = ex_state_expired.today) ∧
    (vaccinate ex_state_expired [65, 110, 97] [118]).2 = [Out.name [66]] ∧
    (¬ ((vaccinate ex_state_expired [65, 110, 97] [118]).2 = [Out.err Err.ENOSTOCK]) ↔
      ¬ ∀ b ∈ ex_state_expired.batches, ¬ b.dispensable [118]) :=
  ⟨reachable_run _ _ (Reachable.init _) (by decide), by decide, by decide,
   not_congr (vaccinate_picks_earliest ex_state_expired [65, 110, 97] [118]
     (reachable_run _ _ (Reachable.init _) (by decide)) (by decide)).1⟩

/-- C7: for a request that is neither answered with already-vaccinated nor out
of stock, `vaccinate` takes one batch `b` that matches the request: its doses
go down by 1, its application count goes up by 1, every other stored batch
keeps all its fields (the store being left in sorted order), exactly one
ledger entry (requested user, requested vaccine name, id of `b`, current date)
is appended after the existing entries, the id of `b` is printed, and the
current date is unchanged. -/
theorem vaccinate_effect (sys : Sys) (u v : CStr)
    (hnot : ¬ ∃ r ∈ sys.inocula, r.user_name = u ∧ r.vacc_name = v ∧ r.ap_date = sys.today)
    (hstock : ∃ b ∈ sys.batches, b.dispensable v) :
    ∃ b l1 l2, (l1 ++ b :: l2).Perm sys.batches ∧ b.dispensable v ∧
      (vaccinate sys u v).1.batches =
        l1 ++ { b with doses := b.doses - 1, num_app := b.num_app + 1 } :: l2 ∧
      (vaccinate sys u v).1.inocula =
        sys.inocula ++ [{ user_name := u, vacc_name := v, batch_name := b.batch_name,
                          ap_date := sys.today }] ∧
      (vaccinate sys u v).2 = [Out.name b.batch_name] ∧
      (vaccinate sys u v).1.today = sys.today := by
  have h0 := is_already_vaccinated_eq_zero sys u v hnot
  have hperm := sort_batches_perm sys.batches sys.batches.length
  obtain ⟨b0, hb0, hq0⟩ := hstock
  have hex : ∃ x ∈ sort_batches sys.batches sys.batches.length, x.dispensable v :=
    ⟨b0, hperm.symm.subset hb0, hq0⟩
  obtain ⟨l1, b, l2, hs, hq, hl1⟩ := exists_first_split _ _ hex
  refine ⟨b, l1, l2, hs ▸ hperm, hq, ?_, ?_, ?_, ?_⟩ <;>
    rw [vaccinate_of_stock sys u v h0 l1 l2 b hs hq hl1]
  exact expand_inocula_memory_today sys

/-- C7, at the request `a Ana v` in the state `ex_state_expired`. -/
theorem vaccinate_effect_witness :
    (¬ ∃ r ∈ ex_state_expired.inocula,
      r.user_name = [65, 110, 97] ∧ r.vacc_name = [118] ∧ r.ap_date = ex_state_expired.today) ∧
    (∃ b ∈ ex_state_expired.batches, b.dispensable [118]) ∧
    ∃ b l1 l2, (l1 ++ b :: l2).Perm ex_state_expired.batches ∧ b.dispensable [118] ∧
      (vaccinate ex_state_expired [65, 110, 97] [118]).1.batches =
        l1 ++ { b with doses := b.doses - 1, num_app := b.num_app + 1 } :: l2 ∧
      (vaccinate ex_state_expired [65, 110, 97] [118]).1.inocula =
        ex_state_expired.inocula ++
          [{ user_name := [65, 110, 97], vacc_name := [118]
             batch_name := b.batch_name, ap_date := ex_state_expired.today }] ∧
      (vaccinate ex_state_expired [65, 110, 97] [118]).2 = [Out.name b.batch_name] ∧
      (vaccinate ex_state_expired [65, 110, 97] [118]).1.today = ex_state_expired.today :=
  ⟨by decide, by decide,
   vaccinate_effect ex_state_expired [65, 110, 97] [118] (by decide) (by decide)⟩

/-- C8: when the ledger holds an entry with the requested user name, the
requested vaccine name and the current date, `vaccinate` prints
already-vaccinated, leaves the ledger as it was (same entries, same order),
leaves every stored batch with all its fields (the store is only put in sorted
order), and leaves the current date and `mem_capacity` unchanged. -/
theorem vaccinate_already_vaccinated (sys : Sys) (u v : CStr)
    (h : ∃ r ∈ sys.inocula, r.user_name = u ∧ r.vacc_name = v ∧ r.ap_date = sys.today) :
    (vaccinate sys u v).2 = [Out.err Err.EALRVACC] ∧
    (vaccinate sys u v).1.inocula = sys.inocula ∧
    (vaccinate sys u v).1.batches.Perm sys.batches ∧
    (vaccinate sys u v).1.today = sys.today ∧
    (vaccinate sys u v).1.mem_capacity = sys.mem_capacity := by
  rw [vaccinate_of_already sys u v ((is_already_vaccinated_ne_zero sys u v).2 h)]
  exact ⟨rfl, rfl, sort_batches_perm _ _, rfl, rfl⟩

/-- C8, at the request `a 0 V` in the state `ex_state_full`, whose ledger holds
the entry made by the same request earlier that day. -/
theorem vaccinate_already_vaccinated_witness :
    (∃ r ∈ ex_state_full.inocula,
      r.user_name = [48] ∧ r.vacc_name = [86] ∧ r.ap_date = ex_state_full.today) ∧
    (vaccinate ex_state_full [48] [86]).2 = [Out.err Err.EALRVACC] ∧
    (vaccinate ex_state_full [48] [86]).1.inocula = ex_state_full.inocula :=
  ⟨by set_option maxRecDepth 20000 in decide,
   (vaccinate_already_vaccinated ex_state_full [48] [86]
     (by set_option maxRecDepth 20000 in decide)).1,
   (vaccinate_already_vaccinated ex_state_full [48] [86]
     (by set_option maxRecDepth 20000 in decide)).2.1⟩

/-- C9, as stated, fails: after `c A 01-01-2026 10 V` and ten vaccinations the
ledger is full (`num_inocula = mem_capacity = 10`) and batch `A` has no doses
left; the request `a Z V` is answered with no-stock and leaves `mem_capacity`
at 20. -/
theorem vaccinate_no_stock_changes_capacity :
    Reachable ex_state_full ∧
    (¬ ∃ r ∈ ex_state_full.inocula,
      r.user_name = [90] ∧ r.vacc_name = [86] ∧ r.ap_date = ex_state_full.today) ∧
    (∀ b ∈ ex_state_full.batches, ¬ b.dispensable [86]) ∧
    (vaccinate ex_state_full [90] [86]).2 = [Out.err Err.ENOSTOCK] ∧
    ex_state_full.mem_capacity = 10 ∧
    (vaccinate ex_state_full [90] [86]).1.mem_capacity = 20 := by
  refine ⟨reachable_run _ _ (Reachable.init _) (by decide), ?_, ?_, ?_, ?_, ?_⟩ <;>
    (set_option maxRecDepth 20000 in decide)

/-- C9 (amended): when no stored batch matches the vaccine name (up to letter
case) with doses left and the request is not answered with already-vaccinated,
`vaccinate` prints no-stock; every stored batch keeps all its fields and none
is added or removed, the ledger and the current date are unchanged;
`mem_capacity` is unchanged when the ledger count is below it and is otherwise
doubled (set to 10 when it was not positive), the ledger array then being
reallocated to that size.  The store is left as `sort_batches` orders it: in a
reachable state each record then expires before every later one, or on the
same date with a lexicographically smaller id. -/
theorem vaccinate_no_stock (sys : Sys) (u v : CStr)
    (hnot : ¬ ∃ r ∈ sys.inocula, r.user_name = u ∧ r.vacc_name = v ∧ r.ap_date = sys.today)
    (hnone : ∀ b ∈ sys.batches, ¬ b.dispensable v) :
    (vaccinate sys u v).2 = [Out.err Err.ENOSTOCK] ∧
    (vaccinate sys u v).1.batches.Perm sys.batches ∧
    (vaccinate sys u v).1.inocula = sys.inocula ∧
    (vaccinate sys u v).1.today = sys.today ∧
    (vaccinate sys u v).1.spare = sys.spare ∧
    (vaccinate sys u v).1.batch_slots = sys.batch_slots ∧
    (vaccinate sys u v).1.mem_capacity =
      (if sys.num_inocula < sys.mem_capacity then sys.mem_capacity
       else if sys.mem_capacity > 0 then sys.mem_capacity * 2 else 10) ∧
    (vaccinate sys u v).1.inocula_slots =
      (if sys.num_inocula < sys.mem_capacity then sys.inocula_slots
       else (vaccinate sys u v).1.mem_capacity) ∧
    (vaccinate sys u v).1.batches = sort_batches sys.batches sys.batches.length ∧
    (Reachable sys →
      (vaccinate sys u v).1.batches.Pairwise
        (fun a b => a.exp_date.before b.exp_date ∨
          (a.exp_date = b.exp_date ∧ List.Lex (· < ·) a.batch_name b.batch_name))) := by
  rw [vaccinate_of_no_stock sys u v (is_already_vaccinated_eq_zero sys u v hnot) hnone]
  refine ⟨rfl, sort_batches_perm _ _, expand_inocula_memory_inocula sys,
    expand_inocula_memory_today sys, expand_inocula_memory_spare sys,
    expand_inocula_memory_batch_slots sys, expand_inocula_memory_mem_capacity sys, ?_, rfl,
    fun hr => sort_batches_strict_sorted sys.batches (reachable_nodup sys hr)
      (reachable_dates sys hr).2⟩
  simp only []
  unfold expand_inocula_memory
  by_cases hlt : sys.num_inocula < sys.mem_capacity
  · have h2 : ¬ (sys.num_inocula ≥ sys.mem_capacity) := by omega
    simp only [hlt, h2, if_true, if_false]
  · have h2 : sys.num_inocula ≥ sys.mem_capacity := by omega
    simp only [hlt, h2, if_true, if_false]

/-- C9 (amended), at the request `a Ana W` in the state `ex_state_unsorted`,
which stores the batches `B`, `A`, `C` of vaccine `V` in this order and none
of vaccine `W`: no-stock is printed, the ledger stays empty and the store is
left in the order `A`, `C`, `B`, every record with its 5 doses. -/
theorem vaccinate_no_stock_witness :
    Reachable ex_state_unsorted ∧
    (¬ ∃ r ∈ ex_state_unsorted.inocula,
      r.user_name = [65, 110, 97] ∧ r.vacc_name = [87] ∧
        r.ap_date = ex_state_unsorted.today) ∧
    (∀ b ∈ ex_state_unsorted.batches, ¬ b.dispensable [87]) ∧
    ex_state_unsorted.batches.map (fun b => (b.batch_name, b.doses, b.num_app)) =
      [([66], 5, 0), ([65], 5, 0), ([67], 5, 0)] ∧
    (vaccinate ex_state_unsorted [65, 110, 97] [87]).1.batches.map
        (fun b => (b.batch_name, b.doses, b.num_app)) =
      [([65], 5, 0), ([67], 5, 0), ([66], 5, 0)] ∧
    (vaccinate ex_state_unsorted [65, 110, 97] [87]).2 = [Out.err Err.ENOSTOCK] ∧
    (vaccinate ex_state_unsorted [65, 110, 97] [87]).1.inocula = ex_state_unsorted.inocula ∧
    (vaccinate ex_state_unsorted [65, 110, 97] [87]).1.batches.Pairwise
      (fun a b => a.exp_date.before b.exp_date ∨
        (a.exp_date = b.exp_date ∧ List.Lex (· < ·) a.batch_name b.batch_name)) :=
  ⟨reachable_run _ _ (Reachable.init _) (by decide), by decide, by decide, by decide,
   by decide,
   (vaccinate_no_stock ex_state_unsorted [65, 110, 97] [87] (by decide) (by decide)).1,
   (vaccinate_no_stock ex_state_unsorted [65, 110, 97] [87] (by decide) (by decide)).2.2.1,
   (vaccinate_no_stock ex_state_unsorted [65, 110, 97] [87] (by decide)
     (by decide)).2.2.2.2.2.2.2.2.2 (reachable_run _ _ (Reachable.init _) (by decide))⟩

/-- The three ways `vaccinate` can end. -/
theorem vaccinate_cases (sys : Sys) (u v : CStr) :
    (is_already_vaccinated sys u v ≠ 0 ∧
      vaccinate sys u v =
        ({ sys with batches := sort_batches sys.batches sys.batches.length },
         [Out.err Err.EALRVACC])) ∨
    (is_already_vaccinated sys u v = 0 ∧ (∀ b ∈ sys.batches, ¬ b.dispensable v) ∧
      vaccinate sys u v =
        ({ expand_inocula_memory sys with
           batches := sort_batches sys.batches sys.batches.length },
         [Out.err Err.ENOSTOCK])) ∨
    (∃ l1 b l2, is_already_vaccinated sys u v = 0 ∧
      sort_batches sys.batches sys.batches.length = l1 ++ b :: l2 ∧
      b.dispensable v ∧ (∀ x ∈ l1, ¬ x.dispensable v) ∧
      vaccinate sys u v =
        ({ expand_inocula_memory sys with
           batches := l1 ++ { b with doses := b.doses - 1, num_app := b.num_app + 1 } :: l2
           inocula := sys.inocula ++
             [{ user_name := u, vacc_name := v, batch_name := b.batch_name
                ap_date := sys.today }] },
         [Out.name b.batch_name])) := by
  by_cases h : is_already_vaccinated sys u v = 0
  · by_cases hn : ∀ b ∈ sys.batches, ¬ b.dispensable v
    · exact Or.inr (Or.inl ⟨h, hn, vaccinate_of_no_stock sys u v h hn⟩)
    · have hex : ∃ x ∈ sort_batches sys.batches sys.batches.length, x.dispensable v := by
        push_neg at hn
        obtain ⟨b, hb, hq⟩ := hn
        exact ⟨b, (sort_batches_perm _ _).symm.subset hb, hq⟩
      obtain ⟨l1, b, l2, hs, hq, hl1⟩ := exists_first_split _ _ hex
      exact Or.inr (Or.inr ⟨l1, b, l2, h, hs, hq, hl1,
        vaccinate_of_stock sys u v h l1 l2 b hs hq hl1⟩)
  · exact Or.inl ⟨h, vaccinate_of_already sys u v h⟩

/-- The three ways `delete_batch` can end. -/
theorem delete_batch_cases (sys : Sys) (n : CStr) :
    ((∀ b ∈ sys.batches, b.batch_name ≠ n) ∧
      delete_batch sys n = (sys, [Out.name_err n Err.ENOSBATCH])) ∨
    (∃ l1 b l2, sys.batches = l1 ++ b :: l2 ∧ b.batch_name = n ∧
      (∀ x ∈ l1, x.batch_name ≠ n) ∧ b.num_app = 0 ∧
      delete_batch sys n =
        ({ sys with
           batches := l1 ++ l2
           spare := Function.update sys.spare (sys.batches.length - 1)
             (sys.slot (sys.batches.length - 1)) },
         [Out.num 0])) ∨
    (∃ l1 b l2, sys.batches = l1 ++ b :: l2 ∧ b.batch_name = n ∧
      (∀ x ∈ l1, x.batch_name ≠ n) ∧ b.num_app ≠ 0 ∧
      delete_batch sys n =
        ({ sys with batches := l1 ++ { b with doses := 0 } :: l2 }, [Out.num b.num_app])) := by
  by_cases h : ∀ b ∈ sys.batches, b.batch_name ≠ n
  · exact Or.inl ⟨h, delete_batch_of_missing sys n h⟩
  · have hex : ∃ x ∈ sys.batches, x.batch_name = n := by push_neg at h; exact h
    obtain ⟨l1, b, l2, hs, hq, hl1⟩ := exists_first_split _ _ hex
    by_cases h0 : b.num_app = 0
    · exact Or.inr (Or.inl ⟨l1, b, l2, hs, hq, hl1, h0,
        delete_batch_of_unused sys n l1 l2 b hs hq hl1 h0⟩)
    · exact Or.inr (Or.inr ⟨l1, b, l2, hs, hq, hl1, h0,
        delete_batch_of_used sys n l1 l2 b hs hq hl1 h0⟩)

/-- No command makes two stored batches share an id. -/
theorem step_nodup (sys : Sys) (c : Cmd) (ih : (sys.batches.map Batch.batch_name).Nodup) :
    ((step sys c).1.batches.map Batch.batch_name).Nodup := by
  rcases step_batches sys c with ⟨l, hp, hsub⟩ | ⟨bn, d, m, y, doses, vn, k, hc, hv, he⟩
  · have h1 : ((step sys c).1.batches.map Batch.batch_name) =
        ((step sys c).1.batches.map Batch.ident).map Prod.fst := by
      rw [List.map_map]; rfl
    have h2 : (sys.batches.map Batch.batch_name) =
        (sys.batches.map Batch.ident).map Prod.fst := by
      rw [List.map_map]; rfl
    rw [h1]
    have h3 : (l.map Prod.fst).Nodup := by
      rw [(hp.map Prod.fst).nodup_iff, ← h2]; exact ih
    exact h3.sublist (hsub.map Prod.fst)
  · rw [he, List.map_append, List.nodup_append]
    obtain ⟨-, -, -, hnd, -⟩ := validate_batch_inputs_none sys bn vn ⟨d, m, y⟩ doses hv
    refine ⟨ih, by simp, ?_⟩
    intro x hx1 hx2
    simp only [List.map_cons, List.map_nil, List.mem_singleton] at hx2
    obtain ⟨b, hb, hbn⟩ := List.mem_map.1 hx1
    exact hnd b hb (hbn.trans hx2)

theorem add_batch_mem_capacity (sys : Sys) (bn vn : CStr) (d : Date) (doses : Int) :
    (add_batch sys bn d doses vn).1.mem_capacity = (add_batch_slots sys).mem_capacity := by
  cases hv : validate_batch_inputs sys bn vn d doses with
  | some e => rw [add_batch_of_rejected _ _ _ _ _ e hv]
  | none => rw [add_batch_of_accepted _ _ _ _ _ hv]

theorem step_mem_capacity (sys : Sys) (c : Cmd) :
    (step sys c).1.mem_capacity = sys.mem_capacity ∨
    (∃ bn d m y doses vn, c = Cmd.add_batch bn d m y doses vn ∧
      (step sys c).1.mem_capacity = (add_batch_slots sys).mem_capacity) ∨
    (∃ u v, c = Cmd.vaccinate u v ∧
      (step sys c).1.mem_capacity = (expand_inocula_memory sys).mem_capacity) := by
  cases c with
  | add_batch bn d m y doses vn =>
    right; left
    exact ⟨bn, d, m, y, doses, vn, rfl, add_batch_mem_capacity sys bn vn ⟨d, m, y⟩ doses⟩
  | list_batches names => left; simp only [step]; rw [list_batches_fst]
  | vaccinate u v =>
    simp only [step]
    rcases vaccinate_cases sys u v with ⟨-, h⟩ | ⟨-, -, h⟩ | ⟨l1, b, l2, -, -, -, -, h⟩
    · left; rw [h]
    · right; right; exact ⟨u, v, rfl, by rw [h]⟩
    · right; right; exact ⟨u, v, rfl, by rw [h]⟩
  | delete_batch n =>
    left; simp only [step]
    rcases delete_batch_cases sys n with ⟨-, h⟩ | ⟨l1, b, l2, -, -, -, -, h⟩ |
      ⟨l1, b, l2, -, -, -, -, h⟩ <;> rw [h]
  | list_inoculas user => left; simp only [step]; rw [list_inoculas_fst]
  | update_date arg =>
    left; simp only [step]; unfold update_date
    cases arg with
    | none => rfl
    | some d => simp only []; split_ifs <;> rfl
  | delete_registration u np d m y bn =>
    left; simp only [step]; unfold delete_registration; split_ifs <;> rfl
  | other => left; rfl

theorem step_batches_length (sys : Sys) (c : Cmd) :
    (step sys c).1.batches.length ≤ sys.batches.length ∨
    (∃ bn d m y doses vn, c = Cmd.add_batch bn d m y doses vn ∧
      (step sys c).1.batches.length = sys.batches.length + 1) := by
  rcases step_batches sys c with ⟨l, hp, hsub⟩ | ⟨bn, d, m, y, doses, vn, k, hc, hv, he⟩
  · left
    have h1 := hsub.length_le
    have h2 := hp.length_eq
    simp only [List.length_map] at h1 h2
    omega
  · right
    exact ⟨bn, d, m, y, doses, vn, hc, by rw [he]; simp⟩

/-- In a reachable state the batch count does not exceed `mem_capacity`. -/
theorem reachable_capacity (sys : Sys) (h : Reachable sys) :
    sys.num_batch ≤ sys.mem_capacity := by
  induction h with
  | init g => simp [set_system, Sys.num_batch]
  | step s c _ _ ih =>
    unfold Sys.num_batch at ih ⊢
    have hslots := add_batch_slots_mem_capacity s
    have hexp := expand_inocula_memory_mem_capacity s
    unfold Sys.num_batch at hslots
    rcases step_batches_length s c with hl | ⟨bn, d, m, y, doses, vn, hc, hl⟩
    · rcases step_mem_capacity s c with hm | ⟨_, _, _, _, _, _, -, hm⟩ | ⟨_, _, -, hm⟩
      · rw [hm]; omega
      · rw [hm, hslots]; split_ifs <;> omega
      · rw [hm, hexp]; split_ifs <;> omega
    · have hm : (step s c).1.mem_capacity = (add_batch_slots s).mem_capacity := by
        rw [hc]; exact add_batch_mem_capacity s bn vn ⟨d, m, y⟩ doses
      rw [hm, hslots, hl]; push_cast; split_ifs <;> omega

/-! ### Dose accounting along a run -/

theorem eq_of_same_name (l : List Batch) (hnd : (l.map Batch.batch_name).Nodup)
    (a b : Batch) (ha : a ∈ l) (hb : b ∈ l) (h : a.batch_name = b.batch_name) : a = b :=
  List.inj_on_of_nodup_map hnd ha hb h

theorem tracks_step (x : CStr) (n : Int) (sys : Sys) (k : Nat) (c : Cmd)
    (hc : c ≠ Cmd.delete_batch x) (h : Tracks x n sys k) :
    Tracks x n (step sys c).1 (k + drawn_one x sys c) := by
  obtain ⟨hnd, b, hb, hbx, hbd, hba, hkn⟩ := h
  refine ⟨step_nodup sys c hnd, ?_⟩
  cases c with
  | add_batch bn d m y doses vn =>
    simp only [step, drawn_one, Nat.add_zero]
    refine ⟨b, ?_, hbx, hbd, hba, hkn⟩
    rcases add_batch_batches sys bn vn ⟨d, m, y⟩ doses with h1 | ⟨-, k', h1⟩
    · rw [h1]; exact hb
    · rw [h1]; exact List.mem_append_left _ hb
  | list_batches names =>
    simp only [step, drawn_one, Nat.add_zero]
    rw [list_batches_fst]
    exact ⟨b, (sort_batches_perm _ _).symm.subset hb, hbx, hbd, hba, hkn⟩
  | vaccinate u v =>
    simp only [step, drawn_one]
    rcases vaccinate_cases sys u v with ⟨-, h1⟩ | ⟨-, -, h1⟩ | ⟨l1, b', l2, -, hs, hq, -, h1⟩
    · rw [h1]
      simp only [List.cons.injEq, and_true, if_false, Nat.add_zero, reduceCtorEq]
      exact ⟨b, (sort_batches_perm _ _).symm.subset hb, hbx, hbd, hba, hkn⟩
    · rw [h1]
      simp only [List.cons.injEq, and_true, if_false, Nat.add_zero, reduceCtorEq]
      exact ⟨b, (sort_batches_perm _ _).symm.subset hb, hbx, hbd, hba, hkn⟩
    · rw [h1]
      have hperm := sort_batches_perm sys.batches sys.batches.length
      have hb's : b' ∈ sys.batches := hperm.subset (by rw [hs]; simp)
      have hbs : b ∈ l1 ++ b' :: l2 := hs ▸ hperm.symm.subset hb
      by_cases hname : b'.batch_name = x
      · have heq : b' = b := eq_of_same_name _ hnd b' b hb's hb (hname.trans hbx.symm)
        have hout : ([Out.name b'.batch_name] : List Out) = [Out.name x] := by rw [hname]
        rw [if_pos hout]
        have hpos : b.doses > 0 := heq ▸ hq.2
        refine ⟨{ b' with doses := b'.doses - 1, num_app := b'.num_app + 1 }, by simp,
          hname, ?_, ?_, ?_⟩
        · simp only [heq, hbd]; push_cast; omega
        · simp only [heq, hba]; push_cast; omega
        · push_cast; omega
      · have hout : ¬ (([Out.name b'.batch_name] : List Out) = [Out.name x]) := by
          intro hc'
          simp only [List.cons.injEq, Out.name.injEq, and_true] at hc'
          exact hname hc'
        rw [if_neg hout]
        simp only [Nat.add_zero]
        refine ⟨b, ?_, hbx, hbd, hba, hkn⟩
        rcases List.mem_append.1 hbs with h2 | h2
        · exact List.mem_append_left _ h2
        · rcases List.mem_cons.1 h2 with h3 | h3
          · exact absurd (h3 ▸ hbx) hname
          · exact List.mem_append_right _ (List.mem_cons_of_mem _ h3)
  | delete_batch y =>
    simp only [step, drawn_one, Nat.add_zero]
    have hy : y ≠ x := fun hyx => hc (by rw [hyx])
    rcases delete_batch_cases sys y with ⟨-, h1⟩ | ⟨l1, b', l2, hs, hq, -, -, h1⟩ |
      ⟨l1, b', l2, hs, hq, -, -, h1⟩
    · rw [h1]; exact ⟨b, hb, hbx, hbd, hba, hkn⟩
    · rw [h1]
      refine ⟨b, ?_, hbx, hbd, hba, hkn⟩
      rw [hs] at hb
      rcases List.mem_append.1 hb with h2 | h2
      · exact List.mem_append_left _ h2
      · rcases List.mem_cons.1 h2 with h3 | h3
        · exact absurd (hq.symm.trans (h3 ▸ hbx)) hy
        · exact List.mem_append_right _ h3
    · rw [h1]
      refine ⟨b, ?_, hbx, hbd, hba, hkn⟩
      rw [hs] at hb
      rcases List.mem_append.1 hb with h2 | h2
      · exact List.mem_append_left _ h2
      · rcases List.mem_cons.1 h2 with h3 | h3
        · exact absurd (hq.symm.trans (h3 ▸ hbx)) hy
        · exact List.mem_append_right _ (List.mem_cons_of_mem _ h3)
  | list_inoculas user =>
    simp only [step, drawn_one, Nat.add_zero]
    rw [list_inoculas_fst]
    exact ⟨b, hb, hbx, hbd, hba, hkn⟩
  | update_date arg =>
    simp only [step, drawn_one, Nat.add_zero]
    rw [update_date_batches]
    exact ⟨b, hb, hbx, hbd, hba, hkn⟩
  | delete_registration u np d m y bn =>
    simp only [step, drawn_one, Nat.add_zero]
    rw [delete_registration_batches]
    exact ⟨b, hb, hbx, hbd, hba, hkn⟩
  | other => exact ⟨b, hb, hbx, hbd, hba, hkn⟩

theorem tracks_run (x : CStr) (n : Int) (cs : List Cmd) (sys : Sys) (k : Nat)
    (hcs : ∀ c ∈ cs, c ≠ Cmd.delete_batch x) (h : Tracks x n sys k) :
    Tracks x n (run sys cs).1 (k + drawn x sys cs) := by
  induction cs generalizing sys k with
  | nil => exact h
  | cons c cs ih =>
    simp only [run, drawn]
    have h1 := tracks_step x n sys k c (hcs c (List.mem_cons_self _ _)) h
    have h2 := ih (step sys c).1 (k + drawn_one x sys c)
      (fun c' hc' => hcs c' (List.mem_cons_of_mem _ hc')) h1
    rw [Nat.add_assoc] at h2
    exact h2

theorem tracks_exhausted (x : CStr) (n : Int) (sys : Sys) (k : Nat) (h : Tracks x n sys k)
    (b : Batch) (hb : b ∈ sys.batches) (hbx : b.batch_name = x) (h0 : b.doses = 0)
    (u v : CStr) : (vaccinate sys u v).2 ≠ [Out.name x] := by
  obtain ⟨hnd, -⟩ := h
  rcases vaccinate_cases sys u v with ⟨-, h1⟩ | ⟨-, -, h1⟩ | ⟨l1, b', l2, -, hs, hq, -, h1⟩
  · rw [h1]; simp
  · rw [h1]; simp
  · rw [h1]
    intro hout
    simp only [List.cons.injEq, Out.name.injEq, and_true] at hout
    have hb's : b' ∈ sys.batches :=
      (sort_batches_perm sys.batches sys.batches.length).subset (by rw [hs]; simp)
    have heq : b' = b := eq_of_same_name _ hnd b' b hb's hb (hout.trans hbx.symm)
    have := hq.2
    rw [heq, h0] at this
    exact absurd this (by decide)

/-- C10: when a batch `x` is added with `n` doses in a reachable state (so
`n ≥ 1`) and any lines that do not remove `x` follow, then, `k` being the
number of vaccinations among them answered with the id `x`, the store holds
exactly one batch of id `x`, with `n - k` doses and application count `k`;
`k ≤ n`; and when its doses are 0 no vaccination request is answered with `x`. -/
theorem doses_after_vaccinations (sys : Sys) (x vn : CStr) (d : Date) (n : Int)
    (cs : List Cmd) (hr : Reachable sys)
    (hadd : validate_batch_inputs sys x vn d n = none)
    (hcs : ∀ c ∈ cs, c ≠ Cmd.delete_batch x) :
    1 ≤ n ∧
    ∃ b ∈ (run (add_batch sys x d n vn).1 cs).1.batches,
      b.batch_name = x ∧
      (∀ b' ∈ (run (add_batch sys x d n vn).1 cs).1.batches, b'.batch_name = x → b' = b) ∧
      b.doses = n - drawn x (add_batch sys x d n vn).1 cs ∧
      b.num_app = drawn x (add_batch sys x d n vn).1 cs ∧
      (drawn x (add_batch sys x d n vn).1 cs : Int) ≤ n ∧
      (b.doses = 0 →
        ∀ u v, (vaccinate (run (add_batch sys x d n vn).1 cs).1 u v).2 ≠ [Out.name x]) := by
  obtain ⟨-, -, -, hnew, hn⟩ := validate_batch_inputs_none sys x vn d n hadd
  have happ := add_batch_accepted_batches sys x vn d n (reachable_capacity sys hr) hadd
  have h0 : Tracks x n (add_batch sys x d n vn).1 0 := by
    refine ⟨?_, ⟨vn, x, d, n, 0⟩, ?_, rfl, by simp, rfl, by simpa using (by omega : 0 ≤ n)⟩
    · rw [happ, List.map_append, List.nodup_append]
      refine ⟨reachable_nodup sys hr, by simp, ?_⟩
      intro y hy1 hy2
      simp only [List.map_cons, List.map_nil, List.mem_singleton] at hy2
      obtain ⟨b, hb, hbn⟩ := List.mem_map.1 hy1
      exact hnew b hb (hbn.trans hy2)
    · rw [happ]; simp
  have ht := tracks_run x n cs _ 0 hcs h0
  rw [Nat.zero_add] at ht
  obtain ⟨b, hb, hbx, hbd, hba, hkn⟩ := ht.2
  refine ⟨hn, b, hb, hbx, ?_, hbd, hba, hkn, ?_⟩
  · intro b' hb' hb'x
    exact eq_of_same_name _ ht.1 b' b hb' hb (hb'x.trans hbx.symm)
  · intro hz u v
    exact tracks_exhausted x n _ _ ht b hb hbx hz u v

/-- C10, at the line `c A 01-01-2026 2 V` in the initial state followed by
three vaccination requests for `V` and a listing: two requests are served
from `A`, which is left with 0 doses and application count 2. -/
theorem doses_after_vaccinations_witness :
    validate_batch_inputs (set_system ex_garbage) [65] [86] ⟨1, 1, 2026⟩ 2 = none ∧
    (∀ c ∈ ex_cmds_draw, c ≠ Cmd.delete_batch [65]) ∧
    drawn [65] (add_batch (set_system ex_garbage) [65] ⟨1, 1, 2026⟩ 2 [86]).1 ex_cmds_draw = 2 ∧
    ∃ b ∈ (run (add_batch (set_system ex_garbage) [65] ⟨1, 1, 2026⟩ 2 [86]).1
        ex_cmds_draw).1.batches,
      b.batch_name = [65] ∧
      b.doses = 2 - drawn [65] (add_batch (set_system ex_garbage) [65] ⟨1, 1, 2026⟩ 2 [86]).1
        ex_cmds_draw ∧
      b.num_app = drawn [65] (add_batch (set_system ex_garbage) [65] ⟨1, 1, 2026⟩ 2 [86]).1
        ex_cmds_draw := by
  have hcs : ∀ c ∈ ex_cmds_draw, c ≠ Cmd.delete_batch [65] := by
    intro c hc
    simp only [ex_cmds_draw, List.mem_cons, List.mem_singleton, List.not_mem_nil,
      or_false] at hc
    rcases hc with h | h | h | h <;> rw [h] <;> simp
  obtain ⟨-, b, hb, hbx, -, hbd, hba, -, -⟩ :=
    doses_after_vaccinations (set_system ex_garbage) [65] [86] ⟨1, 1, 2026⟩ 2 ex_cmds_draw
      (Reachable.init _) (by decide) hcs
  exact ⟨by decide, hcs, by decide, b, hb, hbx, hbd, hba⟩

/-! ### Removing a batch: the two outcomes -/

theorem absent_after_erase (l1 l2 : List Batch) (b : Batch)
    (hnd : ((l1 ++ b :: l2).map Batch.batch_name).Nodup) :
    ∀ b' ∈ l1 ++ l2, b'.batch_name ≠ b.batch_name := by
  intro b' hb' hname
  have hmem : b' ∈ l1 ++ b :: l2 := by
    rcases List.mem_append.1 hb' with h | h
    · exact List.mem_append_left _ h
    · exact List.mem_append_right _ (List.mem_cons_of_mem _ h)
  have heq : b' = b := eq_of_same_name _ hnd b' b hmem (by simp) hname
  have hnd2 : (l1 ++ b :: l2).Nodup := List.Nodup.of_map _ hnd
  rw [List.nodup_middle] at hnd2
  exact (List.nodup_cons.1 hnd2).1 (heq ▸ hb')

theorem not_duplicate_of_absent (sys : Sys) (bn vn : CStr) (d : Date) (doses : Int)
    (h : ∀ b ∈ sys.batches, b.batch_name ≠ bn) :
    validate_batch_inputs sys bn vn d doses ≠ some Err.EDUPBATCH := by
  rw [validate_batch_inputs_chain]
  have hno : ¬ ∃ b ∈ sys.batches, b.batch_name = bn := by
    rintro ⟨b, hb, hbn⟩; exact h b hb hbn
  rw [if_neg hno]
  split_ifs <;> simp

/-- C11: in a reachable state, for a stored batch id `x` whose application
count is 0, `delete_batch` prints 0 and removes exactly that record: the
records before and after it keep their fields and their order, the batch count
goes down by 1, the ledger and the current date are unchanged; afterwards no
stored batch has the id `x`, and validation of a new batch with the id `x` does
not answer duplicate-batch-id. -/
theorem delete_batch_removes_unused (sys : Sys) (x : CStr) (hr : Reachable sys)
    (hx : ∃ b ∈ sys.batches, b.batch_name = x ∧ b.num_app = 0) :
    ∃ l1 b l2, sys.batches = l1 ++ b :: l2 ∧ b.batch_name = x ∧ b.num_app = 0 ∧
      (delete_batch sys x).1.batches = l1 ++ l2 ∧
      (delete_batch sys x).1.num_batch = sys.num_batch - 1 ∧
      (delete_batch sys x).2 = [Out.num 0] ∧
      (delete_batch sys x).1.inocula = sys.inocula ∧
      (delete_batch sys x).1.today = sys.today ∧
      (∀ b' ∈ (delete_batch sys x).1.batches, b'.batch_name ≠ x) ∧
      (∀ vn d doses,
        validate_batch_inputs (delete_batch sys x).1 x vn d doses ≠ some Err.EDUPBATCH) := by
  have hnd := reachable_nodup sys hr
  obtain ⟨b0, hb0, hb0x, hb0a⟩ := hx
  rcases delete_batch_cases sys x with ⟨hmiss, -⟩ | ⟨l1, b, l2, hs, hq, -, h0, h1⟩ |
    ⟨l1, b, l2, hs, hq, -, h0, -⟩
  · exact absurd hb0x (hmiss b0 hb0)
  · have habs : ∀ b' ∈ l1 ++ l2, b'.batch_name ≠ x := by
      rw [hs] at hnd
      intro b' hb'
      rw [← hq]
      exact absent_after_erase l1 l2 b hnd b' hb'
    refine ⟨l1, b, l2, hs, hq, h0, ?_, ?_, ?_, ?_, ?_, ?_, ?_⟩
    · rw [h1]
    · rw [h1]; simp only [Sys.num_batch, hs, List.length_append, List.length_cons]
      push_cast; omega
    · rw [h1]
    · rw [h1]
    · rw [h1]
    · rw [h1]; exact habs
    · intro vn d doses
      apply not_duplicate_of_absent
      rw [h1]; exact habs
  · exfalso
    have hbm : b ∈ sys.batches := by rw [hs]; simp
    have heq : b = b0 := eq_of_same_name _ hnd b b0 hbm hb0 (hq.trans hb0x.symm)
    exact h0 (heq ▸ hb0a)

/-- C11, at the line `r A` after `c A 01-01-2026 5 V`: the store is left empty. -/
theorem delete_batch_removes_unused_witness :
    Reachable ex_state_one ∧
    (∃ b ∈ ex_state_one.batches, b.batch_name = [65] ∧ b.num_app = 0) ∧
    (delete_batch ex_state_one [65]).1.batches = [] ∧
    ∃ l1 b l2, ex_state_one.batches = l1 ++ b :: l2 ∧ b.batch_name = [65] ∧
      (delete_batch ex_state_one [65]).1.batches = l1 ++ l2 ∧
      (delete_batch ex_state_one [65]).2 = [Out.num 0] := by
  have hr : Reachable ex_state_one := reachable_run _ _ (Reachable.init _) (by decide)
  obtain ⟨l1, b, l2, h1, h2, -, h3, -, h4, -⟩ :=
    delete_batch_removes_unused ex_state_one [65] hr (by decide)
  exact ⟨hr, by decide, by decide, l1, b, l2, h1, h2, h3, h4⟩

/-- C12: in a reachable state, for a stored batch id `x` whose application
count is `n ≥ 1`, `delete_batch` prints `n` and sets the doses of that record
to 0; its id, vaccine name, expiration date and application count, every other
stored batch (fields and order), the ledger, the current date and
`mem_capacity` are unchanged, and the record stays in the store. -/
theorem delete_batch_disables_used (sys : Sys) (x : CStr) (hr : Reachable sys)
    (hx : ∃ b ∈ sys.batches, b.batch_name = x ∧ b.num_app ≥ 1) :
    ∃ l1 b l2, sys.batches = l1 ++ b :: l2 ∧ b.batch_name = x ∧ b.num_app ≥ 1 ∧
      (delete_batch sys x).1.batches = l1 ++ { b with doses := 0 } :: l2 ∧
      (delete_batch sys x).2 = [Out.num b.num_app] ∧
      (delete_batch sys x).1.inocula = sys.inocula ∧
      (delete_batch sys x).1.today = sys.today ∧
      (delete_batch sys x).1.mem_capacity = sys.mem_capacity := by
  have hnd := reachable_nodup sys hr
  obtain ⟨b0, hb0, hb0x, hb0a⟩ := hx
  rcases delete_batch_cases sys x with ⟨hmiss, -⟩ | ⟨l1, b, l2, hs, hq, -, h0, -⟩ |
    ⟨l1, b, l2, hs, hq, -, h0, h1⟩
  · exact absurd hb0x (hmiss b0 hb0)
  · exfalso
    have hbm : b ∈ sys.batches := by rw [hs]; simp
    have heq : b = b0 := eq_of_same_name _ hnd b b0 hbm hb0 (hq.trans hb0x.symm)
    rw [heq] at h0
    omega
  · have hbm : b ∈ sys.batches := by rw [hs]; simp
    have heq : b = b0 := eq_of_same_name _ hnd b b0 hbm hb0 (hq.trans hb0x.symm)
    refine ⟨l1, b, l2, hs, hq, heq ▸ hb0a, ?_, ?_, ?_, ?_, ?_⟩ <;> rw [h1]

/-- C12, at the line `r A` in the state `ex_state_mixed`, where batch `A` has
2 doses left and has been applied 3 times: 3 is printed, `A` stays first in
the store with 0 doses and application count 3, and `C` and `B` keep their 5
doses. -/
theorem delete_batch_disables_used_witness :
    Reachable ex_state_mixed ∧
    (∃ b ∈ ex_state_mixed.batches, b.batch_name = [65] ∧ b.num_app ≥ 1) ∧
    ex_state_mixed.batches.map (fun b => (b.batch_name, b.doses, b.num_app)) =
      [([65], 2, 3), ([67], 5, 0), ([66], 5, 0)] ∧
    (delete_batch ex_state_mixed [65]).1.batches.map
        (fun b => (b.batch_name, b.doses, b.num_app)) =
      [([65], 0, 3), ([67], 5, 0), ([66], 5, 0)] ∧
    (delete_batch ex_state_mixed [65]).2 = [Out.num 3] ∧
    ∃ l1 b l2, ex_state_mixed.batches = l1 ++ b :: l2 ∧ b.batch_name = [65] ∧
      (delete_batch ex_state_mixed [65]).1.batches = l1 ++ { b with doses := 0 } :: l2 ∧
      (delete_batch ex_state_mixed [65]).2 = [Out.num b.num_app] ∧
      (delete_batch ex_state_mixed [65]).1.inocula = ex_state_mixed.inocula ∧
      (delete_batch ex_state_mixed [65]).1.today = ex_state_mixed.today := by
  have hr : Reachable ex_state_mixed := reachable_run _ _ (Reachable.init _) (by decide)
  have hx : ∃ b ∈ ex_state_mixed.batches, b.batch_name = [65] ∧ b.num_app ≥ 1 := by
    set_option maxRecDepth 20000 in decide
  obtain ⟨l1, b, l2, h1, h2, -, h3, h4, h5, h6, -⟩ :=
    delete_batch_disables_used ex_state_mixed [65] hr hx
  refine ⟨hr, hx, ?_, ?_, ?_, l1, b, l2, h1, h2, h3, h4, h5, h6⟩ <;>
    (set_option maxRecDepth 20000 in decide)

/-! ### Stability and order of the two sorts -/

/-- The inner loop never exchanges two elements that both satisfy `p`, when
`gt` never holds between two such elements. -/
theorem bubble_inner_filter {α : Type} (gt : α → α → Bool) (p : α → Bool)
    (h : ∀ a b, gt a b = true → ¬ (p a = true ∧ p b = true)) (k : Nat) (l : List α) :
    (bubble_inner gt k l).filter p = l.filter p := by
  induction k generalizing l with
  | zero => simp [bubble_inner]
  | succ k ih =>
    match l with
    | [] => simp [bubble_inner]
    | [a] => simp [bubble_inner]
    | a :: b :: t =>
      simp only [bubble_inner]
      by_cases hgt : gt a b = true
      · rw [if_pos hgt, List.filter_cons, ih (a :: t)]
        have hab := h a b hgt
        cases hpa : p a <;> cases hpb : p b <;> simp [List.filter_cons, hpa, hpb] at hab ⊢
      · rw [if_neg hgt, List.filter_cons, ih (b :: t)]
        simp [List.filter_cons]

theorem bubble_outer_filter {α : Type} (gt : α → α → Bool) (p : α → Bool)
    (h : ∀ a b, gt a b = true → ¬ (p a = true ∧ p b = true)) (r : Nat) (l : List α) :
    (bubble_outer gt r l).filter p = l.filter p := by
  induction r generalizing l with
  | zero => simp [bubble_outer]
  | succ r ih =>
    simp only [bubble_outer]
    rw [ih, bubble_inner_filter gt p h]

theorem ord_date_self (d : Date) : ord_date d d = 0 := by
  unfold ord_date wrap32; simp

theorem sort_inoculas_perm (l : List Inocula) (n : Nat) : (sort_inoculas l n).Perm l :=
  bubble_outer_perm _ _ _

theorem sort_inoculas_filter_date (l : List Inocula) (n : Nat) (d : Date) :
    (sort_inoculas l n).filter (fun r => decide (r.ap_date = d)) =
      l.filter (fun r => decide (r.ap_date = d)) := by
  unfold sort_inoculas
  apply bubble_outer_filter
  intro a b hgt hboth
  simp only [decide_eq_true_eq] at hgt hboth
  unfold ord_inoculas at hgt
  rw [hboth.1, hboth.2, ord_date_self] at hgt
  omega

theorem sort_inoculas_sorted (l : List Inocula) (h : ∀ r ∈ l, r.ap_date.in_range) :
    (sort_inoculas l l.length).Pairwise (fun a b => ¬ b.ap_date.before a.ap_date) := by
  have key := bubble_sorted (fun a b => decide (ord_inoculas a b > 0))
    (fun r : Inocula => r.ap_date.in_range) ?_ ?_ ?_ l h
  · unfold sort_inoculas
    refine List.Pairwise.imp_of_mem ?_ key
    intro a b ha hb hab
    have hpa := h a ((bubble_outer_perm _ _ _).subset ha)
    have hpb := h b ((bubble_outer_perm _ _ _).subset hb)
    simp only [gt_iff_lt, decide_eq_false_iff_not] at hab
    unfold ord_inoculas at hab
    rw [← ord_date_pos_iff a.ap_date b.ap_date hpa hpb]
    exact hab
  · intro a b ha hb hab
    simp only [gt_iff_lt, decide_eq_true_eq, decide_eq_false_iff_not] at hab ⊢
    unfold ord_inoculas at hab ⊢
    have h1 := (ord_date_pos_iff a.ap_date b.ap_date ha hb).1 hab
    intro h2
    have h3 := (ord_date_pos_iff b.ap_date a.ap_date hb ha).1 h2
    unfold Date.before at h1 h3
    omega
  · intro a _
    simp only [gt_iff_lt, decide_eq_false_iff_not]
    unfold ord_inoculas
    rw [ord_date_self]; omega
  · intro a b c ha hb hc hab hbc
    simp only [gt_iff_lt, decide_eq_false_iff_not] at hab hbc ⊢
    unfold ord_inoculas at hab hbc ⊢
    have h1 := ord_date_pos_iff _ _ ha hb
    have h2 := ord_date_pos_iff _ _ hb hc
    have h3 := ord_date_pos_iff _ _ ha hc
    simp only [gt_iff_lt] at h1 h2 h3
    rw [h1] at hab
    rw [h2] at hbc
    rw [h3]
    unfold Date.before at *
    omega

/-- The order of `sort_batches` depends on the range of the dates: the two
batches of `ex_batches_wrap`, a list no run stores, have distinct ids and the
years 2000000000 and -2000000000; the subtraction of `ord_date` wraps to a
negative value, `sort_batches` leaves them as they are, and the later date
stays first. -/
theorem sort_batches_wrap_not_sorted :
    (ex_batches_wrap.map Batch.batch_name).Nodup ∧
    (∀ b ∈ ex_batches_wrap, int32 b.exp_date.day ∧ int32 b.exp_date.month ∧
      int32 b.exp_date.year) ∧
    sort_batches ex_batches_wrap ex_batches_wrap.length = ex_batches_wrap ∧
    ¬ (sort_batches ex_batches_wrap ex_batches_wrap.length).Pairwise
        (fun a b => ¬ b.exp_date.before a.exp_date) := by
  refine ⟨by decide, by decide, by decide, by decide⟩

/-- C13: for stored batches with pairwise distinct ids and expiration dates
whose day, month and year are in [0, 2^31), as in every reachable state
(`reachable_nodup`, `reachable_dates`), `sort_batches` returns a permutation
of them in which each record expires before every later one, or on the same
date with a lexicographically smaller id (bytes compared as numbers); the
unfiltered listing prints exactly these records, each once, in that order, and
leaves the store in that order. -/
theorem sort_batches_sorted_perm (sys : Sys)
    (hid : (sys.batches.map Batch.batch_name).Nodup)
    (hrange : ∀ b ∈ sys.batches, b.exp_date.in_range) :
    (sort_batches sys.batches sys.batches.length).Perm sys.batches ∧
    (sort_batches sys.batches sys.batches.length).Pairwise
      (fun a b => a.exp_date.before b.exp_date ∨
        (a.exp_date = b.exp_date ∧ List.Lex (· < ·) a.batch_name b.batch_name)) ∧
    (list_batches sys []).2 =
      (sort_batches sys.batches sys.batches.length).map Out.batch_info ∧
    (list_batches sys []).1.batches = sort_batches sys.batches sys.batches.length :=
  ⟨sort_batches_perm sys.batches sys.batches.length,
   sort_batches_strict_sorted sys.batches hid hrange, rfl, rfl⟩

/-- C13, at the store of the reachable state `ex_state_unsorted`, which holds
`B` (expiring 01-01-2027), `A` and `C` (both 01-01-2026) in this order:
`sort_batches` puts them in the order `A`, `C`, `B`, and the listing prints
them so. -/
theorem sort_batches_sorted_perm_witness :
    Reachable ex_state_unsorted ∧
    (ex_state_unsorted.batches.map Batch.batch_name).Nodup ∧
    (∀ b ∈ ex_state_unsorted.batches, b.exp_date.in_range) ∧
    ex_state_unsorted.batches.map Batch.batch_name = [[66], [65], [67]] ∧
    (sort_batches ex_state_unsorted.batches ex_state_unsorted.batches.length).map
      Batch.batch_name = [[65], [67], [66]] ∧
    (sort_batches ex_state_unsorted.batches ex_state_unsorted.batches.length).Pairwise
      (fun a b => a.exp_date.before b.exp_date ∨
        (a.exp_date = b.exp_date ∧ List.Lex (· < ·) a.batch_name b.batch_name)) ∧
    (list_batches ex_state_unsorted []).2 =
      (sort_batches ex_state_unsorted.batches ex_state_unsorted.batches.length).map
        Out.batch_info :=
  ⟨reachable_run _ _ (Reachable.init _) (by decide), by decide, by decide, by decide,
   by decide,
   (sort_batches_sorted_perm ex_state_unsorted (by decide) (by decide)).2.1,
   (sort_batches_sorted_perm ex_state_unsorted (by decide) (by decide)).2.2.1⟩

/-- The order of `sort_inoculas` depends on the range of the dates: the two
entries of `ex_inocula_wrap`, a ledger no run stores, have the years 2000000000
and -2000000000; the subtraction of `ord_date` wraps to a negative value,
`sort_inoculas` leaves them as they are, and the later date stays first. -/
theorem sort_inoculas_wrap_not_sorted :
    (∀ r ∈ ex_inocula_wrap, int32 r.ap_date.day ∧ int32 r.ap_date.month ∧
      int32 r.ap_date.year) ∧
    sort_inoculas ex_inocula_wrap ex_inocula_wrap.length = ex_inocula_wrap ∧
    ¬ (sort_inoculas ex_inocula_wrap ex_inocula_wrap.length).Pairwise
        (fun a b => ¬ b.ap_date.before a.ap_date) := by
  refine ⟨by decide, by decide, by decide⟩

/-! ### Deleting ledger entries -/

theorem is_user_found_eq (l : List Inocula) (u : CStr) :
    is_user_found l u = if ∃ r ∈ l, r.user_name = u then 1 else 0 := by
  induction l with
  | nil => simp [is_user_found]
  | cons r rest ih =>
    simp only [is_user_found, strcmp_eq_zero_iff, ih, List.exists_mem_cons_iff]
    by_cases hr : r.user_name = u
    · simp [hr]
    · simp [hr]

theorem is_batch_found_eq (l : List Batch) (n : CStr) :
    is_batch_found l n = if ∃ b ∈ l, b.batch_name = n then 1 else 0 := by
  induction l with
  | nil => simp [is_batch_found]
  | cons b rest ih =>
    simp only [is_batch_found, strcmp_eq_zero_iff, ih, List.exists_mem_cons_iff]
    by_cases hb : b.batch_name = n
    · simp [hb]
    · simp [hb]

theorem is_future_date_eq (d : Date) (sys : Sys) :
    is_future_date d sys = if sys.today.before d then 1 else 0 := by
  unfold is_future_date Date.before
  simp only []
  split_ifs <;> first | rfl | omega

theorem delete_inocula_ne_zero (r : Inocula) (u : CStr) (np d m y : Int) (bn : CStr) :
    delete_inocula r u np d m y bn ≠ 0 ↔ r.selected u np ⟨d, m, y⟩ bn := by
  unfold delete_inocula Inocula.selected
  rw [date_eq_iff]
  have hu := strcmp_eq_zero_iff r.user_name u
  have hb := strcmp_eq_zero_iff r.batch_name bn
  by_cases h1 : strcmp r.user_name u = 0
  · have h1' := hu.1 h1
    by_cases hdate : np < 3 ∨ (r.ap_date.year = y ∧ r.ap_date.month = m ∧ r.ap_date.day = d)
    · by_cases hbatch : np < 5 ∨ strcmp r.batch_name bn = 0
      · have hval : delete_inocula r u np d m y bn = 1 := by
          unfold delete_inocula
          rcases hdate with h | h <;> rcases hbatch with h' | h' <;> simp [h1, h, h']
        unfold delete_inocula at hval
        rw [hval]
        refine ⟨fun _ => ⟨h1', ?_, ?_⟩, fun _ => by decide⟩
        · intro h3
          rcases hdate with h | h
          · omega
          · exact h
        · intro h5
          rcases hbatch with h | h
          · omega
          · exact hb.1 h
      · have hval : delete_inocula r u np d m y bn = 0 := by
          unfold delete_inocula
          push_neg at hbatch
          simp [h1, hbatch.2, not_lt.2 hbatch.1]
        unfold delete_inocula at hval
        rw [hval]
        push_neg at hbatch
        refine ⟨fun h => absurd rfl h, fun h => ?_⟩
        exact absurd (hb.2 (h.2.2 hbatch.1)) hbatch.2
    · have hval : delete_inocula r u np d m y bn = 0 := by
        unfold delete_inocula
        push_neg at hdate
        have hnd : ¬ (r.ap_date.year = y ∧ r.ap_date.month = m ∧ r.ap_date.day = d) :=
          fun h => hdate.2 h.1 h.2.1 h.2.2
        simp [h1, hnd, not_lt.2 hdate.1]
      unfold delete_inocula at hval
      rw [hval]
      push_neg at hdate
      refine ⟨fun h => absurd rfl h, fun h => ?_⟩
      have := h.2.1 hdate.1
      exact absurd this.2.2 (hdate.2 this.1 this.2.1)
  · rw [if_pos h1]
    refine ⟨fun h => absurd rfl h, fun h => absurd (hu.2 h.1) h1⟩

theorem delete_registration_loop_eq (u : CStr) (np d m y : Int) (bn : CStr)
    (l : List Inocula) :
    (delete_registration_loop u np d m y bn l).1 =
      l.filter (fun r => decide (¬ r.selected u np ⟨d, m, y⟩ bn)) ∧
    (delete_registration_loop u np d m y bn l).2 =
      (l.filter (fun r => decide (r.selected u np ⟨d, m, y⟩ bn))).length := by
  induction l with
  | nil => simp [delete_registration_loop]
  | cons r rest ih =>
    simp only [delete_registration_loop, delete_inocula_ne_zero]
    by_cases hs : r.selected u np ⟨d, m, y⟩ bn
    · rw [if_pos hs]
      simp only [List.filter_cons, hs, not_true_eq_false, decide_False, decide_True,
        if_true, List.length_cons]
      refine ⟨ih.1, ?_⟩
      rw [ih.2]; push_cast; rfl
    · rw [if_neg hs]
      simp only [List.filter_cons, hs, not_false_eq_true, decide_False, decide_True,
        if_true]
      exact ⟨by rw [ih.1], ih.2⟩

theorem filter_split_length {α : Type} (p : α → Prop) [DecidablePred p] (l : List α) :
    (l.filter (fun r => decide (¬ p r))).length + (l.filter (fun r => decide (p r))).length =
      l.length := by
  induction l with
  | nil => rfl
  | cons a t ih =>
    by_cases h : p a
    · simp only [List.filter_cons, h, not_true_eq_false, decide_False, decide_True, if_true,
        List.length_cons]
      simp only [Bool.false_eq_true, if_false]
      omega
    · simp only [List.filter_cons, h, not_false_eq_true, decide_False, decide_True, if_true,
        List.length_cons]
      simp only [Bool.false_eq_true, if_false]
      omega

/-- The outcome of `delete_registration` by the three tests it makes first. -/
theorem delete_registration_eq (sys : Sys) (u : CStr) (np d m y : Int) (bn : CStr) :
    delete_registration sys u np d m y bn =
      if ¬ ∃ r ∈ sys.inocula, r.user_name = u then (sys, [Out.name_err u Err.ENOSUSER])
      else if 4 ≤ np ∧ sys.today.before ⟨d, m, y⟩ then (sys, [Out.err Err.EINVDATE])
      else if np = 5 ∧ ∀ b ∈ sys.batches, b.batch_name ≠ bn then
        (sys, [Out.name_err bn Err.ENOSBATCH])
      else
        ({ sys with
           inocula := sys.inocula.filter (fun r => decide (¬ r.selected u np ⟨d, m, y⟩ bn)) },
         [Out.num ((sys.inocula.filter
            (fun r => decide (r.selected u np ⟨d, m, y⟩ bn))).length)]) := by
  unfold delete_registration
  rw [is_user_found_eq, is_batch_found_eq, is_future_date_eq]
  obtain ⟨hl1, hl2⟩ := delete_registration_loop_eq u np d m y bn sys.inocula
  have hA : ∀ P : Prop, ∀ [Decidable P], ((if P then (1 : Int) else 0) = 0) ↔ ¬ P := by
    intro P _; by_cases h : P <;> simp [h]
  have hB : ∀ P : Prop, ∀ [Decidable P], ((if P then (1 : Int) else 0) ≠ 0) ↔ P := by
    intro P _; by_cases h : P <;> simp [h]
  have hC : (¬ ∃ b ∈ sys.batches, b.batch_name = bn) ↔ ∀ b ∈ sys.batches, b.batch_name ≠ bn := by
    push_neg; rfl
  simp only [hA, hB, hC, hl1, hl2, ge_iff_le]

/-- C15: when a delete request passes the three checks of `delete_registration`
(the user has a ledger entry, a full date is not after the current date, a
batch id is the id of a stored batch), exactly the selected entries are
removed: those with the given user name and, when a date was read, that
application date and, when a batch id was read, that batch id; every other
entry is kept unchanged and in the same relative order, the new ledger length
is the old length minus the number removed, that number is printed, and the
stored batches, the current date and `mem_capacity` are unchanged. -/
theorem delete_registration_removes (sys : Sys) (u : CStr) (np d m y : Int) (bn : CStr)
    (huser : ∃ r ∈ sys.inocula, r.user_name = u)
    (hdate : 4 ≤ np → ¬ sys.today.before ⟨d, m, y⟩)
    (hbatch : np = 5 → ∃ b ∈ sys.batches, b.batch_name = bn) :
    (delete_registration sys u np d m y bn).1.inocula =
      sys.inocula.filter (fun r => decide (¬ r.selected u np ⟨d, m, y⟩ bn)) ∧
    (delete_registration sys u np d m y bn).2 =
      [Out.num ((sys.inocula.filter
        (fun r => decide (r.selected u np ⟨d, m, y⟩ bn))).length)] ∧
    ((delete_registration sys u np d m y bn).1.inocula.length : Int) =
      sys.inocula.length -
        (sys.inocula.filter (fun r => decide (r.selected u np ⟨d, m, y⟩ bn))).length ∧
    (delete_registration sys u np d m y bn).1.batches = sys.batches ∧
    (delete_registration sys u np d m y bn).1.today = sys.today ∧
    (delete_registration sys u np d m y bn).1.mem_capacity = sys.mem_capacity := by
  rw [delete_registration_eq, if_neg (not_not.2 huser), if_neg (fun h => hdate h.1 h.2), if_neg]
  · refine ⟨rfl, rfl, ?_, rfl, rfl, rfl⟩
    have := filter_split_length (fun r : Inocula => r.selected u np ⟨d, m, y⟩ bn) sys.inocula
    simp only []
    omega
  · rintro ⟨h5, hno⟩
    obtain ⟨b, hbm, hbn⟩ := hbatch h5
    exact hno b hbm hbn

/-- C15, at the line `d Ana 01-01-2025` in the state `ex_state_mixed` (current
date 01-02-2025): of the two entries of `Ana` the one dated 01-01-2025 is
removed, the entry of `Rui` and the later entry of `Ana` stay in order. -/
theorem delete_registration_removes_witness :
    (∃ r ∈ ex_state_mixed.inocula, r.user_name = [65, 110, 97]) ∧
    ((4 : Int) ≤ 4 → ¬ ex_state_mixed.today.before ⟨1, 1, 2025⟩) ∧
    (delete_registration ex_state_mixed [65, 110, 97] 4 1 1 2025 []).1.inocula =
      [⟨[82, 117, 105], [86], [65], ⟨1, 2, 2025⟩⟩, ⟨[65, 110, 97], [86], [65], ⟨1, 2, 2025⟩⟩] ∧
    (delete_registration ex_state_mixed [65, 110, 97] 4 1 1 2025 []).2 = [Out.num 1] ∧
    (delete_registration ex_state_mixed [65, 110, 97] 4 1 1 2025 []).1.batches =
      ex_state_mixed.batches :=
  ⟨by decide, by decide, by decide, by decide,
   (delete_registration_removes ex_state_mixed [65, 110, 97] 4 1 1 2025 []
     (by decide) (by decide) (by decide)).2.2.2.1⟩

/-- C16: `delete_registration` rejects, in this order and returning the state
as it was: a user without ledger entry (no-such-user); otherwise a full date
(`num_param` at least 4) strictly after the current date (invalid-date);
otherwise a batch id (`num_param` 5) that no stored batch has (no-such-batch).
A request that passes these three tests is answered with a count; so a date
equal to or before the current date and the id of a stored batch whose doses
were set to 0 are not rejected. -/
theorem delete_registration_rejects (sys : Sys) (u : CStr) (np d m y : Int) (bn : CStr) :
    ((¬ ∃ r ∈ sys.inocula, r.user_name = u) →
      delete_registration sys u np d m y bn = (sys, [Out.name_err u Err.ENOSUSER])) ∧
    ((∃ r ∈ sys.inocula, r.user_name = u) ∧ 4 ≤ np ∧ sys.today.before ⟨d, m, y⟩ →
      delete_registration sys u np d m y bn = (sys, [Out.err Err.EINVDATE])) ∧
    ((∃ r ∈ sys.inocula, r.user_name = u) ∧ ¬ (4 ≤ np ∧ sys.today.before ⟨d, m, y⟩) ∧
      np = 5 ∧ (∀ b ∈ sys.batches, b.batch_name ≠ bn) →
      delete_registration sys u np d m y bn = (sys, [Out.name_err bn Err.ENOSBATCH])) ∧
    ((∃ r ∈ sys.inocula, r.user_name = u) ∧ ¬ (4 ≤ np ∧ sys.today.before ⟨d, m, y⟩) ∧
      ¬ (np = 5 ∧ ∀ b ∈ sys.batches, b.batch_name ≠ bn) →
      ∃ k : Nat, (delete_registration sys u np d m y bn).2 = [Out.num k]) ∧
    ((∃ r ∈ sys.inocula, r.user_name = u) ∧ ¬ sys.today.before ⟨d, m, y⟩ ∧
      (∃ b ∈ sys.batches, b.batch_name = bn ∧ b.doses = 0) →
      ∃ k : Nat, (delete_registration sys u np d m y bn).2 = [Out.num k]) := by
  have heq := delete_registration_eq sys u np d m y bn
  refine ⟨?_, ?_, ?_, ?_, ?_⟩
  · intro h
    rw [heq, if_pos h]
  · rintro ⟨h1, h2, h3⟩
    rw [heq, if_neg (not_not.2 h1), if_pos ⟨h2, h3⟩]
  · rintro ⟨h1, h2, h3, h4⟩
    rw [heq, if_neg (not_not.2 h1), if_neg h2, if_pos ⟨h3, h4⟩]
  · rintro ⟨h1, h2, h3⟩
    rw [heq, if_neg (not_not.2 h1), if_neg h2, if_neg h3]
    exact ⟨_, rfl⟩
  · rintro ⟨h1, h2, b, hb, hbn, -⟩
    rw [heq, if_neg (not_not.2 h1), if_neg (fun h => h2 h.2),
      if_neg (fun h => h.2 b hb hbn)]
    exact ⟨_, rfl⟩

/-! ### The current date -/

/-- C17, as stated, fails: in the initial state (current date 01-01-2025) the
line `t 31-12-2024` names a calendar date, yet it is answered with
invalid-date and the current date stays 01-01-2025. -/
theorem update_date_rejects_earlier_date :
    (⟨31, 12, 2024⟩ : Date).calendar_valid ∧
    (update_date (set_system ex_garbage) (some ⟨31, 12, 2024⟩)).2 = [Out.err Err.EINVDATE] ∧
    (update_date (set_system ex_garbage) (some ⟨31, 12, 2024⟩)).1.today = ⟨1, 1, 2025⟩ := by
  refine ⟨by decide, by decide, by decide⟩

/-- C17 (amended): the set-date command validates its argument with
`validate_date`: when the argument is a calendar date that is not before the
current date, the current date is replaced by it and echoed; otherwise
invalid-date is printed and the state is unchanged; with no argument the
current date is printed and the state is unchanged. -/
theorem update_date_effect (sys : Sys) :
    update_date sys none = (sys, [Out.date sys.today]) ∧
    ∀ d : Date, update_date sys (some d) =
      if d.calendar_valid ∧ ¬ d.before sys.today then ({ sys with today := d }, [Out.date d])
      else (sys, [Out.err Err.EINVDATE]) := by
  refine ⟨rfl, ?_⟩
  intro d
  unfold update_date
  simp only []
  rw [validate_date_eq]
  by_cases h : d.calendar_valid ∧ ¬ d.before sys.today
  · rw [if_pos h, if_neg (by simp), if_pos h]
  · rw [if_neg h, if_pos (by decide), if_neg h]

theorem not_before_trans (a b c : Date) (h1 : ¬ b.before a) (h2 : ¬ c.before b) :
    ¬ c.before a := by
  unfold Date.before at *; omega

theorem step_not_before (sys : Sys) (c : Cmd) : ¬ (step sys c).1.today.before sys.today := by
  rcases step_today sys c with h | ⟨d, -, hv, h⟩
  · rw [h]; exact date_before_irrefl _
  · rw [h]
    rw [validate_date_eq] at hv
    split_ifs at hv with hc
    · exact hc.2
    · exact absurd hv (by decide)

theorem run_not_before (sys : Sys) (cs : List Cmd) : ¬ (run sys cs).1.today.before sys.today := by
  induction cs generalizing sys with
  | nil => exact date_before_irrefl _
  | cons c cs ih =>
    simp only [run]
    exact not_before_trans _ _ _ (step_not_before sys c) (ih (step sys c).1)

/-- C18: no command moves the current date backward: after each command, and
after any sequence of commands, the current date is not before what it was;
it differs only after a set-date command that echoed its argument; in a
reachable state it is not before 01-01-2025. -/
theorem date_never_moves_back (sys : Sys) (c : Cmd) (cs : List Cmd) :
    ¬ (step sys c).1.today.before sys.today ∧
    ((step sys c).1.today ≠ sys.today →
      ∃ d, c = Cmd.update_date (some d) ∧ (step sys c).2 = [Out.date d] ∧
        (step sys c).1.today = d) ∧
    ¬ (run sys cs).1.today.before sys.today ∧
    (Reachable sys → ¬ sys.today.before ⟨1, 1, 2025⟩) := by
  refine ⟨step_not_before sys c, ?_, run_not_before sys cs, ?_⟩
  · intro hne
    rcases step_today sys c with h | ⟨d, hc, hv, h⟩
    · exact absurd h hne
    · refine ⟨d, hc, ?_, h⟩
      rw [hc]
      simp only [step]
      unfold update_date
      simp only []
      rw [if_neg (not_not.2 hv)]
  · intro hr
    induction hr with
    | init g => exact date_before_irrefl _
    | step s c' _ _ ih => exact not_before_trans _ _ _ ih (step_not_before s c')

/-! ### Storage -/

/-- C19 fails on the code.  After `c A 01-01-2026 11 V` and eleven vaccinations
the ledger has grown `mem_capacity` to 20 while the batch array still has the
10 slots of its `malloc`: the next `c` line resets slot 15 of that array, and
ten more accepted `c` lines leave 11 batches stored in 10 slots.  The other
way round, eleven accepted `c` lines grow `mem_capacity` to 20 and eleven
vaccinations then leave 11 ledger entries in the 10 slots of the ledger. -/
theorem storage_overrun :
    Reachable ex_state_grow_ledger ∧
    ex_state_grow_ledger.mem_capacity = 20 ∧ ex_state_grow_ledger.batch_slots = 10 ∧
    (ex_state_grow_ledger.spare 15).num_app = 7 ∧
    ((add_batch ex_state_grow_ledger [66] ⟨1, 1, 2026⟩ 1 [86]).1.spare 15).num_app = 0 ∧
    (add_batch ex_state_grow_ledger [66] ⟨1, 1, 2026⟩ 1 [86]).1.batch_slots = 10 ∧
    Reachable (run ex_state_grow_ledger ex_cmds_ten_more).1 ∧
    (run ex_state_grow_ledger ex_cmds_ten_more).1.num_batch = 11 ∧
    (run ex_state_grow_ledger ex_cmds_ten_more).1.batch_slots = 10 ∧
    Reachable (run (set_system ex_junk) ex_cmds_grow_batches).1 ∧
    (run (set_system ex_junk) ex_cmds_grow_batches).1.num_inocula = 11 ∧
    (run (set_system ex_junk) ex_cmds_grow_batches).1.inocula_slots = 10 := by
  have hr : Reachable ex_state_grow_ledger :=
    reachable_run _ _ (Reachable.init _) (by decide)
  have hr2 : Reachable (run ex_state_grow_ledger ex_cmds_ten_more).1 :=
    reachable_run _ _ hr (by decide)
  have hr3 : Reachable (run (set_system ex_junk) ex_cmds_grow_batches).1 :=
    reachable_run _ _ (Reachable.init _) (by decide)
  refine ⟨hr, ?_, ?_, ?_, ?_, ?_, hr2, ?_, ?_, hr3, ?_, ?_⟩ <;>
    (set_option maxRecDepth 100000 in decide)

/-- C20: in a reachable state no two stored batches have the same id (ids
compared byte by byte) and at most 1000 batches are stored. -/
theorem reachable_unique_ids (sys : Sys) (hr : Reachable sys) :
    (sys.batches.map Batch.batch_name).Nodup ∧ sys.batches.length ≤ 1000 := by
  refine ⟨reachable_nodup sys hr, ?_⟩
  induction hr with
  | init g => simp [set_system]
  | step s c _ _ ih =>
    rcases step_batches s c with ⟨l, hp, hsub⟩ | ⟨bn, d, m, y, doses, vn, k, -, hv, he⟩
    · have h1 := hsub.length_le
      have h2 := hp.length_eq
      simp only [List.length_map] at h1 h2
      omega
    · obtain ⟨hlt, -⟩ := validate_batch_inputs_none s bn vn ⟨d, m, y⟩ doses hv
      unfold Sys.num_batch at hlt
      rw [he, List.length_append, List.length_singleton]
      omega

/-- C20, at the state `ex_state_mixed`, which stores the batches `B`, `A`, `C`. -/
theorem reachable_unique_ids_witness :
    Reachable ex_state_mixed ∧
    (ex_state_mixed.batches.map Batch.batch_name).Nodup ∧
    ex_state_mixed.batches.length ≤ 1000 :=
  ⟨reachable_run _ _ (Reachable.init _) (by decide),
   reachable_unique_ids ex_state_mixed (reachable_run _ _ (Reachable.init _) (by decide))⟩

/-! ### The shape of one step -/

/-- What one command does to the stored batches, the ledger and the current
date: either the batches are only reordered, the ledger is left alone, sorted
or filtered, and the date does not move back; or one batch is appended; or one
dose of one batch is applied and one ledger entry appended; or one unused batch
is removed; or the doses of one used batch are set to 0. -/
theorem step_shape (sys : Sys) (c : Cmd) :
    ((step sys c).1.batches.Perm sys.batches ∧
      ((step sys c).1.inocula = sys.inocula ∨
       (step sys c).1.inocula = sort_inoculas sys.inocula sys.inocula.length ∨
       ∃ p : Inocula → Bool, (step sys c).1.inocula = sys.inocula.filter p) ∧
      ¬ (step sys c).1.today.before sys.today) ∨
    (∃ bn vn d doses k, validate_batch_inputs sys bn vn d doses = none ∧
      (step sys c).1.batches = sys.batches ++
        [{ vacc_name := vn, batch_name := bn, exp_date := d, doses := doses, num_app := k }] ∧
      (sys.num_batch ≤ sys.mem_capacity → k = 0) ∧
      (step sys c).1.inocula = sys.inocula ∧ (step sys c).1.today = sys.today) ∨
    (∃ u v l1 b l2, c = Cmd.vaccinate u v ∧ is_already_vaccinated sys u v = 0 ∧
      (l1 ++ b :: l2).Perm sys.batches ∧ b.dispensable v ∧
      (step sys c).1.batches =
        l1 ++ { b with doses := b.doses - 1, num_app := b.num_app + 1 } :: l2 ∧
      (step sys c).1.inocula = sys.inocula ++
        [{ user_name := u, vacc_name := v, batch_name := b.batch_name, ap_date := sys.today }] ∧
      (step sys c).1.today = sys.today ∧ (step sys c).2 = [Out.name b.batch_name]) ∨
    (∃ l1 b l2, sys.batches = l1 ++ b :: l2 ∧ b.num_app = 0 ∧
      c = Cmd.delete_batch b.batch_name ∧
      (step sys c).1.batches = l1 ++ l2 ∧
      (step sys c).1.inocula = sys.inocula ∧ (step sys c).1.today = sys.today) ∨
    (∃ l1 b l2, sys.batches = l1 ++ b :: l2 ∧ b.num_app ≠ 0 ∧
      (step sys c).1.batches = l1 ++ { b with doses := 0 } :: l2 ∧
      (step sys c).1.inocula = sys.inocula ∧ (step sys c).1.today = sys.today) := by
  cases c with
  | add_batch bn d m y doses vn =>
    simp only [step]
    cases hv : validate_batch_inputs sys bn vn ⟨d, m, y⟩ doses with
    | some e =>
      left
      rw [add_batch_of_rejected _ _ _ _ _ e hv, add_batch_slots_batches,
        add_batch_slots_inocula, add_batch_slots_today]
      exact ⟨List.Perm.refl _, Or.inl rfl, date_before_irrefl _⟩
    | none =>
      right; left
      refine ⟨bn, vn, ⟨d, m, y⟩, doses,
        ((add_batch_slots sys).spare sys.batches.length).num_app, hv, ?_, ?_, ?_, ?_⟩
      · rw [add_batch_of_accepted _ _ _ _ _ hv]
      · exact fun hcap => add_batch_slot_num_app sys hcap
      · rw [add_batch_of_accepted _ _ _ _ _ hv]; exact add_batch_slots_inocula sys
      · rw [add_batch_of_accepted _ _ _ _ _ hv]; exact add_batch_slots_today sys
  | list_batches names =>
    left
    simp only [step]; rw [list_batches_fst]
    exact ⟨sort_batches_perm _ _, Or.inl rfl, date_before_irrefl _⟩
  | vaccinate u v =>
    simp only [step]
    rcases vaccinate_cases sys u v with ⟨-, h1⟩ | ⟨-, -, h1⟩ | ⟨l1, b, l2, h0, hs, hq, -, h1⟩
    · left; rw [h1]
      exact ⟨sort_batches_perm _ _, Or.inl rfl, date_before_irrefl _⟩
    · left; rw [h1]
      refine ⟨sort_batches_perm _ _, Or.inl (expand_inocula_memory_inocula sys), ?_⟩
      simp only [expand_inocula_memory_today]
      exact date_before_irrefl _
    · right; right; left
      refine ⟨u, v, l1, b, l2, rfl, h0, hs ▸ sort_batches_perm _ _, hq, ?_, ?_, ?_, ?_⟩ <;>
        rw [h1]
      exact expand_inocula_memory_today sys
  | delete_batch n =>
    simp only [step]
    rcases delete_batch_cases sys n with ⟨-, h1⟩ | ⟨l1, b, l2, hs, hq, -, h0, h1⟩ |
      ⟨l1, b, l2, hs, hq, -, h0, h1⟩
    · left; rw [h1]
      exact ⟨List.Perm.refl _, Or.inl rfl, date_before_irrefl _⟩
    · right; right; right; left
      refine ⟨l1, b, l2, hs, h0, by rw [hq], ?_, ?_, ?_⟩ <;> rw [h1]
    · right; right; right; right
      refine ⟨l1, b, l2, hs, h0, ?_, ?_, ?_⟩ <;> rw [h1]
  | list_inoculas user =>
    left
    simp only [step]; rw [list_inoculas_fst]
    exact ⟨List.Perm.refl _, Or.inr (Or.inl rfl), date_before_irrefl _⟩
  | update_date arg =>
    left
    refine ⟨?_, Or.inl ?_, step_not_before sys _⟩
    · simp only [step]; rw [update_date_batches]
    · simp only [step]; unfold update_date
      cases arg with
      | none => rfl
      | some d => simp only []; split_ifs <;> rfl
  | delete_registration u np d m y bn =>
    left
    simp only [step]
    rw [delete_registration_eq]
    split_ifs
    all_goals first
      | exact ⟨List.Perm.refl _, Or.inl rfl, date_before_irrefl _⟩
      | exact ⟨List.Perm.refl _, Or.inr (Or.inr ⟨_, rfl⟩), date_before_irrefl _⟩
  | other =>
    left
    exact ⟨List.Perm.refl _, Or.inl rfl, date_before_irrefl _⟩

/-! ### Invariants of the ledger and of the doses -/

theorem reachable_ledger_keys (sys : Sys) (hr : Reachable sys) :
    (sys.inocula.map Inocula.key).Nodup := by
  induction hr with
  | init g => simp [set_system]
  | step s c _ _ ih =>
    rcases step_shape s c with ⟨-, hi, -⟩ | ⟨_, _, _, _, _, -, -, -, hi, -⟩ |
      ⟨u, v, l1, b, l2, -, h0, -, -, -, hi, -, -⟩ | ⟨_, _, _, -, -, -, -, hi, -⟩ |
      ⟨_, _, _, -, -, -, hi, -⟩
    · rcases hi with hi | hi | ⟨p, hi⟩
      · rw [hi]; exact ih
      · rw [hi]; exact ((sort_inoculas_perm _ _).map _).nodup_iff.2 ih
      · rw [hi]; exact ih.sublist ((List.filter_sublist _).map _)
    · rw [hi]; exact ih
    · rw [hi, List.map_append, List.nodup_append]
      refine ⟨ih, by simp, ?_⟩
      intro k hk1 hk2
      simp only [List.map_cons, List.map_nil, List.mem_singleton] at hk2
      obtain ⟨r, hrm, hrk⟩ := List.mem_map.1 hk1
      have hne : is_already_vaccinated s u v ≠ 0 := by
        rw [is_already_vaccinated_ne_zero]
        rw [hk2] at hrk
        simp only [Inocula.key, Prod.mk.injEq] at hrk
        exact ⟨r, hrm, hrk.1, hrk.2.1, hrk.2.2⟩
      exact hne h0
    · rw [hi]; exact ih
    · rw [hi]; exact ih

/-- C21: in a reachable state no two entries of the ledger (at different
positions) have the same user name, the same vaccine name and the same
application date. -/
theorem ledger_no_duplicate (sys : Sys) (hr : Reachable sys) :
    sys.inocula.Pairwise (fun a b =>
      ¬ (a.user_name = b.user_name ∧ a.vacc_name = b.vacc_name ∧ a.ap_date = b.ap_date)) := by
  have h := reachable_ledger_keys sys hr
  unfold List.Nodup at h
  rw [List.pairwise_map] at h
  refine h.imp ?_
  intro a b hab hsame
  apply hab
  simp only [Inocula.key, Prod.mk.injEq]
  exact hsame

/-- C21, at the ledger of `ex_state_mixed`. -/
theorem ledger_no_duplicate_witness :
    Reachable ex_state_mixed ∧ ex_state_mixed.inocula.length = 3 ∧
    ex_state_mixed.inocula.Pairwise (fun a b =>
      ¬ (a.user_name = b.user_name ∧ a.vacc_name = b.vacc_name ∧ a.ap_date = b.ap_date)) :=
  ⟨reachable_run _ _ (Reachable.init _) (by decide), by decide,
   ledger_no_duplicate ex_state_mixed (reachable_run _ _ (Reachable.init _) (by decide))⟩

theorem reachable_doses_nonneg (sys : Sys) (hr : Reachable sys) :
    ∀ b ∈ sys.batches, 0 ≤ b.doses := by
  induction hr with
  | init g => simp [set_system]
  | step s c _ _ ih =>
    rcases step_shape s c with ⟨hp, -, -⟩ | ⟨bn, vn, d, doses, k, hv, hb, -, -, -⟩ |
      ⟨u, v, l1, b, l2, -, -, hp, hq, hb, -, -, -⟩ | ⟨l1, b, l2, hs, -, -, hb, -, -⟩ |
      ⟨l1, b, l2, hs, -, hb, -, -⟩
    · exact fun b hb => ih b (hp.subset hb)
    · intro b' hb'
      rw [hb] at hb'
      rcases List.mem_append.1 hb' with h | h
      · exact ih b' h
      · rw [List.mem_singleton.1 h]
        have := (validate_batch_inputs_none s bn vn d doses hv).2.2.2.2
        simp only []; omega
    · intro b' hb'
      rw [hb] at hb'
      rcases List.mem_append.1 hb' with h | h
      · exact ih b' (hp.subset (List.mem_append_left _ h))
      · rcases List.mem_cons.1 h with h | h
        · rw [h]; have := hq.2; simp only []; omega
        · exact ih b' (hp.subset (List.mem_append_right _ (List.mem_cons_of_mem _ h)))
    · intro b' hb'
      rw [hb] at hb'
      apply ih b'
      rw [hs]
      rcases List.mem_append.1 hb' with h | h
      · exact List.mem_append_left _ h
      · exact List.mem_append_right _ (List.mem_cons_of_mem _ h)
    · intro b' hb'
      rw [hb] at hb'
      rcases List.mem_append.1 hb' with h | h
      · exact ih b' (by rw [hs]; exact List.mem_append_left _ h)
      · rcases List.mem_cons.1 h with h | h
        · rw [h]
        · exact ih b' (by rw [hs]; exact List.mem_append_right _ (List.mem_cons_of_mem _ h))

/-- C22: in a reachable state every stored batch has doses at least 0, and
after any command a batch whose id was stored before has at most the doses it
had before. -/
theorem doses_never_increase (sys : Sys) (c : Cmd) (hr : Reachable sys) :
    (∀ b ∈ sys.batches, 0 ≤ b.doses) ∧
    ∀ b ∈ sys.batches, ∀ b' ∈ (step sys c).1.batches,
      b'.batch_name = b.batch_name → b'.doses ≤ b.doses := by
  have hpos := reachable_doses_nonneg sys hr
  have hnd := reachable_nodup sys hr
  refine ⟨hpos, ?_⟩
  intro b hb b' hb' hname
  have hsame : ∀ x ∈ sys.batches, x.batch_name = b.batch_name → x = b :=
    fun x hx hxn => eq_of_same_name _ hnd x b hx hb hxn
  rcases step_shape sys c with ⟨hp, -, -⟩ | ⟨bn, vn, d, doses, k, hv, hbs, -, -, -⟩ |
    ⟨u, v, l1, b0, l2, -, -, hp, hq, hbs, -, -, -⟩ | ⟨l1, b0, l2, hs, -, -, hbs, -, -⟩ |
    ⟨l1, b0, l2, hs, -, hbs, -, -⟩
  · rw [hsame b' (hp.subset hb') hname]
  · rw [hbs] at hb'
    rcases List.mem_append.1 hb' with h | h
    · rw [hsame b' h hname]
    · exfalso
      have hnew := (validate_batch_inputs_none sys bn vn d doses hv).2.2.2.1
      rw [List.mem_singleton.1 h] at hname
      exact hnew b hb hname.symm
  · rw [hbs] at hb'
    have hb0 : b0 ∈ sys.batches := hp.subset (by simp)
    rcases List.mem_append.1 hb' with h | h
    · rw [hsame b' (hp.subset (List.mem_append_left _ h)) hname]
    · rcases List.mem_cons.1 h with h | h
      · rw [h] at hname ⊢
        rw [← hsame b0 hb0 hname]
        simp only []; omega
      · rw [hsame b' (hp.subset (List.mem_append_right _ (List.mem_cons_of_mem _ h))) hname]
  · rw [hbs] at hb'
    have hmem : b' ∈ sys.batches := by
      rw [hs]
      rcases List.mem_append.1 hb' with h | h
      · exact List.mem_append_left _ h
      · exact List.mem_append_right _ (List.mem_cons_of_mem _ h)
    rw [hsame b' hmem hname]
  · rw [hbs] at hb'
    have hb0 : b0 ∈ sys.batches := by rw [hs]; simp
    rcases List.mem_append.1 hb' with h | h
    · rw [hsame b' (by rw [hs]; exact List.mem_append_left _ h) hname]
    · rcases List.mem_cons.1 h with h | h
      · rw [h] at hname ⊢
        exact hpos b hb
      · rw [hsame b' (by rw [hs]; exact List.mem_append_right _ (List.mem_cons_of_mem _ h))
          hname]

/-- C22, at the request `a Z V` in the state `ex_state_mixed`: batch `A`
goes from 2 doses to 1, the other batches keep theirs. -/
theorem doses_never_increase_witness :
    Reachable ex_state_mixed ∧
    (∀ b ∈ ex_state_mixed.batches, 0 ≤ b.doses) ∧
    ∀ b ∈ ex_state_mixed.batches,
      ∀ b' ∈ (step ex_state_mixed (Cmd.vaccinate [90] [86])).1.batches,
        b'.batch_name = b.batch_name → b'.doses ≤ b.doses :=
  ⟨reachable_run _ _ (Reachable.init _) (by decide),
   doses_never_increase ex_state_mixed (Cmd.vaccinate [90] [86])
     (reachable_run _ _ (Reachable.init _) (by decide))⟩

/-! ### The date comparison -/

/-- The sign of `ord_date` depends on the range of the dates: for the dates
01-01-2000000000 and 01-01--2000000000, which no run stores, the first follows
the second, yet the difference of the years wraps to a negative value and
`ord_date` is negative. -/
theorem ord_date_wraps :
    (⟨1, 1, 2000000000⟩ : Date).is_int32 ∧ (⟨1, 1, -2000000000⟩ : Date).is_int32 ∧
    (⟨1, 1, -2000000000⟩ : Date).before ⟨1, 1, 2000000000⟩ ∧
    ord_date ⟨1, 1, 2000000000⟩ ⟨1, 1, -2000000000⟩ = -294967296 ∧
    ¬ (ord_date ⟨1, 1, 2000000000⟩ ⟨1, 1, -2000000000⟩ < 0 ↔
        (⟨1, 1, 2000000000⟩ : Date).before ⟨1, 1, -2000000000⟩) := by
  refine ⟨by decide, by decide, by decide, by decide, by decide⟩

/-! ### The spare slots do not show -/

theorem view_eq_iff (s t : Sys) :
    s.view = t.view ↔ s.mem_capacity = t.mem_capacity ∧ s.batches = t.batches ∧
      s.today = t.today ∧ s.inocula = t.inocula := by
  simp only [Sys.view, Prod.mk.injEq]

theorem step_capacity (sys : Sys) (c : Cmd) (ih : sys.num_batch ≤ sys.mem_capacity) :
    (step sys c).1.num_batch ≤ (step sys c).1.mem_capacity := by
  unfold Sys.num_batch at ih ⊢
  have hslots := add_batch_slots_mem_capacity sys
  have hexp := expand_inocula_memory_mem_capacity sys
  unfold Sys.num_batch at hslots
  rcases step_batches_length sys c with hl | ⟨bn, d, m, y, doses, vn, hc, hl⟩
  · rcases step_mem_capacity sys c with hm | ⟨_, _, _, _, _, _, -, hm⟩ | ⟨_, _, -, hm⟩
    · rw [hm]; omega
    · rw [hm, hslots]; split_ifs <;> omega
    · rw [hm, hexp]; split_ifs <;> omega
  · have hm : (step sys c).1.mem_capacity = (add_batch_slots sys).mem_capacity := by
      rw [hc]; exact add_batch_mem_capacity sys bn vn ⟨d, m, y⟩ doses
    rw [hm, hslots, hl]; push_cast; split_ifs <;> omega

/-- Two states that agree on `mem_capacity`, the stored batches, the current
date and the ledger, and whose batch count does not exceed `mem_capacity`,
answer every command with the same lines and agree again afterwards. -/
theorem step_view (s t : Sys) (c : Cmd) (h : s.view = t.view)
    (hcap : s.num_batch ≤ s.mem_capacity) :
    (step s c).2 = (step t c).2 ∧ (step s c).1.view = (step t c).1.view := by
  rw [view_eq_iff] at h
  obtain ⟨hm, hb, ht, hi⟩ := h
  have hcap' : t.num_batch ≤ t.mem_capacity := by
    unfold Sys.num_batch at hcap ⊢; rw [← hm, ← hb]; exact hcap
  have hal : ∀ u v, is_already_vaccinated t u v = is_already_vaccinated s u v := by
    intro u v; unfold is_already_vaccinated; rw [ht, hi]
  have hex : (expand_inocula_memory s).mem_capacity = (expand_inocula_memory t).mem_capacity := by
    rw [expand_inocula_memory_mem_capacity, expand_inocula_memory_mem_capacity]
    unfold Sys.num_inocula; rw [hm, hi]
  cases c with
  | add_batch bn d m y doses vn =>
    simp only [step]
    have hv := validate_batch_inputs_congr s t hb ht bn vn ⟨d, m, y⟩ doses
    have hslots : (add_batch_slots s).mem_capacity = (add_batch_slots t).mem_capacity := by
      rw [add_batch_slots_mem_capacity, add_batch_slots_mem_capacity]
      unfold Sys.num_batch; rw [hm, hb]
    cases hvs : validate_batch_inputs s bn vn ⟨d, m, y⟩ doses with
    | some e =>
      rw [add_batch_of_rejected s _ _ _ _ e hvs, add_batch_of_rejected t _ _ _ _ e (hv ▸ hvs)]
      refine ⟨rfl, ?_⟩
      rw [view_eq_iff]
      exact ⟨hslots, by rw [add_batch_slots_batches, add_batch_slots_batches, hb],
        by rw [add_batch_slots_today, add_batch_slots_today, ht],
        by rw [add_batch_slots_inocula, add_batch_slots_inocula, hi]⟩
    | none =>
      have h1 := add_batch_accepted_batches s bn vn ⟨d, m, y⟩ doses hcap hvs
      have h2 := add_batch_accepted_batches t bn vn ⟨d, m, y⟩ doses hcap' (hv ▸ hvs)
      rw [view_eq_iff, h1, h2]
      rw [add_batch_of_accepted s _ _ _ _ hvs, add_batch_of_accepted t _ _ _ _ (hv ▸ hvs)]
      exact ⟨rfl, hslots, by rw [hb],
        by show (add_batch_slots s).today = (add_batch_slots t).today
           rw [add_batch_slots_today, add_batch_slots_today, ht],
        by show (add_batch_slots s).inocula = (add_batch_slots t).inocula
           rw [add_batch_slots_inocula, add_batch_slots_inocula, hi]⟩
  | list_batches names =>
    rw [view_eq_iff]
    simp only [step]
    refine ⟨?_, ?_, ?_, ?_, ?_⟩
    · unfold list_batches
      cases names <;> simp only [hb]
    · rw [list_batches_fst, list_batches_fst]; exact hm
    · rw [list_batches_fst, list_batches_fst]; simp only [hb]
    · rw [list_batches_fst, list_batches_fst]; exact ht
    · rw [list_batches_fst, list_batches_fst]; exact hi
  | vaccinate u v =>
    simp only [step]
    rw [view_eq_iff]
    rcases vaccinate_cases s u v with ⟨h0, h1⟩ | ⟨h0, hn, h1⟩ | ⟨l1, b, l2, h0, hs, hq, hl1, h1⟩
    · rw [h1, vaccinate_of_already t u v (by rw [hal]; exact h0)]
      exact ⟨rfl, hm, by simp only [hb], ht, hi⟩
    · rw [h1, vaccinate_of_no_stock t u v (by rw [hal]; exact h0) (hb ▸ hn)]
      exact ⟨rfl, hex, by simp only [hb],
        by show (expand_inocula_memory s).today = (expand_inocula_memory t).today
           rw [expand_inocula_memory_today, expand_inocula_memory_today, ht],
        by show (expand_inocula_memory s).inocula = (expand_inocula_memory t).inocula
           rw [expand_inocula_memory_inocula, expand_inocula_memory_inocula, hi]⟩
    · rw [h1, vaccinate_of_stock t u v (by rw [hal]; exact h0) l1 l2 b (hb ▸ hs) hq hl1]
      exact ⟨rfl, hex, rfl,
        by show (expand_inocula_memory s).today = (expand_inocula_memory t).today
           rw [expand_inocula_memory_today, expand_inocula_memory_today, ht],
        by simp only [hi, ht]⟩
  | delete_batch n =>
    simp only [step]
    rw [view_eq_iff]
    rcases delete_batch_cases s n with ⟨hn, h1⟩ | ⟨l1, b, l2, hs, hq, hl1, h0, h1⟩ |
      ⟨l1, b, l2, hs, hq, hl1, h0, h1⟩
    · rw [h1, delete_batch_of_missing t n (hb ▸ hn)]
      exact ⟨rfl, hm, hb, ht, hi⟩
    · rw [h1, delete_batch_of_unused t n l1 l2 b (hb ▸ hs) hq hl1 h0]
      exact ⟨rfl, hm, rfl, ht, hi⟩
    · rw [h1, delete_batch_of_used t n l1 l2 b (hb ▸ hs) hq hl1 h0]
      exact ⟨rfl, hm, rfl, ht, hi⟩
  | list_inoculas user =>
    rw [view_eq_iff]
    simp only [step]
    refine ⟨?_, ?_, ?_, ?_, ?_⟩
    · unfold list_inoculas
      cases user with
      | none => simp only [hi]
      | some u => simp only [hi]; split_ifs <;> rfl
    · rw [list_inoculas_fst, list_inoculas_fst]; exact hm
    · rw [list_inoculas_fst, list_inoculas_fst]; exact hb
    · rw [list_inoculas_fst, list_inoculas_fst]; exact ht
    · rw [list_inoculas_fst, list_inoculas_fst]; simp only [hi]
  | update_date arg =>
    simp only [step]
    rw [view_eq_iff]
    cases arg with
    | none =>
      unfold update_date
      exact ⟨by simp only [ht], hm, hb, ht, hi⟩
    | some d =>
      unfold update_date
      have hvd : validate_date d s = validate_date d t := by
        rw [validate_date_eq, validate_date_eq, ht]
      simp only [hvd]
      by_cases hz : validate_date d t ≠ 0
      · rw [if_pos hz, if_pos hz]
        exact ⟨rfl, hm, hb, ht, hi⟩
      · rw [if_neg hz, if_neg hz]
        exact ⟨rfl, hm, hb, rfl, hi⟩
  | delete_registration u np d m y bn =>
    simp only [step]
    rw [view_eq_iff, delete_registration_eq, delete_registration_eq, hb, ht, hi]
    by_cases h1 : ¬ ∃ r ∈ t.inocula, r.user_name = u
    · rw [if_pos h1, if_pos h1]; exact ⟨rfl, hm, hb, ht, hi⟩
    rw [if_neg h1, if_neg h1]
    by_cases h2 : 4 ≤ np ∧ t.today.before ⟨d, m, y⟩
    · rw [if_pos h2, if_pos h2]; exact ⟨rfl, hm, hb, ht, hi⟩
    rw [if_neg h2, if_neg h2]
    by_cases h3 : np = 5 ∧ ∀ b ∈ t.batches, b.batch_name ≠ bn
    · rw [if_pos h3, if_pos h3]; exact ⟨rfl, hm, hb, ht, hi⟩
    rw [if_neg h3, if_neg h3]
    exact ⟨rfl, hm, rfl, rfl, rfl⟩
  | other => exact ⟨rfl, (view_eq_iff _ _).2 ⟨hm, hb, ht, hi⟩⟩

theorem run_view (cs : List Cmd) (s t : Sys) (h : s.view = t.view)
    (hcap : s.num_batch ≤ s.mem_capacity) :
    (run s cs).2 = (run t cs).2 ∧ (run s cs).1.view = (run t cs).1.view := by
  induction cs generalizing s t with
  | nil => exact ⟨rfl, h⟩
  | cons c cs ih =>
    simp only [run]
    obtain ⟨h1, h2⟩ := step_view s t c h hcap
    obtain ⟨h3, h4⟩ := ih (step s c).1 (step t c).1 h2 (step_capacity s c hcap)
    exact ⟨by rw [h1, h3], h4⟩

/-- The printed lines and the stored records of a run do not depend on the
content the batch array had when it was allocated. -/
theorem run_garbage (g1 g2 : Nat → Batch) (cs : List Cmd) :
    (run (set_system g1) cs).2 = (run (set_system g2) cs).2 ∧
    (run (set_system g1) cs).1.view = (run (set_system g2) cs).1.view :=
  run_view cs _ _ rfl (by simp [set_system, Sys.num_batch])

/-! ### The scenario of the specification -/

/-- C24, as stated, fails at the listing: after the five lines of the scenario
the fourth printed line is `VacX 1A2B 31-12-2025 4 1` (the year in full, the
doses left after one vaccination), not `VacX 1A2B 31-12-25 5 1`. -/
theorem scenario_listing_differs :
    ((run (set_system ex_garbage) ex_cmds_scenario).2.map Out.line).getD 3 [] =
      bytes "VacX 1A2B 31-12-2025 4 1" ∧
    (run (set_system ex_garbage) ex_cmds_scenario).2.map Out.line ≠
      [bytes "1A2B", bytes "1A2B", bytes "already vaccinated",
       bytes "VacX 1A2B 31-12-25 5 1", bytes "1"] := by
  refine ⟨?_, ?_⟩ <;> (set_option maxRecDepth 100000 in decide)

/-- C24 (amended): from the initial state, whatever the allocated batch array
holds, the lines `c 1A2B 31-12-2025 5 VacX`, `a Ana VacX`, `a Ana VacX`, `l`,
`r 1A2B` print `1A2B`, `1A2B`, `already vaccinated`,
`VacX 1A2B 31-12-2025 4 1` and `1`; after the second line the batch has 4
doses, and at the end it is still stored, with 0 doses and application count 1. -/
theorem scenario_output (garbage : Nat → Batch) :
    (run (set_system garbage) ex_cmds_scenario).2.map Out.line =
      [bytes "1A2B", bytes "1A2B", bytes "already vaccinated",
       bytes "VacX 1A2B 31-12-2025 4 1", bytes "1"] ∧
    (run (set_system garbage) (ex_cmds_scenario.take 2)).1.batches =
      [⟨bytes "VacX", bytes "1A2B", ⟨31, 12, 2025⟩, 4, 1⟩] ∧
    (run (set_system garbage) ex_cmds_scenario).1.batches =
      [⟨bytes "VacX", bytes "1A2B", ⟨31, 12, 2025⟩, 0, 1⟩] := by
  obtain ⟨hout, hview⟩ := run_garbage garbage ex_garbage ex_cmds_scenario
  obtain ⟨-, hview2⟩ := run_garbage garbage ex_garbage (ex_cmds_scenario.take 2)
  rw [view_eq_iff] at hview hview2
  rw [hout, hview.2.1, hview2.2.1]
  refine ⟨?_, ?_, ?_⟩ <;> (set_option maxRecDepth 100000 in decide)

/-! ### The duplicate check and the letter case of the vaccine name -/

/-- C26 fails: after `c 1A2B 31-12-2025 5 VacX`, `a Ana VacX`, `a Ana vacx` the
state is reachable, both requests were served from batch `1A2B` (which has 3
doses left and application count 2), and the ledger holds two entries of user
`Ana` with batch id `1A2B` and date 01-01-2025. The duplicate check compares
the typed vaccine names with `strcmp`, the stock search with `strcasecmp`. -/
theorem vaccinate_twice_other_case :
    Reachable (run (set_system ex_garbage) ex_cmds_case).1 ∧
    (run (set_system ex_garbage) ex_cmds_case).2 =
      [Out.name (bytes "1A2B"), Out.name (bytes "1A2B"), Out.name (bytes "1A2B")] ∧
    (run (set_system ex_garbage) ex_cmds_case).1.inocula =
      [⟨bytes "Ana", bytes "VacX", bytes "1A2B", ⟨1, 1, 2025⟩⟩,
       ⟨bytes "Ana", bytes "vacx", bytes "1A2B", ⟨1, 1, 2025⟩⟩] ∧
    (run (set_system ex_garbage) ex_cmds_case).1.batches =
      [⟨bytes "VacX", bytes "1A2B", ⟨31, 12, 2025⟩, 3, 2⟩] ∧
    ¬ (run (set_system ex_garbage) ex_cmds_case).1.inocula.Pairwise (fun a b =>
      ¬ (a.user_name = b.user_name ∧ a.batch_name = b.batch_name ∧ a.ap_date = b.ap_date)) := by
  refine ⟨reachable_run _ _ (Reachable.init _) (by decide), ?_, ?_, ?_, ?_⟩ <;>
    (set_option maxRecDepth 100000 in decide)

/-! ### The ledger is kept in the order of the dates -/

theorem bubble_inner_of_sorted {α : Type} (gt : α → α → Bool) (k : Nat) (l : List α)
    (h : l.Chain' (fun a b => gt a b = false)) : bubble_inner gt k l = l := by
  induction k generalizing l with
  | zero => cases l <;> rfl
  | succ k ih =>
    match l, h with
    | [], _ => rfl
    | [a], _ => rfl
    | a :: b :: t, h =>
      rw [List.chain'_cons] at h
      simp only [bubble_inner]
      rw [h.1]
      simp only [Bool.false_eq_true, if_false]
      rw [ih _ h.2]

theorem bubble_outer_of_sorted {α : Type} (gt : α → α → Bool) (r : Nat) (l : List α)
    (h : l.Chain' (fun a b => gt a b = false)) : bubble_outer gt r l = l := by
  induction r with
  | zero => rfl
  | succ r ih =>
    simp only [bubble_outer]
    rw [bubble_inner_of_sorted gt _ l h, ih]

theorem sort_inoculas_of_sorted (l : List Inocula) (n : Nat)
    (hr : ∀ r ∈ l, r.ap_date.in_range)
    (hs : l.Pairwise (fun a b => ¬ b.ap_date.before a.ap_date)) :
    sort_inoculas l n = l := by
  unfold sort_inoculas
  apply bubble_outer_of_sorted
  apply List.Pairwise.chain'
  refine List.Pairwise.imp_of_mem ?_ hs
  intro a b ha hb hab
  simp only [gt_iff_lt, decide_eq_false_iff_not]
  unfold ord_inoculas
  intro hpos
  exact hab ((ord_date_pos_iff _ _ (hr a ha) (hr b hb)).1 hpos)

/-- In a reachable state the dates of the ledger have their fields in
[0, 2^31), none of them is after the current date, and no entry is dated before
an entry stored in front of it. -/
theorem reachable_ledger_sorted (sys : Sys) (h : Reachable sys) :
    (∀ r ∈ sys.inocula, r.ap_date.in_range ∧ ¬ sys.today.before r.ap_date) ∧
    sys.inocula.Pairwise (fun a b => ¬ b.ap_date.before a.ap_date) := by
  induction h with
  | init g => simp [set_system]
  | step s c hs _ ih =>
    obtain ⟨ihr, ihp⟩ := ih
    have hsort : sort_inoculas s.inocula s.inocula.length = s.inocula :=
      sort_inoculas_of_sorted _ _ (fun r hr => (ihr r hr).1) ihp
    rcases step_shape s c with ⟨-, hi, ht⟩ | ⟨_, _, _, _, _, -, -, -, hi, ht⟩ |
      ⟨u, v, l1, b, l2, -, -, -, -, -, hi, ht, -⟩ | ⟨_, _, _, -, -, -, -, hi, ht⟩ |
      ⟨_, _, _, -, -, -, hi, ht⟩
    · rw [hsort] at hi
      have hsub : (step s c).1.inocula.Sublist s.inocula := by
        rcases hi with hi | hi | ⟨p, hi⟩
        · rw [hi]
        · rw [hi]
        · rw [hi]; exact List.filter_sublist _
      refine ⟨?_, ihp.sublist hsub⟩
      intro r hr
      have := ihr r (hsub.subset hr)
      exact ⟨this.1, not_before_trans _ _ _ this.2 ht⟩
    · rw [hi, ht]; exact ⟨ihr, ihp⟩
    · rw [hi, ht]
      refine ⟨?_, ?_⟩
      · intro r hr
        rcases List.mem_append.1 hr with hr | hr
        · exact ihr r hr
        · rw [List.mem_singleton.1 hr]
          exact ⟨(reachable_dates s hs).1, date_before_irrefl _⟩
      · rw [List.pairwise_append]
        refine ⟨ihp, List.pairwise_singleton _ _, ?_⟩
        intro a ha x hx
        rw [List.mem_singleton.1 hx]
        exact (ihr a ha).2
    · rw [hi, ht]; exact ⟨ihr, ihp⟩
    · rw [hi, ht]; exact ⟨ihr, ihp⟩

theorem step_ledger_order (sys : Sys) (c : Cmd) (h : Reachable sys) :
    (∃ r, (step sys c).1.inocula = sys.inocula ++ [r]) ∨
    (step sys c).1.inocula.Sublist sys.inocula := by
  obtain ⟨ihr, ihp⟩ := reachable_ledger_sorted sys h
  have hsort : sort_inoculas sys.inocula sys.inocula.length = sys.inocula :=
    sort_inoculas_of_sorted _ _ (fun r hr => (ihr r hr).1) ihp
  rcases step_shape sys c with ⟨-, hi, -⟩ | ⟨_, _, _, _, _, -, -, -, hi, -⟩ |
    ⟨u, v, l1, b, l2, -, -, -, -, -, hi, -, -⟩ | ⟨_, _, _, -, -, -, -, hi, -⟩ |
    ⟨_, _, _, -, -, -, hi, -⟩
  · right
    rw [hsort] at hi
    rcases hi with hi | hi | ⟨p, hi⟩
    · rw [hi]
    · rw [hi]
    · rw [hi]; exact List.filter_sublist _
  · right; rw [hi]
  · left; exact ⟨_, hi⟩
  · right; rw [hi]
  · right; rw [hi]

/-- C27: in a reachable state each ledger entry is dated on or before the
entry stored after it (and on or before every later entry), and on or before
the current date; so `sort_inoculas` returns the ledger as it is, the listing
commands leave the state as it is and print the entries (all of them, or
those of the named user) in the order in which they are stored, and that
order is the order of insertion: a command either appends one entry at the end
or leaves a sublist of the ledger. -/
theorem ledger_sorted_by_date (sys : Sys) (hr : Reachable sys) :
    sys.inocula.Chain' (fun a b => ¬ b.ap_date.before a.ap_date) ∧
    sys.inocula.Pairwise (fun a b => ¬ b.ap_date.before a.ap_date) ∧
    (∀ r ∈ sys.inocula, ¬ sys.today.before r.ap_date) ∧
    sort_inoculas sys.inocula sys.inocula.length = sys.inocula ∧
    (∀ user, (list_inoculas sys user).1 = sys) ∧
    (list_inoculas sys none).2 = sys.inocula.map Out.inocula_info ∧
    (∀ u, (∃ r ∈ sys.inocula, r.user_name = u) →
      (list_inoculas sys (some u)).2 =
        (sys.inocula.filter (fun r => decide (r.user_name = u))).map Out.inocula_info) ∧
    (∀ c, (∃ r, (step sys c).1.inocula = sys.inocula ++ [r]) ∨
      (step sys c).1.inocula.Sublist sys.inocula) := by
  obtain ⟨ihr, ihp⟩ := reachable_ledger_sorted sys hr
  have hsort : sort_inoculas sys.inocula sys.inocula.length = sys.inocula :=
    sort_inoculas_of_sorted _ _ (fun r hr => (ihr r hr).1) ihp
  refine ⟨ihp.chain', ihp, fun r hr => (ihr r hr).2, hsort, ?_, ?_, ?_,
    fun c => step_ledger_order sys c hr⟩
  · intro user
    unfold list_inoculas
    simp only [hsort]
    cases user with
    | none => rfl
    | some u => simp only []; split_ifs <;> rfl
  · unfold list_inoculas
    simp only [hsort]
  · rintro u ⟨r, hrm, hru⟩
    unfold list_inoculas
    simp only [hsort]
    have hfe : (fun r : Inocula => decide (strcmp r.user_name u = 0)) =
        (fun r : Inocula => decide (r.user_name = u)) := by
      funext r
      exact decide_eq_decide.2 (strcmp_eq_zero_iff _ _)
    rw [hfe]
    have hne : sys.inocula.filter (fun r => decide (r.user_name = u)) ≠ [] := by
      intro he
      have : r ∈ sys.inocula.filter (fun r => decide (r.user_name = u)) :=
        List.mem_filter.2 ⟨hrm, by simpa using hru⟩
      rw [he] at this
      exact List.not_mem_nil _ this
    rw [if_neg hne]

/-- C27, at the state `ex_state_mixed`, whose ledger holds `Ana` dated
01-01-2025, then `Rui` and `Ana` dated 01-02-2025. -/
theorem ledger_sorted_by_date_witness :
    Reachable ex_state_mixed ∧ ex_state_mixed.inocula.length = 3 ∧
    (ex_state_mixed.inocula.Chain' (fun a b => ¬ b.ap_date.before a.ap_date) ∧
    ex_state_mixed.inocula.Pairwise (fun a b => ¬ b.ap_date.before a.ap_date) ∧
    (∀ r ∈ ex_state_mixed.inocula, ¬ ex_state_mixed.today.before r.ap_date) ∧
    sort_inoculas ex_state_mixed.inocula ex_state_mixed.inocula.length =
      ex_state_mixed.inocula ∧
    (∀ user, (list_inoculas ex_state_mixed user).1 = ex_state_mixed) ∧
    (list_inoculas ex_state_mixed none).2 = ex_state_mixed.inocula.map Out.inocula_info ∧
    (∀ u, (∃ r ∈ ex_state_mixed.inocula, r.user_name = u) →
      (list_inoculas ex_state_mixed (some u)).2 =
        (ex_state_mixed.inocula.filter (fun r => decide (r.user_name = u))).map
          Out.inocula_info) ∧
    (∀ c, (∃ r, (step ex_state_mixed c).1.inocula = ex_state_mixed.inocula ++ [r]) ∨
      (step ex_state_mixed c).1.inocula.Sublist ex_state_mixed.inocula)) :=
  ⟨reachable_run _ _ (Reachable.init _) (by decide), by decide,
   ledger_sorted_by_date ex_state_mixed (reachable_run _ _ (Reachable.init _) (by decide))⟩

/-! ### Ledger entries and the application counts -/

theorem refs_append_singleton (x : CStr) (l : List Inocula) (r : Inocula) :
    refs x (l ++ [r]) = refs x l + if r.batch_name = x then 1 else 0 := by
  unfold refs
  rw [List.countP_append, List.countP_singleton]
  simp only [decide_eq_true_eq]

theorem refs_pos_of_mem (l : List Inocula) (r : Inocula) (h : r ∈ l) :
    0 < refs r.batch_name l := by
  unfold refs
  exact List.countP_pos_iff.2 ⟨r, h, by simp⟩

theorem refs_eq_zero (x : CStr) (l : List Inocula) (h : ∀ r ∈ l, r.batch_name ≠ x) :
    refs x l = 0 := by
  unfold refs
  rw [List.countP_eq_zero]
  intro r hr
  simpa using h r hr

theorem name_ne_of_split (l1 l2 : List Batch) (b : Batch)
    (h : ((l1 ++ b :: l2).map Batch.batch_name).Nodup) :
    ∀ x, x ∈ l1 ∨ x ∈ l2 → x.batch_name ≠ b.batch_name := by
  rw [List.map_append, List.map_cons] at h
  have h2 := (List.nodup_cons.1 (List.nodup_middle.1 h)).1
  intro x hx he
  apply h2
  rw [← he, List.mem_append]
  rcases hx with hx | hx
  · exact Or.inl (List.mem_map_of_mem _ hx)
  · exact Or.inr (List.mem_map_of_mem _ hx)

/-- One command, from a state in which every ledger entry names a stored batch
and no batch has fewer applications than ledger entries: the same holds of the
ledger entries afterwards, and each batch stored afterwards is a batch stored
before, with the same application count and no more ledger entries, or with
one application and one ledger entry more, or is new, with no application and
no ledger entry. -/
theorem step_refs (s : Sys) (c : Cmd)
    (hnd : (s.batches.map Batch.batch_name).Nodup) (hcap : s.num_batch ≤ s.mem_capacity)
    (h1 : ∀ r ∈ s.inocula, r.batch_name ∈ s.batches.map Batch.batch_name)
    (h2 : ∀ b ∈ s.batches, (refs b.batch_name s.inocula : Int) ≤ b.num_app) :
    (∀ r ∈ (step s c).1.inocula, r.batch_name ∈ (step s c).1.batches.map Batch.batch_name) ∧
    (∀ b ∈ (step s c).1.batches,
      (∃ b0 ∈ s.batches, b0.batch_name = b.batch_name ∧
        ((b.num_app = b0.num_app ∧
            refs b.batch_name (step s c).1.inocula ≤ refs b.batch_name s.inocula) ∨
         (b.num_app = b0.num_app + 1 ∧
            refs b.batch_name (step s c).1.inocula = refs b.batch_name s.inocula + 1))) ∨
      (b.num_app = 0 ∧ refs b.batch_name (step s c).1.inocula = 0)) := by
  rcases step_shape s c with ⟨hb, hi, -⟩ | ⟨bn, vn, d, doses, k, hv, hb, hk, hi, -⟩ |
    ⟨u, v, l1, b, l2, -, -, hp, -, hb, hi, -, -⟩ | ⟨l1, b, l2, hb0, h0, -, hb, hi, -⟩ |
    ⟨l1, b, l2, hb0, h0, hb, hi, -⟩
  · have hmem : ∀ r ∈ (step s c).1.inocula, r ∈ s.inocula := by
      rcases hi with hi | hi | ⟨p, hi⟩
      · rw [hi]; exact fun r hr => hr
      · rw [hi]; exact fun r hr => (sort_inoculas_perm _ _).subset hr
      · rw [hi]; exact fun r hr => (List.filter_sublist _).subset hr
    have hcnt : ∀ x, refs x (step s c).1.inocula ≤ refs x s.inocula := by
      intro x
      unfold refs
      rcases hi with hi | hi | ⟨p, hi⟩
      · rw [hi]
      · rw [hi]; exact le_of_eq ((sort_inoculas_perm _ _).countP_eq _)
      · rw [hi]; exact (List.filter_sublist _).countP_le _
    refine ⟨fun r hr => ?_, fun b' hb' => ?_⟩
    · exact (hb.map _).symm.subset (h1 r (hmem r hr))
    · exact Or.inl ⟨b', hb.subset hb', rfl, Or.inl ⟨rfl, hcnt _⟩⟩
  · rw [hb, hi]
    refine ⟨fun r hr => ?_, fun b' hb' => ?_⟩
    · rw [List.map_append]; exact List.mem_append_left _ (h1 r hr)
    · rcases List.mem_append.1 hb' with h | h
      · exact Or.inl ⟨b', h, rfl, Or.inl ⟨rfl, le_refl _⟩⟩
      · right
        rw [List.mem_singleton.1 h]
        refine ⟨hk hcap, refs_eq_zero _ _ ?_⟩
        intro r hr he
        obtain ⟨b0, hb0, hn0⟩ := List.mem_map.1 (h1 r hr)
        exact (validate_batch_inputs_none s bn vn d doses hv).2.2.2.1 b0 hb0 (hn0.trans he)
  · have hnd2 : ((l1 ++ b :: l2).map Batch.batch_name).Nodup := (hp.map _).nodup_iff.2 hnd
    have hne := name_ne_of_split l1 l2 b hnd2
    have hbm : b ∈ s.batches := hp.subset (by simp)
    rw [hb, hi]
    refine ⟨fun r hr => ?_, fun b' hb' => ?_⟩
    · have hn : r.batch_name ∈ (l1 ++ b :: l2).map Batch.batch_name := by
        rcases List.mem_append.1 hr with hr | hr
        · exact (hp.map _).symm.subset (h1 r hr)
        · rw [List.mem_singleton.1 hr]
          exact List.mem_map_of_mem _ (by simp)
      simpa using hn
    · have hcases : (b' ∈ l1 ∨ b' ∈ l2) ∨
          b' = { b with doses := b.doses - 1, num_app := b.num_app + 1 } := by
        simp only [List.mem_append, List.mem_cons] at hb'
        tauto
      rcases hcases with h | h
      · have hbm' : b' ∈ s.batches := hp.subset (by
          simp only [List.mem_append, List.mem_cons]; tauto)
        refine Or.inl ⟨b', hbm', rfl, Or.inl ⟨rfl, ?_⟩⟩
        rw [refs_append_singleton]
        simp only []
        rw [if_neg (fun he => hne b' h he.symm)]
        exact le_refl _
      · refine Or.inl ⟨b, hbm, by rw [h], Or.inr ⟨by rw [h], ?_⟩⟩
        rw [refs_append_singleton, h]
        simp
  · have hbm : b ∈ s.batches := by rw [hb0]; simp
    rw [hb, hi]
    refine ⟨fun r hr => ?_, fun b' hb' => ?_⟩
    · have hn := h1 r hr
      have hne : r.batch_name ≠ b.batch_name := by
        intro he
        have hpos := refs_pos_of_mem _ r hr
        have hle := h2 b hbm
        rw [he] at hpos
        omega
      rw [hb0] at hn
      simp only [List.map_append, List.map_cons, List.mem_append, List.mem_cons] at hn ⊢
      tauto
    · have hbm' : b' ∈ s.batches := by
        rw [hb0]; simp only [List.mem_append, List.mem_cons] at hb' ⊢; tauto
      exact Or.inl ⟨b', hbm', rfl, Or.inl ⟨rfl, le_refl _⟩⟩
  · have hbm : b ∈ s.batches := by rw [hb0]; simp
    rw [hb, hi]
    refine ⟨fun r hr => ?_, fun b' hb' => ?_⟩
    · have hn := h1 r hr
      rw [hb0] at hn
      simpa using hn
    · have hcases : (b' ∈ l1 ∨ b' ∈ l2) ∨ b' = { b with doses := 0 } := by
        simp only [List.mem_append, List.mem_cons] at hb'
        tauto
      rcases hcases with h | h
      · have hbm' : b' ∈ s.batches := by
          rw [hb0]; simp only [List.mem_append, List.mem_cons]; tauto
        exact Or.inl ⟨b', hbm', rfl, Or.inl ⟨rfl, le_refl _⟩⟩
      · exact Or.inl ⟨b, hbm, by rw [h], Or.inl ⟨by rw [h], by rw [h]⟩⟩

theorem reachable_refs (sys : Sys) (hr : Reachable sys) :
    (∀ r ∈ sys.inocula, r.batch_name ∈ sys.batches.map Batch.batch_name) ∧
    (∀ b ∈ sys.batches, (refs b.batch_name sys.inocula : Int) ≤ b.num_app) := by
  induction hr with
  | init g => simp [set_system]
  | step s c hs _ ih =>
    obtain ⟨h1, h2⟩ := ih
    obtain ⟨k1, k2⟩ := step_refs s c (reachable_nodup s hs) (reachable_capacity s hs) h1 h2
    refine ⟨k1, fun b hb => ?_⟩
    rcases k2 b hb with ⟨b0, hb0, hn, h | h⟩ | h
    · have := h2 b0 hb0
      rw [hn] at this
      omega
    · have := h2 b0 hb0
      rw [hn] at this
      omega
    · omega

theorem keeping_reachable (x : CStr) (sys : Sys) (h : ReachableKeeping x sys) :
    Reachable sys := by
  induction h with
  | init g => exact Reachable.init g
  | step s c _ hwf _ ih => exact Reachable.step s c ih hwf

theorem keeping_run (x : CStr) (sys : Sys) (cs : List Cmd) (h : ReachableKeeping x sys)
    (hwf : ∀ c ∈ cs, c.wf) (hk : keeps x sys cs = true) :
    ReachableKeeping x (run sys cs).1 := by
  induction cs generalizing sys with
  | nil => exact h
  | cons c cs ih =>
    simp only [keeps, Bool.and_eq_true, decide_eq_true_eq] at hk
    simp only [run]
    exact ih _ (ReachableKeeping.step sys c h (hwf c (List.mem_cons_self _ _)) hk.1)
      (fun c' hc' => hwf c' (List.mem_cons_of_mem _ hc')) hk.2

theorem keeping_refs (x : CStr) (sys : Sys) (h : ReachableKeeping x sys) :
    ∀ b ∈ sys.batches, b.batch_name = x → b.num_app = (refs x sys.inocula : Int) := by
  induction h with
  | init g => simp [set_system]
  | step s c hs _ hkeep ih =>
    have hr := keeping_reachable x s hs
    obtain ⟨h1, h2⟩ := reachable_refs s hr
    obtain ⟨-, k2⟩ := step_refs s c (reachable_nodup s hr) (reachable_capacity s hr) h1 h2
    intro b hb hbx
    rcases k2 b hb with ⟨b0, hb0, hn, h | h⟩ | h
    · have := ih b0 hb0 (hn.trans hbx)
      rw [hbx] at h
      omega
    · have := ih b0 hb0 (hn.trans hbx)
      rw [hbx] at h
      omega
    · rw [hbx] at h
      omega

theorem step_keeps_referenced (sys : Sys) (c : Cmd) (hr : Reachable sys) :
    ∀ r ∈ sys.inocula, r.batch_name ∈ (step sys c).1.batches.map Batch.batch_name := by
  obtain ⟨h1, h2⟩ := reachable_refs sys hr
  intro r hrm
  have hn := h1 r hrm
  rcases step_shape sys c with ⟨hb, -, -⟩ | ⟨bn, vn, d, doses, k, -, hb, -, -, -⟩ |
    ⟨u, v, l1, b, l2, -, -, hp, -, hb, -, -, -⟩ | ⟨l1, b, l2, hb0, h0, -, hb, -, -⟩ |
    ⟨l1, b, l2, hb0, h0, hb, -, -⟩
  · exact (hb.map _).symm.subset hn
  · rw [hb, List.map_append]; exact List.mem_append_left _ hn
  · have := (hp.map Batch.batch_name).symm.subset hn
    rw [hb]
    simpa using this
  · have hbm : b ∈ sys.batches := by rw [hb0]; simp
    have hne : r.batch_name ≠ b.batch_name := by
      intro he
      have hpos := refs_pos_of_mem _ r hrm
      have hle := h2 b hbm
      rw [he] at hpos
      omega
    rw [hb0] at hn
    rw [hb]
    simp only [List.map_append, List.map_cons, List.mem_append, List.mem_cons] at hn ⊢
    tauto
  · rw [hb0] at hn
    rw [hb]
    simpa using hn

/-- C25: in a reachable state every ledger entry carries the id of a stored
batch, and the application count of each stored batch is at least the number
of ledger entries with its id, and equal to it when the state was reached by
commands none of which removed a ledger entry with that id.  So for a ledger
entry `r`: after any command the id of `r` is still the id of a stored batch,
and `r <id of r>` finds the batch with a count of at least 1, leaves it in its
place with 0 doses and prints the count. -/
theorem ledger_references (sys : Sys) (hr : Reachable sys) :
    (∀ r ∈ sys.inocula, r.batch_name ∈ sys.batches.map Batch.batch_name) ∧
    (∀ b ∈ sys.batches, (refs b.batch_name sys.inocula : Int) ≤ b.num_app) ∧
    (∀ b ∈ sys.batches, ReachableKeeping b.batch_name sys →
      b.num_app = (refs b.batch_name sys.inocula : Int)) ∧
    (∀ r ∈ sys.inocula, ∀ c, r.batch_name ∈ (step sys c).1.batches.map Batch.batch_name) ∧
    (∀ r ∈ sys.inocula, ∃ l1 b l2, sys.batches = l1 ++ b :: l2 ∧
      b.batch_name = r.batch_name ∧ 1 ≤ b.num_app ∧
      (delete_batch sys r.batch_name).1.batches = l1 ++ { b with doses := 0 } :: l2 ∧
      (delete_batch sys r.batch_name).2 = [Out.num b.num_app]) := by
  obtain ⟨h1, h2⟩ := reachable_refs sys hr
  refine ⟨h1, h2, fun b hb hk => keeping_refs _ sys hk b hb rfl,
    fun r hrm c => step_keeps_referenced sys c hr r hrm, ?_⟩
  intro r hrm
  have hpos := refs_pos_of_mem _ r hrm
  rcases delete_batch_cases sys r.batch_name with ⟨hmiss, -⟩ |
    ⟨l1, b, l2, hs, hq, -, h0, -⟩ | ⟨l1, b, l2, hs, hq, -, h0, he⟩
  · obtain ⟨b0, hb0, hn0⟩ := List.mem_map.1 (h1 r hrm)
    exact absurd hn0 (hmiss b0 hb0)
  · have hle := h2 b (by rw [hs]; simp)
    rw [hq] at hle
    omega
  · have hle := h2 b (by rw [hs]; simp)
    rw [hq] at hle
    refine ⟨l1, b, l2, hs, hq, by omega, ?_, ?_⟩
    · rw [he]
    · rw [he]

/-- C25, at the state `ex_state_mixed`: its three ledger entries carry the id
`A`, no entry was removed on the way, and batch `A` has application count 3. -/
theorem ledger_references_witness :
    Reachable ex_state_mixed ∧ ReachableKeeping [65] ex_state_mixed ∧
    ex_state_mixed.inocula.map Inocula.batch_name = [[65], [65], [65]] ∧
    ex_state_mixed.batches.map (fun b => (b.batch_name, b.num_app)) =
      [([65], 3), ([67], 0), ([66], 0)] ∧
    ((∀ r ∈ ex_state_mixed.inocula,
        r.batch_name ∈ ex_state_mixed.batches.map Batch.batch_name) ∧
    (∀ b ∈ ex_state_mixed.batches,
      (refs b.batch_name ex_state_mixed.inocula : Int) ≤ b.num_app) ∧
    (∀ b ∈ ex_state_mixed.batches, ReachableKeeping b.batch_name ex_state_mixed →
      b.num_app = (refs b.batch_name ex_state_mixed.inocula : Int)) ∧
    (∀ r ∈ ex_state_mixed.inocula, ∀ c,
      r.batch_name ∈ (step ex_state_mixed c).1.batches.map Batch.batch_name) ∧
    (∀ r ∈ ex_state_mixed.inocula, ∃ l1 b l2, ex_state_mixed.batches = l1 ++ b :: l2 ∧
      b.batch_name = r.batch_name ∧ 1 ≤ b.num_app ∧
      (delete_batch ex_state_mixed r.batch_name).1.batches =
        l1 ++ { b with doses := 0 } :: l2 ∧
      (delete_batch ex_state_mixed r.batch_name).2 = [Out.num b.num_app])) := by
  have hr : Reachable ex_state_mixed := reachable_run _ _ (Reachable.init _) (by decide)
  refine ⟨hr, keeping_run _ _ _ (ReachableKeeping.init _) (by decide) ?_, ?_, ?_,
    ledger_references ex_state_mixed hr⟩ <;>
    (set_option maxRecDepth 100000 in decide)

/-! ### The sorts and the date comparison on the dates a run stores -/

/-- C14: for every ledger, `sort_inoculas` returns a permutation of it in
which the entries of each application date keep the relative order they had
(the sort is stable); `list_inoculas` for a user name prints, in the order of
`sort_inoculas`, exactly the entries with that user name, and prints the
no-such-user notice exactly when there is no such entry.  When the application
dates have day, month and year in [0, 2^31), as in every reachable state, no
entry of the result is dated before an earlier one. -/
theorem sort_inoculas_stable (sys : Sys) (u : CStr) :
    (sort_inoculas sys.inocula sys.inocula.length).Perm sys.inocula ∧
    (∀ d, (sort_inoculas sys.inocula sys.inocula.length).filter
        (fun r => decide (r.ap_date = d)) =
      sys.inocula.filter (fun r => decide (r.ap_date = d))) ∧
    ((∀ r ∈ sys.inocula, r.ap_date.in_range) →
      (sort_inoculas sys.inocula sys.inocula.length).Pairwise
        (fun a b => ¬ b.ap_date.before a.ap_date)) ∧
    (Reachable sys → ∀ r ∈ sys.inocula, r.ap_date.in_range) ∧
    ((∃ r ∈ sys.inocula, r.user_name = u) →
      (list_inoculas sys (some u)).2 =
        ((sort_inoculas sys.inocula sys.inocula.length).filter
          (fun r => decide (r.user_name = u))).map Out.inocula_info) ∧
    ((list_inoculas sys (some u)).2 = [Out.name_err u Err.ENOSUSER] ↔
      ¬ ∃ r ∈ sys.inocula, r.user_name = u) := by
  have hperm := sort_inoculas_perm sys.inocula sys.inocula.length
  have hfilter : (sort_inoculas sys.inocula sys.inocula.length).filter
      (fun r => decide (strcmp r.user_name u = 0)) =
      (sort_inoculas sys.inocula sys.inocula.length).filter
        (fun r => decide (r.user_name = u)) := by
    congr 1; funext r; simp only [strcmp_eq_zero_iff]
  have hempty : (sort_inoculas sys.inocula sys.inocula.length).filter
      (fun r => decide (r.user_name = u)) = [] ↔ ¬ ∃ r ∈ sys.inocula, r.user_name = u := by
    rw [List.filter_eq_nil_iff]
    constructor
    · rintro h ⟨r, hr, hru⟩
      exact h r (hperm.symm.subset hr) (by simpa using hru)
    · intro h r hr hru
      exact h ⟨r, hperm.subset hr, by simpa using hru⟩
  refine ⟨hperm, fun d => sort_inoculas_filter_date _ _ d,
    fun hrange => sort_inoculas_sorted sys.inocula hrange,
    fun hr r hrm => ((reachable_ledger_sorted sys hr).1 r hrm).1, ?_, ?_⟩
  · intro hex
    unfold list_inoculas
    simp only [hfilter]
    rw [if_neg (fun h => (hempty.1 h) hex)]
  · unfold list_inoculas
    simp only [hfilter]
    by_cases hnone : (sort_inoculas sys.inocula sys.inocula.length).filter
        (fun r => decide (r.user_name = u)) = []
    · rw [if_pos hnone]
      simp only [true_iff]
      exact hempty.1 hnone
    · rw [if_neg hnone]
      constructor
      · intro hout
        exfalso
        cases hl : (sort_inoculas sys.inocula sys.inocula.length).filter
            (fun r => decide (r.user_name = u)) with
        | nil => exact hnone hl
        | cons a t =>
          rw [hl] at hout
          cases t <;> simp at hout
      · intro h
        exact absurd (hempty.2 h) hnone

/-- C14, at the ledger `ex_ledger_unsorted` and the user `Ana`: the sort moves
the two entries of 01-01-2025 to the front, `Rui` before `Ana` as they were,
and keeps the two entries of 01-02-2025 in their order, batch `A` before batch
`B`; the listing for `Ana` prints her three entries in that order. -/
theorem sort_inoculas_stable_witness :
    (∀ r ∈ ex_state_ledger.inocula, r.ap_date.in_range) ∧
    (∃ r ∈ ex_state_ledger.inocula, r.user_name = [65, 110, 97]) ∧
    sort_inoculas ex_state_ledger.inocula ex_state_ledger.inocula.length =
      [⟨[82, 117, 105], [86], [65], ⟨1, 1, 2025⟩⟩, ⟨[65, 110, 97], [86], [67], ⟨1, 1, 2025⟩⟩,
       ⟨[65, 110, 97], [86], [65], ⟨1, 2, 2025⟩⟩, ⟨[65, 110, 97], [87], [66], ⟨1, 2, 2025⟩⟩] ∧
    (list_inoculas ex_state_ledger (some [65, 110, 97])).2 =
      [Out.inocula_info ⟨[65, 110, 97], [86], [67], ⟨1, 1, 2025⟩⟩,
       Out.inocula_info ⟨[65, 110, 97], [86], [65], ⟨1, 2, 2025⟩⟩,
       Out.inocula_info ⟨[65, 110, 97], [87], [66], ⟨1, 2, 2025⟩⟩] ∧
    (sort_inoculas ex_state_ledger.inocula ex_state_ledger.inocula.length).Pairwise
      (fun a b => ¬ b.ap_date.before a.ap_date) ∧
    (list_inoculas ex_state_ledger (some [65, 110, 97])).2 =
      ((sort_inoculas ex_state_ledger.inocula ex_state_ledger.inocula.length).filter
        (fun r => decide (r.user_name = [65, 110, 97]))).map Out.inocula_info ∧
    ((list_inoculas ex_state_ledger (some [90])).2 = [Out.name_err [90] Err.ENOSUSER] ↔
      ¬ ∃ r ∈ ex_state_ledger.inocula, r.user_name = [90]) :=
  ⟨by decide, by decide, by decide, by decide,
   (sort_inoculas_stable ex_state_ledger [65, 110, 97]).2.2.1 (by decide),
   (sort_inoculas_stable ex_state_ledger [65, 110, 97]).2.2.2.2.1 (by decide),
   (sort_inoculas_stable ex_state_ledger [90]).2.2.2.2.2⟩

end VaccineManager
